import Mathlib

/-!
A verification development for `fourier_transform.c`

The C file computes a two-dimensional FFT over a grid of `cvec_t` samples (four complex
channels each) by running a one-dimensional transform over every row and then over every
column, ping-ponging between the caller's buffer and a scratch buffer.

Conventions of the embedding:

* `complex float` arithmetic is taken over the exact complex numbers `ℂ`
  (`float_t`/`floating_t` values over `ℝ`), so `cos`, `sin` and `M_PI` are the real ones;
* a buffer (`cvec_t *`) is a total map from offsets to samples, and the two buffers a call
  ever touches are named by `ptr_t`; the heap is a map from `ptr_t` to buffers;
* `uint32_t` expressions are reduced modulo `2 ^ 32`; `int` expressions are computed in `ℕ`
  (they are non-negative and below `2 ^ 31` whenever `log_len ≤ 30`);
* where C leaves an expression undefined the definitions still have a value: `1<<n` is
  `2 ^ n` reduced modulo `2 ^ 32` also for `n ≥ 31`, `1<<(log_len - 1)` shifts by `0` at
  `log_len = 0`, and a buffer can be read and written at every offset. The definitions
  follow the program for `log_width, log_height ≥ 1` with `log_width + log_height ≤ 31`,
  and for exponents up to 30 as far as the first buffer access; what the program does is
  stated on that domain, and `fft2d_checked` checks every access against the buffer length;
* a loop `for (i = 0; i < n; i++)` is a left fold over `List.range n`;
* the worker threads of one phase are run one after the other, each to completion.
-/

namespace Unblur

/-! ## Lane vectors -/

/-- The struct `cvec_t`: `complex floating_t data[4]`, one complex number per channel. -/
abbrev cvec_t : Type := Fin 4 → ℂ

/-- The C function `add`: channel-wise sum. -/
def add (lhs rhs : cvec_t) : cvec_t :=
  ![lhs 0 + rhs 0, lhs 1 + rhs 1, lhs 2 + rhs 2, lhs 3 + rhs 3]

/-- The C function `sub`: channel-wise difference. -/
def sub (lhs rhs : cvec_t) : cvec_t :=
  ![lhs 0 - rhs 0, lhs 1 - rhs 1, lhs 2 - rhs 2, lhs 3 - rhs 3]

/-- The C function `mul`: channel-wise product. -/
def mul (lhs rhs : cvec_t) : cvec_t :=
  ![lhs 0 * rhs 0, lhs 1 * rhs 1, lhs 2 * rhs 2, lhs 3 * rhs 3]

/-- The C function `from_floating`: a real scalar broadcast to the four channels. -/
def from_floating (f : ℝ) : cvec_t :=
  ![(f : ℂ), (f : ℂ), (f : ℂ), (f : ℂ)]

/-- The C function `get_w`: `cos(angle) + sin(angle) * I` broadcast to the four channels. -/
noncomputable def get_w (angle : ℝ) : cvec_t :=
  let w : ℂ := (Real.cos angle : ℂ) + (Real.sin angle : ℂ) * Complex.I
  ![w, w, w, w]

/-! ## Bit reversal -/

/-- The C function `bit_reverse`: the loop shifts `new_data` left and adds bit `i` of `data`,
for `i = 0 .. length - 1`. -/
def bit_reverse (data length : ℕ) : ℕ :=
  (List.range length).foldl
    (fun new_data i =>
      let new_data := new_data <<< 1
      if data &&& (1 <<< i) ≠ 0 then new_data + 1 else new_data)
    0

/-! ## Buffers and slices -/

/-- The two buffers of one `fft2d` call: the caller's `data` and the scratch `buff`. -/
inductive ptr_t where
  | data
  | buff
  deriving DecidableEq, Repr

/-- The memory a call works on: the contents of each of the two buffers, by offset. -/
abbrev heap_t : Type := ptr_t → ℕ → cvec_t

/-- The struct `slice_t`: one row (`vertical = false`) or one column (`vertical = true`) of
the grid held in buffer `data`. -/
structure slice_t where
  slice : ℕ
  log_width : ℕ
  log_height : ℕ
  data : ptr_t
  vertical : Bool

/-- The C function `to_index`: `width*y + x` in `uint32_t` arithmetic. -/
def to_index (width x y : ℕ) : ℕ :=
  (width * y + x) % 2 ^ 32

/-- The offset `index` that `sample` and `write` compute for local position `t`;
`1<<slice.log_width` is converted to `uint32_t`. -/
def slice_index (slice : slice_t) (t : ℕ) : ℕ :=
  if slice.vertical then
    to_index ((1 <<< slice.log_width) % 2 ^ 32) slice.slice t
  else
    to_index ((1 <<< slice.log_width) % 2 ^ 32) t slice.slice

/-- The C function `sample`: read `slice.data[index]`. -/
def sample (mem : heap_t) (slice : slice_t) (t : ℕ) : cvec_t :=
  mem slice.data (slice_index slice t)

/-- The C function `write`: `slice.data[index] = data`. -/
def write (mem : heap_t) (slice : slice_t) (t : ℕ) (data : cvec_t) : heap_t :=
  fun p j => if p = slice.data ∧ j = slice_index slice t then data else mem p j

/-! ## The three kinds of stage -/

/-- The shift amount of `1<<(log_len - 1)`, a C `int`: it is `-1` for `log_len = 0`. -/
def half_len_shift (log_len : ℕ) : ℤ :=
  (log_len : ℤ) - 1

/-- The C expression `1<<(log_len - 1)` of `fft_prologue` and `fft_epilogue`, for a
non-negative shift amount (a negative one is undefined in C; here it shifts by `0`). -/
def half_len (log_len : ℕ) : ℕ :=
  1 <<< (half_len_shift log_len).toNat

/-- The C function `fft_prologue`. -/
def fft_prologue (index : ℕ) (src dst : slice_t) (log_len : ℕ) (mem : heap_t) : heap_t :=
  let half_len := half_len log_len
  let t := bit_reverse index log_len
  write mem dst index (sample mem src (t ^^^ half_len))

/-- The C function `fft_iteration`. -/
noncomputable def fft_iteration (index : ℕ) (src dst : slice_t) (iteration : ℕ)
    (inverse : Bool) (mem : heap_t) : heap_t :=
  let angle : ℝ := (2 * Real.pi) / (((1 <<< (iteration + 1) : ℕ)) : ℝ)
  let angle : ℝ := if inverse then -angle else angle
  let subtract : Bool := decide (index &&& (1 <<< iteration) ≠ 0)
  let n1 := sample mem src (index ^^^ (1 <<< iteration))
  let n2 := sample mem src index
  let mask := (1 <<< iteration) - 1
  let p := index &&& mask
  let w := get_w (((p + 1 : ℕ) : ℝ) * angle)
  let n2 := if index &&& (1 <<< iteration) ≠ 0 then mul n2 w else n2
  let n1 := if index &&& (1 <<< iteration) ≠ 0 then n1 else mul n1 w
  if subtract then write mem dst index (sub n1 n2)
  else write mem dst index (add n1 n2)

/-- The C function `fft_epilogue`. -/
noncomputable def fft_epilogue (index : ℕ) (src dst : slice_t) (log_len : ℕ)
    (inverse : Bool) (mem : heap_t) : heap_t :=
  let half_len := half_len log_len
  let out := sample mem src ((1 <<< log_len) - index - 1)
  let out := if inverse then mul out (from_floating ((1 : ℝ) / (((1 <<< log_len : ℕ)) : ℝ))) else out
  write mem dst (index ^^^ half_len) out

/-! ## The one-dimensional transform -/

/-- What a running call shares with its work items: the heap and the variable `out` of
`fft2d` that every `out_ptr` points to (`none` is `NULL`). -/
structure state_t where
  mem : heap_t
  out : Option ptr_t

/-- The struct `fft1d_params_t` (its `out_ptr` is always `&out`, kept in `state_t`). -/
structure fft1d_params_t where
  buff_in : ptr_t
  buff_out : ptr_t
  slice_in : slice_t
  slice_out : slice_t
  log_len : ℕ
  inverse : Bool

/-- The local variables of `fft1d` that change from stage to stage. -/
structure fft1d_locals_t where
  mem : heap_t
  buff_in : ptr_t
  buff_out : ptr_t
  slice_in : slice_t
  slice_out : slice_t

/-- The swap that ends every stage of `fft1d` but the last:
`tmp = buff_in; buff_in = buff_out; buff_out = tmp; slice_in.data = buff_in;
slice_out.data = buff_out`. -/
def fft1d_swap (l : fft1d_locals_t) : fft1d_locals_t :=
  { mem := l.mem
    buff_in := l.buff_out
    buff_out := l.buff_in
    slice_in := { l.slice_in with data := l.buff_out }
    slice_out := { l.slice_out with data := l.buff_in } }

/-- The C function `fft1d`: the prologue loop, `log_len` butterfly loops and the epilogue
loop, each over `i = 0 .. length - 1`, with a swap after each but the last; then
`*(params->out_ptr) = buff_out`. -/
noncomputable def fft1d (params : fft1d_params_t) (st : state_t) : state_t :=
  let log_len := params.log_len
  let inverse := params.inverse
  let length := (1 <<< log_len) % 2 ^ 32
  let l0 : fft1d_locals_t :=
    { mem := st.mem
      buff_in := params.buff_in
      buff_out := params.buff_out
      slice_in := params.slice_in
      slice_out := params.slice_out }
  let l1 := fft1d_swap
    { l0 with
      mem := (List.range length).foldl
        (fun mem i => fft_prologue i l0.slice_in l0.slice_out log_len mem) l0.mem }
  let l2 := (List.range log_len).foldl
    (fun (l : fft1d_locals_t) iter =>
      fft1d_swap
        { l with
          mem := (List.range length).foldl
            (fun mem i => fft_iteration i l.slice_in l.slice_out iter inverse mem) l.mem })
    l1
  let mem := (List.range length).foldl
    (fun mem i => fft_epilogue i l2.slice_in l2.slice_out log_len inverse mem) l2.mem
  { mem := mem, out := some l2.buff_out }

/-! ## The work queue -/

/-- The struct `work_item_t`: a function and its parameters. -/
structure work_item_t where
  fn : fft1d_params_t → state_t → state_t
  params : fft1d_params_t

/-- The struct `work_queue_t`; `work_items` is the array, by index. The cursor is kept in
`ℕ`: it would take more than `2 ^ 32 - work_item_count` workers to wrap it. -/
structure work_queue_t where
  work_index : ℕ
  work_item_count : ℕ
  work_items : ℕ → work_item_t

/-- The C function `thread_fn`, for one worker running alone: claim the next index with
`atomic_fetch_add`, stop when it is past the end, else run the item and loop. -/
def thread_fn (p : work_queue_t) (st : state_t) : work_queue_t × state_t :=
  let index := p.work_index
  let p1 := { p with work_index := p.work_index + 1 }
  if index ≥ p.work_item_count then (p1, st)
  else
    let item := p.work_items index
    thread_fn p1 (item.fn item.params st)
termination_by p.work_item_count - p.work_index
decreasing_by
  simp_wf
  omega

/-- The two loops `pthread_create` / `pthread_join` of one phase, with the `threads`
workers scheduled one after the other. -/
def run_threads (threads : ℕ) (queue : work_queue_t) (st : state_t) :
    work_queue_t × state_t :=
  (List.range threads).foldl (fun qs _ => thread_fn qs.1 qs.2) (queue, st)

/-! ## The two-dimensional transform -/

/-- The enum `return_code_t`. -/
inductive return_code_t where
  | Success
  | Mem
  | Dim
  | Thread
  deriving DecidableEq, Repr

/-- The value of a `return_code_t` as the `uint8_t` that `fft2d` returns. -/
def return_code_t.toNat : return_code_t → ℕ
  | .Success => 0
  | .Mem => 1
  | .Dim => 2
  | .Thread => 3

/-- The work items of one phase, as `fft2d` fills `params1`/`work_items1` (rows,
`vertical = false`, `log_len = log_width`) and `params2`/`work_items2` (columns,
`vertical = true`, `log_len = log_height`). -/
noncomputable def phase_items (log_width log_height : ℕ) (buff_input buff_output : ptr_t)
    (vertical : Bool) (log_len : ℕ) (inverse : Bool) (i : ℕ) : work_item_t :=
  let src : slice_t :=
    { slice := i, log_width := log_width, log_height := log_height,
      data := buff_input, vertical := vertical }
  let dst : slice_t :=
    { slice := i, log_width := log_width, log_height := log_height,
      data := buff_output, vertical := vertical }
  { fn := fft1d
    params :=
      { buff_in := buff_input, buff_out := buff_output, slice_in := src, slice_out := dst,
        log_len := log_len, inverse := inverse } }

/-- The heap of a call: the caller's grid under `data`, the scratch block under `buff`. -/
def heap_of (data buff : ℕ → cvec_t) : heap_t
  | ptr_t.data => data
  | ptr_t.buff => buff

/-- The C function `memcpy(data, out, data_len * sizeof(*data))` on the heap: the first
`data_len` samples of `src`, then what `dst` held. -/
def memcpy (dst src : ℕ → cvec_t) (data_len : ℕ) : ℕ → cvec_t :=
  fun i => if i < data_len then src i else dst i

/-- The C function `fft2d`. `data` is the caller's grid on entry and `malloc` the outcome of
the scratch allocation (`none` for `NULL`, else the contents the fresh block happens to
hold). The result is the return code and the caller's grid on exit, or `none` where the C
code reaches `__builtin_unreachable()` or would copy from `NULL`. -/
noncomputable def fft2d (data : ℕ → cvec_t) (log_width log_height threads : ℕ)
    (inverse : Bool) (malloc : Option (ℕ → cvec_t)) :
    Option (return_code_t × (ℕ → cvec_t)) :=
  let width := (1 <<< log_width) % 2 ^ 32
  let height := (1 <<< log_height) % 2 ^ 32
  let data_len := (width * height) % 2 ^ 32
  if threads = 0 then some (return_code_t.Thread, data)
  else if width = 0 ∨ height = 0 then some (return_code_t.Dim, data)
  else
    match malloc with
    | none => some (return_code_t.Mem, data)
    | some buff =>
      let mem0 : heap_t := heap_of data buff
      let buff_input := ptr_t.data
      let buff_output := ptr_t.buff
      let queue1 : work_queue_t :=
        { work_index := 0
          work_item_count := height
          work_items :=
            phase_items log_width log_height buff_input buff_output false log_width inverse }
      let st1 := (run_threads threads queue1 { mem := mem0, out := none }).2
      match st1.out with
      | none => none
      | some out =>
        let buff_input := out
        let buff_output := if out = ptr_t.buff then ptr_t.data else ptr_t.buff
        let queue2 : work_queue_t :=
          { work_index := 0
            work_item_count := width
            work_items :=
              phase_items log_width log_height buff_input buff_output true log_height inverse }
        let st2 := (run_threads threads queue2 st1).2
        match st2.out with
        | none => none
        | some out =>
          if out ≠ ptr_t.data then
            some (return_code_t.Success, memcpy (st2.mem ptr_t.data) (st2.mem out) data_len)
          else
            some (return_code_t.Success, st2.mem ptr_t.data)

/-! ## The stages as maps of sequences

Each of `fft_prologue`, `fft_iteration` and `fft_epilogue` writes, at one position of the
destination slice, a value computed from the source slice. The definitions below name that
value as a function of the source slice read as a sequence; they are the bodies of the C
functions with `sample(src, t)` replaced by `x t`. -/

/-- The value `fft_prologue` writes at position `index`. -/
def prologue_val (log_len : ℕ) (x : ℕ → cvec_t) (index : ℕ) : cvec_t :=
  let half_len := half_len log_len
  let t := bit_reverse index log_len
  x (t ^^^ half_len)

/-- The value `fft_iteration` writes at position `index`. -/
noncomputable def iteration_val (iteration : ℕ) (inverse : Bool) (x : ℕ → cvec_t)
    (index : ℕ) : cvec_t :=
  let angle : ℝ := (2 * Real.pi) / (((1 <<< (iteration + 1) : ℕ)) : ℝ)
  let angle : ℝ := if inverse then -angle else angle
  let subtract : Bool := decide (index &&& (1 <<< iteration) ≠ 0)
  let n1 := x (index ^^^ (1 <<< iteration))
  let n2 := x index
  let mask := (1 <<< iteration) - 1
  let p := index &&& mask
  let w := get_w (((p + 1 : ℕ) : ℝ) * angle)
  let n2 := if index &&& (1 <<< iteration) ≠ 0 then mul n2 w else n2
  let n1 := if index &&& (1 <<< iteration) ≠ 0 then n1 else mul n1 w
  if subtract then sub n1 n2 else add n1 n2

/-- The value `fft_epilogue` writes (at position `index ^ half_len`). -/
noncomputable def epilogue_val (log_len : ℕ) (inverse : Bool) (x : ℕ → cvec_t)
    (index : ℕ) : cvec_t :=
  let out := x ((1 <<< log_len) - index - 1)
  if inverse then mul out (from_floating ((1 : ℝ) / (((1 <<< log_len : ℕ)) : ℝ))) else out

/-- The current slice after the prologue loop and `k` butterfly loops, from the input
sequence `x`. -/
noncomputable def stage_seq (log_len : ℕ) (inverse : Bool) (x : ℕ → cvec_t) :
    ℕ → ℕ → cvec_t
  | 0 => fun i => prologue_val log_len x i
  | k + 1 => fun i => iteration_val k inverse (stage_seq log_len inverse x k) i

/-- The sequence the epilogue loop leaves: position `j` is written from
`index = j ^ half_len`. -/
noncomputable def final_seq (log_len : ℕ) (inverse : Bool) (x : ℕ → cvec_t) (j : ℕ) : cvec_t :=
  epilogue_val log_len inverse (stage_seq log_len inverse x log_len) (j ^^^ half_len log_len)

/-- The unit rotation by the angle of butterfly stage `n - 1`: `get_w(angle)` for
`angle = ± 2π / 2^n`. -/
noncomputable def twiddle_root (inverse : Bool) (n : ℕ) : cvec_t :=
  get_w (if inverse then -((2 * Real.pi) / (((1 <<< n : ℕ)) : ℝ))
    else (2 * Real.pi) / (((1 <<< n : ℕ)) : ℝ))

/-- The scale `fft_epilogue` applies: `1/N` for the inverse direction, none for forward. -/
noncomputable def epilogue_scale (log_len : ℕ) (inverse : Bool) : cvec_t :=
  if inverse then from_floating ((1 : ℝ) / (((1 <<< log_len : ℕ)) : ℝ)) else 1

/-- One turn of the butterfly loop of `fft1d`: the inner loop over `i`, then the swap. -/
noncomputable def butterfly_pass (length : ℕ) (inverse : Bool) (l : fft1d_locals_t)
    (iter : ℕ) : fft1d_locals_t :=
  fft1d_swap
    { l with
      mem := (List.range length).foldl
        (fun mem i => fft_iteration i l.slice_in l.slice_out iter inverse mem) l.mem }

/-- The locals of `fft1d` after the prologue loop and its swap. -/
def after_prologue (params : fft1d_params_t) (st : state_t) : fft1d_locals_t :=
  fft1d_swap
    { mem := (List.range ((1 <<< params.log_len) % 2 ^ 32)).foldl
        (fun mem i => fft_prologue i params.slice_in params.slice_out params.log_len mem)
        st.mem
      buff_in := params.buff_in
      buff_out := params.buff_out
      slice_in := params.slice_in
      slice_out := params.slice_out }

/-- The input line of a work item, read as a sequence: what `sample(slice_in, t)` returns
before the item runs. -/
def input_seq (params : fft1d_params_t) (st : state_t) (t : ℕ) : cvec_t :=
  sample st.mem params.slice_in t

/-- The buffer `fft1d` reports in `out`: `buff_out` for an odd `log_len`, else `buff_in`. -/
def result_ptr (params : fft1d_params_t) : ptr_t :=
  if params.log_len % 2 = 1 then params.buff_out else params.buff_in

/-- A work item is well formed when its two slices name the same line of the grid in two
different buffers, and that line has `2 ^ log_len` distinct offsets. -/
structure params_ok (params : fft1d_params_t) : Prop where
  one_le : 1 ≤ params.log_len
  le : params.log_len ≤ 31
  in_data : params.slice_in.data = params.buff_in
  out_eq : params.slice_out = { params.slice_in with data := params.buff_out }
  ne : params.buff_in ≠ params.buff_out
  inj : ∀ t t', t < 2 ^ params.log_len → t' < 2 ^ params.log_len →
    slice_index params.slice_in t = slice_index params.slice_in t' → t = t'

/-- The invariant of the butterfly loop of `fft1d`, after `k` turns: the two slices are the
item's line in the current buffers, which buffer is current follows the parity of `k`, the
current input line holds `stage_seq k`, and nothing off the line has changed. -/
structure stage_inv (params : fft1d_params_t) (st : state_t) (k : ℕ)
    (l : fft1d_locals_t) : Prop where
  slice_in_eq : l.slice_in = { params.slice_in with data := l.buff_in }
  slice_out_eq : l.slice_out = { params.slice_in with data := l.buff_out }
  buff_in_eq : l.buff_in = if k % 2 = 0 then params.buff_out else params.buff_in
  buff_out_eq : l.buff_out = if k % 2 = 0 then params.buff_in else params.buff_out
  vals : ∀ t, t < 2 ^ params.log_len →
    l.mem l.buff_in (slice_index params.slice_in t)
      = stage_seq params.log_len params.inverse (input_seq params st) k t
  frame : ∀ p j, (∀ t, t < 2 ^ params.log_len → slice_index params.slice_in t ≠ j) →
    l.mem p j = st.mem p j

/-- The one-dimensional transform as a map of sequences: `fft1d` run on a grid of a single
row of `2 ^ log_len` samples (the row in `data`, the scratch `buff` zeroed), read from
the buffer that `out` names afterwards. -/
noncomputable def fft1d_line (log_len : ℕ) (inverse : Bool) (x : ℕ → cvec_t) : ℕ → cvec_t :=
  let st := fft1d (phase_items log_len 0 ptr_t.data ptr_t.buff false log_len inverse 0).params
    { mem := heap_of x (fun _ => 0), out := none }
  match st.out with
  | some p => st.mem p
  | none => x

/-- The grid got by transforming every row of `data` and then every column of the result,
with `final_seq` as the transform of a line; offsets past the grid are as in `data`. -/
noncomputable def row_column_grid (log_width log_height : ℕ) (inverse : Bool)
    (data : ℕ → cvec_t) : ℕ → cvec_t :=
  fun i =>
    if i < 2 ^ log_width * 2 ^ log_height then
      final_seq log_height inverse
        (fun t => final_seq log_width inverse (fun t' => data (2 ^ log_width * t + t'))
          (i % 2 ^ log_width))
        (i / 2 ^ log_width)
    else data i

/-- The locals of `fft1d` on entry to turn `k` of the butterfly loop (for `k = log_len`:
on entry to the epilogue loop). -/
noncomputable def locals_at (params : fft1d_params_t) (st : state_t) (k : ℕ) :
    fft1d_locals_t :=
  (List.range k).foldl (butterfly_pass ((1 <<< params.log_len) % 2 ^ 32) params.inverse)
    (after_prologue params st)

/-- The buffer each stage of `fft1d` reads (`slice_in.data`) and the buffer it writes
(`slice_out.data`), in program order: the prologue loop, the `log_len` butterfly loops,
the epilogue loop. -/
noncomputable def stage_buffers (params : fft1d_params_t) (st : state_t) :
    List (ptr_t × ptr_t) :=
  (params.slice_in.data, params.slice_out.data) ::
    ((List.range params.log_len).map
        (fun k => ((locals_at params st k).slice_in.data,
          (locals_at params st k).slice_out.data)) ++
      [((locals_at params st params.log_len).slice_in.data,
        (locals_at params st params.log_len).slice_out.data)])

/-! ## The transform the code is to be compared with -/

/-- The coefficient `exp(∓ 2πi·k·n/N)` of the discrete Fourier transform: the minus sign
for the forward direction, the plus sign for the inverse. -/
noncomputable def dft_coeff (inverse : Bool) (N k n : ℕ) : ℂ :=
  Complex.exp ((if inverse then 1 else -1) * (2 * Real.pi * Complex.I) * k * n / N)

/-- The scalar scale of a direction: `1/N` for the inverse, `1` for forward. -/
noncomputable def dft_scale (inverse : Bool) (N : ℕ) : ℂ :=
  if inverse then 1 / (N : ℂ) else 1

/-- The centred DFT of length `N = 2 ^ log_len` of one channel: input and output are both
read with the index XOR-ed with `N/2`, so frequency zero sits at position `N/2`:
`y[k ^ N/2] = scale * Σ_{n<N} x[n ^ N/2] * exp(∓ 2πi·k·n/N)`. -/
noncomputable def centred_dft (log_len : ℕ) (inverse : Bool) (x : ℕ → ℂ) (j : ℕ) : ℂ :=
  dft_scale inverse (2 ^ log_len) *
    ∑ n in Finset.range (2 ^ log_len),
      x (n ^^^ 2 ^ (log_len - 1)) * dft_coeff inverse (2 ^ log_len) (j ^^^ 2 ^ (log_len - 1)) n

/-! ## Concrete grids -/

/-- The grid with the Lane Sample `1+0i` (all channels) at offset 0 and zero elsewhere. -/
def delta_grid : ℕ → cvec_t :=
  fun i => if i = 0 then 1 else 0

/-- The grid with the Lane Sample `1+0i` (all channels) in every cell. -/
def ones_grid : ℕ → cvec_t :=
  fun _ => 1

/-- A zeroed block. -/
def zero_buff : ℕ → cvec_t :=
  fun _ => 0

/-! ## Scheduling -/

/-- One phase with its work items claimed and run, each to completion, in the order
`order` (a list of item indices) instead of index order. -/
def run_in_order (order : List ℕ) (queue : work_queue_t) (st : state_t) : state_t :=
  order.foldl (fun s i => (queue.work_items i).fn (queue.work_items i).params s) st

/-- The C function `fft2d` with the items of the row phase run in the order `order1` and
the items of the column phase in the order `order2`; everything else is as in `fft2d`. -/
noncomputable def fft2d_scheduled (data : ℕ → cvec_t) (log_width log_height threads : ℕ)
    (inverse : Bool) (malloc : Option (ℕ → cvec_t)) (order1 order2 : List ℕ) :
    Option (return_code_t × (ℕ → cvec_t)) :=
  let width := (1 <<< log_width) % 2 ^ 32
  let height := (1 <<< log_height) % 2 ^ 32
  let data_len := (width * height) % 2 ^ 32
  if threads = 0 then some (return_code_t.Thread, data)
  else if width = 0 ∨ height = 0 then some (return_code_t.Dim, data)
  else
    match malloc with
    | none => some (return_code_t.Mem, data)
    | some buff =>
      let mem0 : heap_t := heap_of data buff
      let buff_input := ptr_t.data
      let buff_output := ptr_t.buff
      let queue1 : work_queue_t :=
        { work_index := 0
          work_item_count := height
          work_items :=
            phase_items log_width log_height buff_input buff_output false log_width inverse }
      let st1 := run_in_order order1 queue1 { mem := mem0, out := none }
      match st1.out with
      | none => none
      | some out =>
        let buff_input := out
        let buff_output := if out = ptr_t.buff then ptr_t.data else ptr_t.buff
        let queue2 : work_queue_t :=
          { work_index := 0
            work_item_count := width
            work_items :=
              phase_items log_width log_height buff_input buff_output true log_height inverse }
        let st2 := run_in_order order2 queue2 st1
        match st2.out with
        | none => none
        | some out =>
          if out ≠ ptr_t.data then
            some (return_code_t.Success, memcpy (st2.mem ptr_t.data) (st2.mem out) data_len)
          else
            some (return_code_t.Success, st2.mem ptr_t.data)

/-! ## Sizes -/

/-- The variable `data_len` of `fft2d`: `width * height` in `uint32_t` arithmetic, the
number of samples of the scratch block it allocates. -/
def fft2d_data_len (log_width log_height : ℕ) : ℕ :=
  (((1 <<< log_width) % 2 ^ 32) * ((1 <<< log_height) % 2 ^ 32)) % 2 ^ 32

/-! ## The scalar transform of a grid -/

/-- The centred two-dimensional DFT of one channel of a grid: the centred DFT of every row,
then of every column; offsets past the grid are left as they are. -/
noncomputable def centred_dft2 (log_width log_height : ℕ) (inverse : Bool) (g : ℕ → ℂ)
    (i : ℕ) : ℂ :=
  if i < 2 ^ log_width * 2 ^ log_height then
    centred_dft log_height inverse
      (fun t => centred_dft log_width inverse (fun t' => g (2 ^ log_width * t + t'))
        (i % 2 ^ log_width))
      (i / 2 ^ log_width)
  else g i

/-! ## Buffer accesses

The local positions each stage function passes to `sample` and `write`, and the stage
functions with every buffer access checked against the length `len` of the two buffers:
an access at or past `len` gives `none`. -/

/-- The positions `fft_prologue` passes: one to `sample`, one to `write`. -/
def fft_prologue_positions (index log_len : ℕ) : List ℕ :=
  [bit_reverse index log_len ^^^ half_len log_len, index]

/-- The positions `fft_iteration` passes: two to `sample`, one to `write`. -/
def fft_iteration_positions (index iteration : ℕ) : List ℕ :=
  [index ^^^ (1 <<< iteration), index, index]

/-- The positions `fft_epilogue` passes: one to `sample`, one to `write`. -/
def fft_epilogue_positions (index log_len : ℕ) : List ℕ :=
  [(1 <<< log_len) - index - 1, index ^^^ half_len log_len]

/-- The C function `sample`, checked: `none` when `index` is not below `len`. -/
def sample_checked (len : ℕ) (mem : heap_t) (slice : slice_t) (t : ℕ) : Option cvec_t :=
  if slice_index slice t < len then some (mem slice.data (slice_index slice t)) else none

/-- The C function `write`, checked: `none` when `index` is not below `len`. -/
def write_checked (len : ℕ) (mem : heap_t) (slice : slice_t) (t : ℕ) (data : cvec_t) :
    Option heap_t :=
  if slice_index slice t < len then
    some (fun p j => if p = slice.data ∧ j = slice_index slice t then data else mem p j)
  else none

/-- The C function `fft_prologue` over checked accesses. -/
def fft_prologue_checked (len index : ℕ) (src dst : slice_t) (log_len : ℕ) (mem : heap_t) :
    Option heap_t :=
  let half_len := half_len log_len
  let t := bit_reverse index log_len
  (sample_checked len mem src (t ^^^ half_len)).bind fun v =>
    write_checked len mem dst index v

/-- The C function `fft_iteration` over checked accesses. -/
noncomputable def fft_iteration_checked (len index : ℕ) (src dst : slice_t) (iteration : ℕ)
    (inverse : Bool) (mem : heap_t) : Option heap_t :=
  let angle : ℝ := (2 * Real.pi) / (((1 <<< (iteration + 1) : ℕ)) : ℝ)
  let angle : ℝ := if inverse then -angle else angle
  let subtract : Bool := decide (index &&& (1 <<< iteration) ≠ 0)
  (sample_checked len mem src (index ^^^ (1 <<< iteration))).bind fun n1 =>
  (sample_checked len mem src index).bind fun n2 =>
    let mask := (1 <<< iteration) - 1
    let p := index &&& mask
    let w := get_w (((p + 1 : ℕ) : ℝ) * angle)
    let n2 := if index &&& (1 <<< iteration) ≠ 0 then mul n2 w else n2
    let n1 := if index &&& (1 <<< iteration) ≠ 0 then n1 else mul n1 w
    if subtract then write_checked len mem dst index (sub n1 n2)
    else write_checked len mem dst index (add n1 n2)

/-- The C function `fft_epilogue` over checked accesses. -/
noncomputable def fft_epilogue_checked (len index : ℕ) (src dst : slice_t) (log_len : ℕ)
    (inverse : Bool) (mem : heap_t) : Option heap_t :=
  let half_len := half_len log_len
  (sample_checked len mem src ((1 <<< log_len) - index - 1)).bind fun out =>
    let out :=
      if inverse then mul out (from_floating ((1 : ℝ) / (((1 <<< log_len : ℕ)) : ℝ))) else out
    write_checked len mem dst (index ^^^ half_len) out

/-- One turn of the butterfly loop of `fft1d` over checked accesses. -/
noncomputable def butterfly_pass_checked (len length : ℕ) (inverse : Bool)
    (l : fft1d_locals_t) (iter : ℕ) : Option fft1d_locals_t :=
  ((List.range length).foldlM
      (fun mem i => fft_iteration_checked len i l.slice_in l.slice_out iter inverse mem)
      l.mem).map
    fun mem => fft1d_swap { l with mem := mem }

/-- The C function `fft1d` over checked accesses: `none` as soon as one access of one of
its loops is out of range. -/
noncomputable def fft1d_checked (len : ℕ) (params : fft1d_params_t) (st : state_t) :
    Option state_t :=
  let log_len := params.log_len
  let inverse := params.inverse
  let length := (1 <<< log_len) % 2 ^ 32
  let l0 : fft1d_locals_t :=
    { mem := st.mem
      buff_in := params.buff_in
      buff_out := params.buff_out
      slice_in := params.slice_in
      slice_out := params.slice_out }
  ((List.range length).foldlM
      (fun mem i => fft_prologue_checked len i l0.slice_in l0.slice_out log_len mem)
      l0.mem).bind fun mem1 =>
  ((List.range log_len).foldlM (butterfly_pass_checked len length inverse)
      (fft1d_swap { l0 with mem := mem1 })).bind fun l2 =>
  ((List.range length).foldlM
      (fun mem i => fft_epilogue_checked len i l2.slice_in l2.slice_out log_len inverse mem)
      l2.mem).map
    fun mem => { mem := mem, out := some l2.buff_out }

/-- The C function `thread_fn` with every item run as `fft1d_checked` (every item's `fn`
is `fft1d`). -/
noncomputable def thread_fn_checked (len : ℕ) (p : work_queue_t) (st : state_t) :
    Option (work_queue_t × state_t) :=
  let index := p.work_index
  let p1 := { p with work_index := p.work_index + 1 }
  if index ≥ p.work_item_count then some (p1, st)
  else
    let item := p.work_items index
    match fft1d_checked len item.params st with
    | none => none
    | some st1 => thread_fn_checked len p1 st1
termination_by p.work_item_count - p.work_index
decreasing_by
  simp_wf
  omega

/-- The workers of one phase over checked accesses, scheduled one after the other. -/
noncomputable def run_threads_checked (len threads : ℕ) (queue : work_queue_t)
    (st : state_t) : Option (work_queue_t × state_t) :=
  (List.range threads).foldlM (fun qs _ => thread_fn_checked len qs.1 qs.2) (queue, st)

/-- The C function `fft2d` over checked accesses: both buffers hold `data_len` samples, and
the result is `none` as soon as one access is out of range (or where `fft2d` is `none`). -/
noncomputable def fft2d_checked (data : ℕ → cvec_t) (log_width log_height threads : ℕ)
    (inverse : Bool) (malloc : Option (ℕ → cvec_t)) :
    Option (return_code_t × (ℕ → cvec_t)) :=
  let width := (1 <<< log_width) % 2 ^ 32
  let height := (1 <<< log_height) % 2 ^ 32
  let data_len := (width * height) % 2 ^ 32
  if threads = 0 then some (return_code_t.Thread, data)
  else if width = 0 ∨ height = 0 then some (return_code_t.Dim, data)
  else
    match malloc with
    | none => some (return_code_t.Mem, data)
    | some buff =>
      let mem0 : heap_t := heap_of data buff
      let buff_input := ptr_t.data
      let buff_output := ptr_t.buff
      let queue1 : work_queue_t :=
        { work_index := 0
          work_item_count := height
          work_items :=
            phase_items log_width log_height buff_input buff_output false log_width inverse }
      (run_threads_checked data_len threads queue1 { mem := mem0, out := none }).bind
        fun qs1 =>
      let st1 := qs1.2
      match st1.out with
      | none => none
      | some out =>
        let buff_input := out
        let buff_output := if out = ptr_t.buff then ptr_t.data else ptr_t.buff
        let queue2 : work_queue_t :=
          { work_index := 0
            work_item_count := width
            work_items :=
              phase_items log_width log_height buff_input buff_output true log_height inverse }
        (run_threads_checked data_len threads queue2 st1).bind fun qs2 =>
        let st2 := qs2.2
        match st2.out with
        | none => none
        | some out =>
          if out ≠ ptr_t.data then
            some (return_code_t.Success, memcpy (st2.mem ptr_t.data) (st2.mem out) data_len)
          else
            some (return_code_t.Success, st2.mem ptr_t.data)

end Unblur

namespace Unblur

open Finset

/-! ## Bit-level facts -/

theorem and_two_pow_ne_zero_iff (i k : ℕ) : i &&& 2 ^ k ≠ 0 ↔ i.testBit k = true := by
  have h : i &&& 2 ^ k = if i.testBit k then 2 ^ k else 0 := by
    apply Nat.eq_of_testBit_eq
    intro j
    by_cases hb : i.testBit k = true
    · simp only [hb, Nat.testBit_and, Nat.testBit_two_pow, if_true]
      by_cases hkj : k = j
      · subst hkj; simp [hb]
      · simp [hkj]
    · simp only [Nat.testBit_and, Nat.testBit_two_pow]
      by_cases hkj : k = j
      · subst hkj; simp [hb]
      · simp [hkj, hb]
  rw [h]
  by_cases hb : i.testBit k = true
  · simp [hb]
  · simp [hb]

theorem testBit_mul_two_pow_add_lt (c k p : ℕ) (hp : p < 2 ^ k) :
    (c * 2 ^ k + p).testBit k = decide (c % 2 = 1) := by
  rw [Nat.mul_comm, Nat.testBit_mul_pow_two_add c hp k]
  simp [Nat.testBit_to_div_mod]

theorem xor_two_pow_block (c k p : ℕ) (hp : p < 2 ^ k) :
    (c * 2 ^ k + p) ^^^ 2 ^ k = (c ^^^ 1) * 2 ^ k + p := by
  apply Nat.eq_of_testBit_eq
  intro j
  rw [Nat.testBit_xor, Nat.mul_comm, Nat.testBit_mul_pow_two_add c hp j,
    Nat.mul_comm, Nat.testBit_mul_pow_two_add (c ^^^ 1) hp j, Nat.testBit_two_pow]
  by_cases hj : j < k
  · have : k ≠ j := by omega
    simp [hj, this]
  · simp only [hj, if_false, Nat.testBit_xor]
    by_cases hkj : k = j
    · subst hkj; simp
    · have : j - k ≠ 0 := by omega
      obtain ⟨d, hd⟩ := Nat.exists_eq_succ_of_ne_zero this
      simp [hkj, hd, Nat.testBit_succ]

theorem two_mul_xor_one (c : ℕ) : (2 * c) ^^^ 1 = 2 * c + 1 := by
  apply Nat.eq_of_testBit_eq
  intro j
  cases j with
  | zero => simp [Nat.testBit_zero]
  | succ j =>
    rw [Nat.testBit_succ, Nat.testBit_succ, Nat.xor_div_two]
    have h1 : 2 * c / 2 = c := by omega
    have h2 : (2 * c + 1) / 2 = c := by omega
    simp [h1, h2]

theorem two_mul_add_one_xor_one (c : ℕ) : (2 * c + 1) ^^^ 1 = 2 * c := by
  rw [← two_mul_xor_one, Nat.xor_cancel_right]

theorem and_two_pow_sub_one_block (c k p : ℕ) (hp : p < 2 ^ k) :
    (c * 2 ^ k + p) &&& (2 ^ k - 1) = p := by
  rw [Nat.and_pow_two_sub_one_eq_mod, Nat.add_comm, Nat.add_mul_mod_self_right,
    Nat.mod_eq_of_lt hp]

/-! ## `bit_reverse` -/

theorem bit_reverse_zero (d : ℕ) : bit_reverse d 0 = 0 := rfl

theorem bit_reverse_succ (d n : ℕ) :
    bit_reverse d (n + 1) = 2 * bit_reverse d n + (if d.testBit n then 1 else 0) := by
  unfold bit_reverse
  rw [List.range_succ, List.foldl_append]
  simp only [List.foldl_cons, List.foldl_nil, Nat.shiftLeft_eq, pow_one, one_mul]
  by_cases h : d.testBit n = true
  · have h2 := (and_two_pow_ne_zero_iff d n).2 h
    rw [if_pos h2, if_pos h]
    omega
  · have h2 : ¬ (d &&& 2 ^ n ≠ 0) := fun hc => h ((and_two_pow_ne_zero_iff d n).1 hc)
    rw [if_neg h2, if_neg h]
    omega

theorem bit_reverse_lt (d n : ℕ) : bit_reverse d n < 2 ^ n := by
  induction n with
  | zero => simp [bit_reverse_zero]
  | succ n ih =>
    rw [bit_reverse_succ, pow_succ]
    split <;> omega

/-- The other recursion: the lowest bit of `d` becomes the highest bit of the result. -/
theorem bit_reverse_succ_low (d n : ℕ) :
    bit_reverse d (n + 1) = (d % 2) * 2 ^ n + bit_reverse (d / 2) n := by
  induction n with
  | zero =>
    rw [bit_reverse_succ, bit_reverse_zero, bit_reverse_zero]
    rcases Nat.mod_two_eq_zero_or_one d with h | h <;> simp [Nat.testBit_zero, h]
  | succ n ih =>
    rw [bit_reverse_succ, ih, bit_reverse_succ (d / 2) n, Nat.testBit_succ, pow_succ]
    ring

theorem bit_reverse_two_mul_add (c t n : ℕ) (ht : t < 2) :
    bit_reverse (2 * c + t) (n + 1) = t * 2 ^ n + bit_reverse c n := by
  rw [bit_reverse_succ_low]
  have h1 : (2 * c + t) % 2 = t := by omega
  have h2 : (2 * c + t) / 2 = c := by omega
  rw [h1, h2]

/-! ## Lane arithmetic is the ring structure of `Fin 4 → ℂ` -/

theorem add_eq (a b : cvec_t) : add a b = a + b := by
  funext c; fin_cases c <;> rfl

theorem sub_eq (a b : cvec_t) : sub a b = a - b := by
  funext c; fin_cases c <;> rfl

theorem mul_eq (a b : cvec_t) : mul a b = a * b := by
  funext c; fin_cases c <;> rfl

theorem get_w_apply (angle : ℝ) (c : Fin 4) :
    get_w angle c = Complex.exp ((angle : ℂ) * Complex.I) := by
  have h : (Real.cos angle : ℂ) + (Real.sin angle : ℂ) * Complex.I
      = Complex.exp ((angle : ℂ) * Complex.I) := by
    rw [Complex.exp_mul_I, Complex.ofReal_cos, Complex.ofReal_sin]
  unfold get_w
  fin_cases c <;> simp [Complex.exp_mul_I]

theorem from_floating_apply (f : ℝ) (c : Fin 4) : from_floating f c = (f : ℂ) := by
  unfold from_floating
  fin_cases c <;> simp

theorem get_w_nat_mul (n : ℕ) (angle : ℝ) : get_w ((n : ℝ) * angle) = get_w angle ^ n := by
  funext c
  rw [Pi.pow_apply, get_w_apply, get_w_apply, ← Complex.exp_nat_mul]
  congr 1
  push_cast
  ring

theorem twiddle_root_apply (inverse : Bool) (n : ℕ) (c : Fin 4) :
    twiddle_root inverse n c =
      Complex.exp ((if inverse then -1 else 1) * (2 * Real.pi * Complex.I) / (2 : ℂ) ^ n) := by
  unfold twiddle_root
  rw [get_w_apply, Nat.one_shiftLeft]
  congr 1
  cases inverse <;> simp <;> ring

theorem twiddle_root_sq (inverse : Bool) (n : ℕ) :
    twiddle_root inverse (n + 1) ^ 2 = twiddle_root inverse n := by
  funext c
  rw [Pi.pow_apply, twiddle_root_apply, twiddle_root_apply, ← Complex.exp_nat_mul]
  congr 1
  rw [pow_succ]
  cases inverse <;> field_simp <;> ring

theorem twiddle_root_one (inverse : Bool) : twiddle_root inverse 1 = -1 := by
  funext c
  rw [twiddle_root_apply]
  cases inverse
  · simp only [Bool.false_eq_true, if_false, pow_one, one_mul]
    rw [show (2 * (Real.pi : ℂ) * Complex.I) / 2 = Real.pi * Complex.I by ring,
      Complex.exp_pi_mul_I]
    rfl
  · simp only [if_true, pow_one]
    rw [show (-1 : ℂ) * (2 * (Real.pi : ℂ) * Complex.I) / 2 = -(Real.pi * Complex.I) by ring,
      Complex.exp_neg, Complex.exp_pi_mul_I]
    norm_num

theorem twiddle_root_pow_half (inverse : Bool) (k : ℕ) :
    twiddle_root inverse (k + 1) ^ 2 ^ k = -1 := by
  induction k with
  | zero => simpa using twiddle_root_one inverse
  | succ k ih =>
    rw [pow_succ 2 k, Nat.mul_comm, pow_mul, twiddle_root_sq, ih]

theorem twiddle_root_pow_full (inverse : Bool) (k : ℕ) :
    twiddle_root inverse k ^ 2 ^ k = 1 := by
  cases k with
  | zero =>
    rw [← twiddle_root_sq, twiddle_root_one]
    norm_num
  | succ k =>
    rw [pow_succ 2 k, pow_mul, twiddle_root_pow_half]
    norm_num

/-! ## One butterfly stage, in ring form -/

theorem iteration_val_eq (k : ℕ) (inverse : Bool) (x : ℕ → cvec_t) (i : ℕ) :
    iteration_val k inverse x i =
      if i.testBit k then
        x (i ^^^ 2 ^ k) - x i * twiddle_root inverse (k + 1) ^ (i % 2 ^ k + 1)
      else
        x (i ^^^ 2 ^ k) * twiddle_root inverse (k + 1) ^ (i % 2 ^ k + 1) + x i := by
  have hw : get_w (((i &&& ((1 <<< k) - 1)) + 1 : ℕ) *
      (if inverse then -((2 * Real.pi) / (((1 <<< (k + 1) : ℕ)) : ℝ))
        else (2 * Real.pi) / (((1 <<< (k + 1) : ℕ)) : ℝ)))
      = twiddle_root inverse (k + 1) ^ (i % 2 ^ k + 1) := by
    rw [get_w_nat_mul, Nat.one_shiftLeft k, Nat.and_pow_two_sub_one_eq_mod]
    rfl
  unfold iteration_val
  simp only [hw, add_eq, sub_eq, mul_eq]
  rw [Nat.one_shiftLeft k]
  by_cases h : i.testBit k = true
  · have h2 := (and_two_pow_ne_zero_iff i k).2 h
    simp [h2, h]
  · have h2 : ¬ (i &&& 2 ^ k ≠ 0) := fun hc => h ((and_two_pow_ne_zero_iff i k).1 hc)
    simp only [h2, h]
    simp

theorem sum_range_two_mul {R : Type*} [AddCommMonoid R] (M : ℕ) (f : ℕ → R) :
    ∑ j in range (2 * M), f j = ∑ j in range M, (f (2 * j) + f (2 * j + 1)) := by
  induction M with
  | zero => simp
  | succ M ih =>
    rw [show 2 * (M + 1) = 2 * M + 1 + 1 by ring, sum_range_succ, sum_range_succ, ih,
      sum_range_succ]
    abel

/-- The invariant of the butterfly loops: after `k` of them, block `b` of length `2 ^ k`
holds the (reversed-order) transform of length `2 ^ k` of the input samples at stride
`2 ^ (L - k)` from offset `bit_reverse b (L - k)`. -/
theorem stage_seq_eq (L : ℕ) (inverse : Bool) (x : ℕ → cvec_t) (k : ℕ) (hk : k ≤ L) :
    ∀ b p : ℕ, b < 2 ^ (L - k) → p < 2 ^ k →
      stage_seq L inverse x k (b * 2 ^ k + p) =
        ∑ j in range (2 ^ k),
          x ((j * 2 ^ (L - k) + bit_reverse b (L - k)) ^^^ half_len L) *
            twiddle_root inverse k ^ ((p + 1) * j) := by
  induction k with
  | zero =>
    intro b p _ hp
    have hp0 : p = 0 := by simpa using hp
    subst hp0
    simp [stage_seq, prologue_val]
  | succ k ih =>
    intro b q hb hq
    have hkL : k ≤ L := by omega
    obtain ⟨m, hm⟩ : ∃ m, L - k = m + 1 := ⟨L - k - 1, by omega⟩
    have hm' : L - (k + 1) = m := by omega
    rw [hm'] at hb ⊢
    have ih' := ih hkL
    rw [hm] at ih'
    have hb0 : 2 * b < 2 ^ (m + 1) := by rw [pow_succ]; omega
    have hb1 : 2 * b + 1 < 2 ^ (m + 1) := by rw [pow_succ]; omega
    have hr0 : bit_reverse (2 * b) (m + 1) = bit_reverse b m := by
      have := bit_reverse_two_mul_add b 0 m (by omega)
      simpa using this
    have hr1 : bit_reverse (2 * b + 1) (m + 1) = 2 ^ m + bit_reverse b m := by
      have := bit_reverse_two_mul_add b 1 m (by omega)
      simpa using this
    have hsq := twiddle_root_sq inverse k
    have hfull := twiddle_root_pow_full inverse k
    have hhalf := twiddle_root_pow_half inverse k
    show iteration_val k inverse (stage_seq L inverse x k) (b * 2 ^ (k + 1) + q) = _
    rw [iteration_val_eq, pow_succ 2 k, Nat.mul_comm (2 ^ k) 2, sum_range_two_mul]
    by_cases hq2 : q < 2 ^ k
    · -- the lower half of the new block
      have hi : b * (2 * 2 ^ k) + q = (2 * b) * 2 ^ k + q := by ring
      have htb : (2 * b * 2 ^ k + q).testBit k = false := by
        rw [testBit_mul_two_pow_add_lt _ _ _ hq2]; simp
      have hmod : (2 * b * 2 ^ k + q) % 2 ^ k = q := by
        rw [Nat.add_comm, Nat.add_mul_mod_self_right, Nat.mod_eq_of_lt hq2]
      rw [hi, htb, xor_two_pow_block _ _ _ hq2, two_mul_xor_one, hmod,
        ih' (2 * b + 1) q hb1 hq2, ih' (2 * b) q hb0 hq2, hr0, hr1]
      simp only [Bool.false_eq_true, if_false]
      rw [sum_mul, ← sum_add_distrib]
      apply sum_congr rfl
      intro j _
      have e1 : (2 * j) * 2 ^ m = j * 2 ^ (m + 1) := by rw [pow_succ]; ring
      have e2 : (2 * j + 1) * 2 ^ m + bit_reverse b m
          = j * 2 ^ (m + 1) + (2 ^ m + bit_reverse b m) := by rw [pow_succ]; ring
      have p1 : twiddle_root inverse (k + 1) ^ ((q + 1) * (2 * j))
          = twiddle_root inverse k ^ ((q + 1) * j) := by
        rw [← hsq, ← pow_mul]; congr 1; ring
      have p2 : twiddle_root inverse (k + 1) ^ ((q + 1) * (2 * j + 1))
          = twiddle_root inverse k ^ ((q + 1) * j) * twiddle_root inverse (k + 1) ^ (q + 1) := by
        rw [← hsq, ← pow_mul, ← pow_add]; congr 1; ring
      rw [e1, e2, p1, p2]
      ring
    · -- the upper half of the new block
      obtain ⟨p, hpq⟩ : ∃ p, q = 2 ^ k + p := ⟨q - 2 ^ k, by omega⟩
      have hp : p < 2 ^ k := by rw [pow_succ] at hq; omega
      subst hpq
      have hi : b * (2 * 2 ^ k) + (2 ^ k + p) = (2 * b + 1) * 2 ^ k + p := by ring
      have htb : ((2 * b + 1) * 2 ^ k + p).testBit k = true := by
        rw [testBit_mul_two_pow_add_lt _ _ _ hp]
        have : (2 * b + 1) % 2 = 1 := by omega
        simp [this]
      have hmod : ((2 * b + 1) * 2 ^ k + p) % 2 ^ k = p := by
        rw [Nat.add_comm, Nat.add_mul_mod_self_right, Nat.mod_eq_of_lt hp]
      rw [hi, htb, xor_two_pow_block _ _ _ hp, two_mul_add_one_xor_one, hmod,
        ih' (2 * b + 1) p hb1 hp, ih' (2 * b) p hb0 hp, hr0, hr1]
      simp only [if_true]
      rw [sum_mul, ← sum_sub_distrib]
      apply sum_congr rfl
      intro j _
      have e1 : (2 * j) * 2 ^ m = j * 2 ^ (m + 1) := by rw [pow_succ]; ring
      have e2 : (2 * j + 1) * 2 ^ m + bit_reverse b m
          = j * 2 ^ (m + 1) + (2 ^ m + bit_reverse b m) := by rw [pow_succ]; ring
      have p1 : twiddle_root inverse (k + 1) ^ ((2 ^ k + p + 1) * (2 * j))
          = twiddle_root inverse k ^ ((p + 1) * j) := by
        have : (2 ^ k + p + 1) * (2 * j) = 2 * (2 ^ k * j + (p + 1) * j) := by ring
        rw [this, pow_mul, hsq, pow_add, pow_mul, hfull, one_pow, one_mul]
      have p2 : twiddle_root inverse (k + 1) ^ ((2 ^ k + p + 1) * (2 * j + 1))
          = -(twiddle_root inverse k ^ ((p + 1) * j) * twiddle_root inverse (k + 1) ^ (p + 1)) := by
        have : (2 ^ k + p + 1) * (2 * j + 1)
            = 2 * (2 ^ k * j + (p + 1) * j) + (2 ^ k + (p + 1)) := by ring
        rw [this, pow_add, pow_mul, hsq, pow_add, pow_mul, hfull, one_pow, one_mul, pow_add,
          hhalf]
        ring
      rw [e1, e2, p1, p2]
      ring

theorem half_len_eq (L : ℕ) (hL : 1 ≤ L) : half_len L = 2 ^ (L - 1) := by
  unfold half_len half_len_shift
  rw [Nat.one_shiftLeft]
  congr 1
  omega

theorem half_len_lt (L : ℕ) (hL : 1 ≤ L) : half_len L < 2 ^ L := by
  rw [half_len_eq L hL]
  exact Nat.pow_lt_pow_right (by norm_num) (by omega)

theorem xor_half_len_lt (L j : ℕ) (hL : 1 ≤ L) (hj : j < 2 ^ L) : j ^^^ half_len L < 2 ^ L :=
  Nat.xor_lt_two_pow hj (half_len_lt L hL)

theorem epilogue_val_eq (L : ℕ) (inverse : Bool) (x : ℕ → cvec_t) (i : ℕ) :
    epilogue_val L inverse x i = x (2 ^ L - i - 1) * epilogue_scale L inverse := by
  unfold epilogue_val epilogue_scale
  cases inverse <;> simp [mul_eq, Nat.one_shiftLeft]

/-- The sequence `fft1d` leaves, in ring form. -/
theorem final_seq_eq (L : ℕ) (hL : 1 ≤ L) (inverse : Bool) (x : ℕ → cvec_t) (j : ℕ)
    (hj : j < 2 ^ L) :
    final_seq L inverse x j =
      (∑ n in range (2 ^ L),
        x (n ^^^ half_len L) *
          twiddle_root inverse L ^ ((2 ^ L - (j ^^^ half_len L)) * n)) *
        epilogue_scale L inverse := by
  have hlt := xor_half_len_lt L j hL hj
  unfold final_seq
  rw [epilogue_val_eq]
  have h := stage_seq_eq L inverse x L le_rfl 0 (2 ^ L - (j ^^^ half_len L) - 1)
    (by simp) (by omega)
  simp only [zero_mul, zero_add, Nat.sub_self, pow_zero, mul_one, bit_reverse_zero,
    add_zero] at h
  rw [h]
  have e : 2 ^ L - (j ^^^ half_len L) - 1 + 1 = 2 ^ L - (j ^^^ half_len L) := by omega
  rw [e]

theorem twiddle_root_pow_eq_dft_coeff (L : ℕ) (inverse : Bool) (k n : ℕ) (hk : k ≤ 2 ^ L)
    (c : Fin 4) :
    (twiddle_root inverse L ^ ((2 ^ L - k) * n)) c = dft_coeff inverse (2 ^ L) k n := by
  rw [Pi.pow_apply, twiddle_root_apply, ← Complex.exp_nat_mul]
  unfold dft_coeff
  rw [Complex.exp_eq_exp_iff_exists_int]
  have hN : ((2 : ℂ) ^ L) ≠ 0 := pow_ne_zero _ (by norm_num)
  cases inverse
  · refine ⟨(n : ℤ), ?_⟩
    push_cast [Nat.cast_sub hk]
    field_simp
    ring
  · refine ⟨-(n : ℤ), ?_⟩
    push_cast [Nat.cast_sub hk]
    field_simp
    ring

theorem epilogue_scale_apply (L : ℕ) (inverse : Bool) (c : Fin 4) :
    epilogue_scale L inverse c = dft_scale inverse (2 ^ L) := by
  unfold epilogue_scale dft_scale
  cases inverse
  · simp
  · simp [from_floating_apply, Nat.one_shiftLeft]

/-- The sequence `fft1d` leaves is the centred DFT of its input, channel by channel. -/
theorem final_seq_eq_centred_dft (L : ℕ) (hL : 1 ≤ L) (inverse : Bool) (x : ℕ → cvec_t)
    (j : ℕ) (hj : j < 2 ^ L) (c : Fin 4) :
    final_seq L inverse x j c = centred_dft L inverse (fun n => x n c) j := by
  have hlt := xor_half_len_lt L j hL hj
  rw [final_seq_eq L hL inverse x j hj]
  unfold centred_dft
  rw [Pi.mul_apply, epilogue_scale_apply, Finset.sum_apply, mul_comm, half_len_eq L hL]
  congr 1
  apply sum_congr rfl
  intro n _
  rw [Pi.mul_apply, twiddle_root_pow_eq_dft_coeff L inverse _ n (by rw [← half_len_eq L hL]; omega)]

/-! ## One loop of writes -/

theorem write_other (mem : heap_t) (dst : slice_t) (t : ℕ) (v : cvec_t) (p : ptr_t)
    (hp : p ≠ dst.data) (j : ℕ) : write mem dst t v p j = mem p j := by
  unfold write
  rw [if_neg]
  rintro ⟨h, _⟩
  exact hp h

theorem write_ne (mem : heap_t) (dst : slice_t) (t : ℕ) (v : cvec_t) (p : ptr_t) (j : ℕ)
    (hj : slice_index dst t ≠ j) : write mem dst t v p j = mem p j := by
  unfold write
  rw [if_neg]
  rintro ⟨_, h⟩
  exact hj h.symm

theorem write_same (mem : heap_t) (dst : slice_t) (t : ℕ) (v : cvec_t) :
    write mem dst t v dst.data (slice_index dst t) = v := by
  unfold write
  rw [if_pos ⟨rfl, rfl⟩]

/-- A loop of writes into `dst` leaves every other buffer alone. -/
theorem foldl_stage_other (n : ℕ) (src dst : slice_t) (pos : ℕ → ℕ)
    (val : (ℕ → cvec_t) → ℕ → cvec_t) (mem : heap_t) (p : ptr_t) (hp : p ≠ dst.data) (j : ℕ) :
    (List.range n).foldl (fun m i => write m dst (pos i) (val (sample m src) i)) mem p j
      = mem p j := by
  induction n with
  | zero => rfl
  | succ n ih =>
    rw [List.range_succ, List.foldl_append]
    simp only [List.foldl_cons, List.foldl_nil]
    rw [write_other _ _ _ _ _ hp, ih]

/-- A loop of writes into `dst` changes only the offsets it writes. -/
theorem foldl_stage_frame (n : ℕ) (src dst : slice_t) (pos : ℕ → ℕ)
    (val : (ℕ → cvec_t) → ℕ → cvec_t) (mem : heap_t) (p : ptr_t) (j : ℕ)
    (hj : ∀ i, i < n → slice_index dst (pos i) ≠ j) :
    (List.range n).foldl (fun m i => write m dst (pos i) (val (sample m src) i)) mem p j
      = mem p j := by
  induction n with
  | zero => rfl
  | succ n ih =>
    rw [List.range_succ, List.foldl_append]
    simp only [List.foldl_cons, List.foldl_nil]
    rw [write_ne _ _ _ _ _ _ (hj n (Nat.lt_succ_self n)),
      ih (fun i hi => hj i (Nat.lt_succ_of_lt hi))]

/-- A loop that reads `src` and writes another buffer sees the same `src` throughout. -/
theorem foldl_stage_sample (n : ℕ) (src dst : slice_t) (pos : ℕ → ℕ)
    (val : (ℕ → cvec_t) → ℕ → cvec_t) (mem : heap_t) (hne : src.data ≠ dst.data) :
    sample ((List.range n).foldl
        (fun m i => write m dst (pos i) (val (sample m src) i)) mem) src
      = sample mem src := by
  funext t
  unfold sample
  exact foldl_stage_other n src dst pos val mem src.data hne _

/-- What a loop of writes leaves at the offset of its `i`-th write, when no other write
of the loop goes to that offset. -/
theorem foldl_stage_at (n : ℕ) (src dst : slice_t) (pos : ℕ → ℕ)
    (val : (ℕ → cvec_t) → ℕ → cvec_t) (mem : heap_t) (hne : src.data ≠ dst.data)
    (i : ℕ) (hi : i < n)
    (hinj : ∀ i', i' < n → slice_index dst (pos i') = slice_index dst (pos i) → i' = i) :
    (List.range n).foldl (fun m i => write m dst (pos i) (val (sample m src) i)) mem
        dst.data (slice_index dst (pos i))
      = val (sample mem src) i := by
  induction n with
  | zero => omega
  | succ n ih =>
    rw [List.range_succ, List.foldl_append]
    simp only [List.foldl_cons, List.foldl_nil]
    by_cases hin : i = n
    · subst hin
      rw [write_same, foldl_stage_sample _ _ _ _ _ _ hne]
    · have hlt : i < n := by omega
      have hne' : slice_index dst (pos n) ≠ slice_index dst (pos i) := by
        intro h
        have := hinj n (Nat.lt_succ_self n) h
        omega
      rw [write_ne _ _ _ _ _ _ hne', ih hlt (fun i' hi' h => hinj i' (Nat.lt_succ_of_lt hi') h)]

/-! ## The three loops of `fft1d` are loops of writes -/

theorem fft_prologue_eq (src dst : slice_t) (L : ℕ) :
    (fun (mem : heap_t) (i : ℕ) => fft_prologue i src dst L mem)
      = fun m i => write m dst i (prologue_val L (sample m src) i) := rfl

theorem fft_iteration_eq (src dst : slice_t) (k : ℕ) (inverse : Bool) :
    (fun (mem : heap_t) (i : ℕ) => fft_iteration i src dst k inverse mem)
      = fun m i => write m dst i (iteration_val k inverse (sample m src) i) := by
  funext m i
  unfold fft_iteration iteration_val
  simp only
  split <;> rfl

theorem fft_epilogue_eq (src dst : slice_t) (L : ℕ) (inverse : Bool) :
    (fun (mem : heap_t) (i : ℕ) => fft_epilogue i src dst L inverse mem)
      = fun m i => write m dst (i ^^^ half_len L) (epilogue_val L inverse (sample m src) i) :=
  rfl

theorem slice_index_with_data (s : slice_t) (p : ptr_t) :
    slice_index { s with data := p } = slice_index s := rfl

theorem length_eq (L : ℕ) (hL : L ≤ 31) : (1 <<< L) % 2 ^ 32 = 2 ^ L := by
  rw [Nat.one_shiftLeft]
  apply Nat.mod_eq_of_lt
  calc 2 ^ L ≤ 2 ^ 31 := Nat.pow_le_pow_right (by norm_num) hL
    _ < 2 ^ 32 := by norm_num

theorem fft1d_unfold (params : fft1d_params_t) (st : state_t) :
    fft1d params st =
      { mem := (List.range ((1 <<< params.log_len) % 2 ^ 32)).foldl
          (fun mem i => fft_epilogue i
            ((List.range params.log_len).foldl
              (butterfly_pass ((1 <<< params.log_len) % 2 ^ 32) params.inverse)
              (after_prologue params st)).slice_in
            ((List.range params.log_len).foldl
              (butterfly_pass ((1 <<< params.log_len) % 2 ^ 32) params.inverse)
              (after_prologue params st)).slice_out
            params.log_len params.inverse mem)
          ((List.range params.log_len).foldl
              (butterfly_pass ((1 <<< params.log_len) % 2 ^ 32) params.inverse)
              (after_prologue params st)).mem
        out := some ((List.range params.log_len).foldl
              (butterfly_pass ((1 <<< params.log_len) % 2 ^ 32) params.inverse)
              (after_prologue params st)).buff_out } := rfl

theorem iteration_val_congr (k : ℕ) (inverse : Bool) (x y : ℕ → cvec_t) (i : ℕ)
    (h1 : x i = y i) (h2 : x (i ^^^ (1 <<< k)) = y (i ^^^ (1 <<< k))) :
    iteration_val k inverse x i = iteration_val k inverse y i := by
  unfold iteration_val
  simp only [h1, h2]

theorem stage_inv_after_prologue (params : fft1d_params_t) (st : state_t)
    (ok : params_ok params) : stage_inv params st 0 (after_prologue params st) := by
  have hlen := length_eq params.log_len ok.le
  have hdst : params.slice_out.data = params.buff_out := by rw [ok.out_eq]
  have hidx : slice_index params.slice_out = slice_index params.slice_in := by
    rw [ok.out_eq]; rfl
  have hne : params.slice_in.data ≠ params.slice_out.data := by
    rw [ok.in_data, hdst]; exact ok.ne
  refine ⟨rfl, ?_, rfl, rfl, ?_, ?_⟩
  · show ({ params.slice_out with data := params.buff_in } : slice_t) = _
    rw [ok.out_eq]
    rfl
  · intro t ht
    show (List.range ((1 <<< params.log_len) % 2 ^ 32)).foldl
      (fun mem i => fft_prologue i params.slice_in params.slice_out params.log_len mem)
      st.mem params.buff_out (slice_index params.slice_in t) = _
    rw [fft_prologue_eq, hlen, ← hdst, ← hidx]
    exact foldl_stage_at (2 ^ params.log_len) params.slice_in params.slice_out (fun i => i)
      (prologue_val params.log_len) st.mem hne t ht
      (fun i' hi' h => by rw [hidx] at h; exact ok.inj i' t hi' ht h)
  · intro p j hj
    show (List.range ((1 <<< params.log_len) % 2 ^ 32)).foldl
      (fun mem i => fft_prologue i params.slice_in params.slice_out params.log_len mem)
      st.mem p j = _
    rw [fft_prologue_eq, hlen]
    exact foldl_stage_frame (2 ^ params.log_len) params.slice_in params.slice_out (fun i => i)
      (prologue_val params.log_len) st.mem p j (fun i hi => by rw [hidx]; exact hj i hi)

theorem stage_inv_buff_ne (params : fft1d_params_t) (st : state_t) (ok : params_ok params)
    (k : ℕ) (l : fft1d_locals_t) (inv : stage_inv params st k l) : l.buff_in ≠ l.buff_out := by
  rw [inv.buff_in_eq, inv.buff_out_eq]
  split
  · exact fun h => ok.ne h.symm
  · exact ok.ne

theorem stage_inv_butterfly (params : fft1d_params_t) (st : state_t) (ok : params_ok params)
    (k : ℕ) (hk : k < params.log_len) (l : fft1d_locals_t) (inv : stage_inv params st k l) :
    stage_inv params st (k + 1) (butterfly_pass (2 ^ params.log_len) params.inverse l k) := by
  have hbne := stage_inv_buff_ne params st ok k l inv
  have hsrc : l.slice_in.data = l.buff_in := by rw [inv.slice_in_eq]
  have hdst : l.slice_out.data = l.buff_out := by rw [inv.slice_out_eq]
  have hidx_in : slice_index l.slice_in = slice_index params.slice_in := by
    rw [inv.slice_in_eq]; rfl
  have hidx : slice_index l.slice_out = slice_index params.slice_in := by
    rw [inv.slice_out_eq]; rfl
  have hne : l.slice_in.data ≠ l.slice_out.data := by rw [hsrc, hdst]; exact hbne
  refine ⟨?_, ?_, ?_, ?_, ?_, ?_⟩
  · show ({ l.slice_in with data := l.buff_out } : slice_t) = _
    rw [inv.slice_in_eq]; rfl
  · show ({ l.slice_out with data := l.buff_in } : slice_t) = _
    rw [inv.slice_out_eq]; rfl
  · show l.buff_out = _
    rw [inv.buff_out_eq]
    rcases Nat.mod_two_eq_zero_or_one k with h | h
    · have : (k + 1) % 2 = 1 := by omega
      simp [h, this]
    · have : (k + 1) % 2 = 0 := by omega
      simp [h, this]
  · show l.buff_in = _
    rw [inv.buff_in_eq]
    rcases Nat.mod_two_eq_zero_or_one k with h | h
    · have : (k + 1) % 2 = 1 := by omega
      simp [h, this]
    · have : (k + 1) % 2 = 0 := by omega
      simp [h, this]
  · intro t ht
    show (List.range (2 ^ params.log_len)).foldl
      (fun mem i => fft_iteration i l.slice_in l.slice_out k params.inverse mem)
      l.mem l.buff_out (slice_index params.slice_in t) = _
    rw [fft_iteration_eq, ← hdst, ← hidx]
    rw [foldl_stage_at (2 ^ params.log_len) l.slice_in l.slice_out (fun i => i)
      (iteration_val k params.inverse) l.mem hne t ht
      (fun i' hi' h => by rw [hidx] at h; exact ok.inj i' t hi' ht h)]
    show _ = iteration_val k params.inverse
      (stage_seq params.log_len params.inverse (input_seq params st) k) t
    have hview : ∀ t', t' < 2 ^ params.log_len → sample l.mem l.slice_in t'
        = stage_seq params.log_len params.inverse (input_seq params st) k t' := by
      intro t' ht'
      unfold sample
      rw [hsrc, hidx_in]
      exact inv.vals t' ht'
    have hx : t ^^^ (1 <<< k) < 2 ^ params.log_len := by
      rw [Nat.one_shiftLeft]
      exact Nat.xor_lt_two_pow ht (Nat.pow_lt_pow_right (by norm_num) hk)
    exact iteration_val_congr k params.inverse _ _ t (hview t ht) (hview _ hx)
  · intro p j hj
    show (List.range (2 ^ params.log_len)).foldl
      (fun mem i => fft_iteration i l.slice_in l.slice_out k params.inverse mem)
      l.mem p j = _
    rw [fft_iteration_eq]
    rw [foldl_stage_frame (2 ^ params.log_len) l.slice_in l.slice_out (fun i => i)
      (iteration_val k params.inverse) l.mem p j (fun i hi => by rw [hidx]; exact hj i hi)]
    exact inv.frame p j hj

theorem stage_inv_loop (params : fft1d_params_t) (st : state_t) (ok : params_ok params)
    (k : ℕ) (hk : k ≤ params.log_len) :
    stage_inv params st k
      ((List.range k).foldl (butterfly_pass (2 ^ params.log_len) params.inverse)
        (after_prologue params st)) := by
  induction k with
  | zero => exact stage_inv_after_prologue params st ok
  | succ k ih =>
    rw [List.range_succ, List.foldl_append]
    exact stage_inv_butterfly params st ok k (by omega) _ (ih (by omega))

theorem epilogue_val_congr (L : ℕ) (inverse : Bool) (x y : ℕ → cvec_t) (i : ℕ)
    (h : x ((1 <<< L) - i - 1) = y ((1 <<< L) - i - 1)) :
    epilogue_val L inverse x i = epilogue_val L inverse y i := by
  unfold epilogue_val
  simp only [h]

theorem result_ptr_eq (params : fft1d_params_t) (st : state_t) (ok : params_ok params) :
    ((List.range params.log_len).foldl (butterfly_pass (2 ^ params.log_len) params.inverse)
      (after_prologue params st)).buff_out = result_ptr params := by
  rw [(stage_inv_loop params st ok params.log_len le_rfl).buff_out_eq]
  unfold result_ptr
  rcases Nat.mod_two_eq_zero_or_one params.log_len with h | h <;> simp [h]

/-- The buffer `fft1d` records in `out`. -/
theorem fft1d_out (params : fft1d_params_t) (st : state_t) (ok : params_ok params) :
    (fft1d params st).out = some (result_ptr params) := by
  rw [fft1d_unfold, length_eq params.log_len ok.le]
  simp only
  rw [result_ptr_eq params st ok]

/-- Off the item's line, `fft1d` changes neither buffer. -/
theorem fft1d_frame (params : fft1d_params_t) (st : state_t) (ok : params_ok params)
    (p : ptr_t) (j : ℕ)
    (hj : ∀ t, t < 2 ^ params.log_len → slice_index params.slice_in t ≠ j) :
    (fft1d params st).mem p j = st.mem p j := by
  have inv := stage_inv_loop params st ok params.log_len le_rfl
  rw [fft1d_unfold, length_eq params.log_len ok.le]
  simp only
  rw [fft_epilogue_eq]
  have hidx : slice_index ((List.range params.log_len).foldl
      (butterfly_pass (2 ^ params.log_len) params.inverse)
      (after_prologue params st)).slice_out = slice_index params.slice_in := by
    rw [inv.slice_out_eq]; rfl
  rw [foldl_stage_frame _ _ _ _ _ _ p j (fun i hi => by
    rw [hidx]
    exact hj _ (xor_half_len_lt params.log_len i ok.one_le hi))]
  exact inv.frame p j hj

/-- On the item's line, the buffer `fft1d` reports holds `final_seq` of the input line. -/
theorem fft1d_result (params : fft1d_params_t) (st : state_t) (ok : params_ok params)
    (j : ℕ) (hj : j < 2 ^ params.log_len) :
    (fft1d params st).mem (result_ptr params) (slice_index params.slice_in j)
      = final_seq params.log_len params.inverse (input_seq params st) j := by
  have inv := stage_inv_loop params st ok params.log_len le_rfl
  have hbne := stage_inv_buff_ne params st ok _ _ inv
  have hL := ok.one_le
  rw [fft1d_unfold, length_eq params.log_len ok.le]
  simp only
  rw [fft_epilogue_eq]
  generalize hl : (List.range params.log_len).foldl
      (butterfly_pass (2 ^ params.log_len) params.inverse) (after_prologue params st) = l
    at inv hbne
  have hres : l.buff_out = result_ptr params := by
    rw [← hl]; exact result_ptr_eq params st ok
  have hsrc : l.slice_in.data = l.buff_in := by rw [inv.slice_in_eq]
  have hdst : l.slice_out.data = l.buff_out := by rw [inv.slice_out_eq]
  have hidx_in : slice_index l.slice_in = slice_index params.slice_in := by
    rw [inv.slice_in_eq]; rfl
  have hidx : slice_index l.slice_out = slice_index params.slice_in := by
    rw [inv.slice_out_eq]; rfl
  have hne : l.slice_in.data ≠ l.slice_out.data := by rw [hsrc, hdst]; exact hbne
  have hi := xor_half_len_lt params.log_len j hL hj
  have hpos : (j ^^^ half_len params.log_len) ^^^ half_len params.log_len = j :=
    Nat.xor_cancel_right _ _
  have key := foldl_stage_at (2 ^ params.log_len) l.slice_in l.slice_out
    (fun i => i ^^^ half_len params.log_len)
    (epilogue_val params.log_len params.inverse) l.mem hne
    (j ^^^ half_len params.log_len) hi
    (fun i' hi' h => by
      simp only [hidx] at h
      have := ok.inj _ _ (xor_half_len_lt params.log_len i' hL hi')
        (xor_half_len_lt params.log_len _ hL hi) h
      have h2 := congrArg (fun z => z ^^^ half_len params.log_len) this
      simpa [Nat.xor_cancel_right] using h2)
  simp only [hpos, hdst, hidx, hres] at key
  rw [key]
  unfold final_seq
  apply epilogue_val_congr
  unfold sample
  rw [hsrc, hidx_in, Nat.one_shiftLeft]
  exact inv.vals _ (by have := Nat.two_pow_pos params.log_len; omega)

/-! ## The worker threads -/

/-- The items of a queue run in index order from `lo` on, `n` of them. -/
theorem thread_fn_eq (n : ℕ) : ∀ (p : work_queue_t) (st : state_t),
    p.work_item_count - p.work_index = n →
    thread_fn p st =
      ({ p with work_index := max p.work_index p.work_item_count + 1 },
        (List.range' p.work_index n).foldl
          (fun s i => (p.work_items i).fn (p.work_items i).params s) st) := by
  induction n with
  | zero =>
    intro p st h
    rw [thread_fn]
    have hge : p.work_index ≥ p.work_item_count := by omega
    simp only [hge, if_true, List.range'_zero, List.foldl_nil]
    rw [max_eq_left hge]
  | succ n ih =>
    intro p st h
    rw [thread_fn]
    have hlt : ¬ p.work_index ≥ p.work_item_count := by omega
    simp only [hlt, if_false]
    rw [ih _ _ (by simp only; omega)]
    simp only [List.range'_succ, List.foldl_cons]
    congr 2
    omega

/-- A worker that finds the queue drained does nothing but bump the cursor. -/
theorem thread_fn_drained (p : work_queue_t) (st : state_t)
    (h : p.work_index ≥ p.work_item_count) :
    thread_fn p st = ({ p with work_index := p.work_index + 1 }, st) := by
  rw [thread_fn]
  simp only [h, if_true]

/-- With at least one worker, a fresh queue runs every item once, in index order. -/
theorem run_threads_eq (threads : ℕ) (ht : 1 ≤ threads) (count : ℕ)
    (items : ℕ → work_item_t) (st : state_t) :
    run_threads threads { work_index := 0, work_item_count := count, work_items := items } st =
      ({ work_index := count + threads, work_item_count := count, work_items := items },
        (List.range count).foldl (fun s i => (items i).fn (items i).params s) st) := by
  obtain ⟨t, rfl⟩ : ∃ t, threads = t + 1 := ⟨threads - 1, by omega⟩
  clear ht
  induction t with
  | zero =>
    unfold run_threads
    rw [List.range_succ, List.range_zero]
    simp only [List.nil_append, List.foldl_cons, List.foldl_nil, zero_add]
    rw [thread_fn_eq count _ _ (by simp)]
    simp [List.range_eq_range']
  | succ t ih =>
    unfold run_threads at ih ⊢
    rw [List.range_succ, List.foldl_append, ih]
    simp only [List.foldl_cons, List.foldl_nil]
    rw [thread_fn_drained _ _ (by simp only; omega)]
    simp only [Prod.mk.injEq, and_true]
    congr 1

/-- The sequence `fft1d` leaves depends on the first `2 ^ L` input samples only. -/
theorem final_seq_congr (L : ℕ) (hL : 1 ≤ L) (inverse : Bool) (x y : ℕ → cvec_t)
    (h : ∀ t, t < 2 ^ L → x t = y t) (j : ℕ) (hj : j < 2 ^ L) :
    final_seq L inverse x j = final_seq L inverse y j := by
  rw [final_seq_eq L hL inverse x j hj, final_seq_eq L hL inverse y j hj]
  congr 1
  apply sum_congr rfl
  intro n hn
  rw [h _ (xor_half_len_lt L n hL (mem_range.1 hn))]

/-! ## One phase: the items of a queue, run in order -/

/-- What a phase of `n` well-formed items on pairwise disjoint lines leaves after its first
`m` items: the transformed lines in the result buffer, every offset off those lines as
before, and `out` set once an item has run. -/
theorem phase_run (lw lh : ℕ) (pin pout : ptr_t) (vert : Bool) (L : ℕ) (inverse : Bool)
    (n : ℕ) (st : state_t)
    (hok : ∀ i, i < n → params_ok (phase_items lw lh pin pout vert L inverse i).params)
    (hdisj : ∀ i i', i < n → i' < n → i ≠ i' → ∀ t t', t < 2 ^ L → t' < 2 ^ L →
      slice_index (phase_items lw lh pin pout vert L inverse i).params.slice_in t ≠
        slice_index (phase_items lw lh pin pout vert L inverse i').params.slice_in t')
    (m : ℕ) (hm : m ≤ n) :
    (∀ i t, i < m → t < 2 ^ L →
      ((List.range m).foldl
        (fun s i => (phase_items lw lh pin pout vert L inverse i).fn
          (phase_items lw lh pin pout vert L inverse i).params s) st).mem
          (if L % 2 = 1 then pout else pin)
          (slice_index (phase_items lw lh pin pout vert L inverse i).params.slice_in t)
        = final_seq L inverse
            (fun t' => st.mem pin
              (slice_index (phase_items lw lh pin pout vert L inverse i).params.slice_in t'))
            t) ∧
    (∀ p j, (∀ i t, i < m → t < 2 ^ L →
        slice_index (phase_items lw lh pin pout vert L inverse i).params.slice_in t ≠ j) →
      ((List.range m).foldl
        (fun s i => (phase_items lw lh pin pout vert L inverse i).fn
          (phase_items lw lh pin pout vert L inverse i).params s) st).mem p j = st.mem p j) ∧
    (1 ≤ m →
      ((List.range m).foldl
        (fun s i => (phase_items lw lh pin pout vert L inverse i).fn
          (phase_items lw lh pin pout vert L inverse i).params s) st).out
        = some (if L % 2 = 1 then pout else pin)) := by
  induction m with
  | zero =>
    refine ⟨fun i t hi _ => by omega, fun p j _ => rfl, fun h => by omega⟩
  | succ m ih =>
    obtain ⟨ihA, ihB, _⟩ := ih (by omega)
    have okm := hok m (by omega)
    have hL : 1 ≤ L := okm.one_le
    rw [List.range_succ, List.foldl_append]
    simp only [List.foldl_cons, List.foldl_nil]
    generalize hS : (List.range m).foldl
        (fun s i => (phase_items lw lh pin pout vert L inverse i).fn
          (phase_items lw lh pin pout vert L inverse i).params s) st = S at ihA ihB
    have hfn : (phase_items lw lh pin pout vert L inverse m).fn = fft1d := rfl
    have hres : result_ptr (phase_items lw lh pin pout vert L inverse m).params
        = (if L % 2 = 1 then pout else pin) := rfl
    have hlen : (phase_items lw lh pin pout vert L inverse m).params.log_len = L := rfl
    rw [hfn]
    refine ⟨?_, ?_, ?_⟩
    · intro i t hi ht
      by_cases him : i = m
      · subst him
        rw [← hres, fft1d_result _ S okm t ht]
        apply final_seq_congr L hL inverse _ _ _ t ht
        intro t' ht'
        show S.mem pin _ = _
        exact ihB pin _ (fun i' t'' hi' ht'' => hdisj i' i (by omega) (by omega) (by omega)
          t'' t' ht'' ht')
      · have hi' : i < m := by omega
        rw [fft1d_frame _ S okm _ _ (fun t' ht' =>
          hdisj m i (by omega) (by omega) (by omega) t' t ht' ht)]
        exact ihA i t hi' ht
    · intro p j hj
      rw [fft1d_frame _ S okm _ _ (fun t' ht' => hj m t' (by omega) ht')]
      exact ihB p j (fun i t hi ht => hj i t (by omega) ht)
    · intro _
      rw [fft1d_out _ S okm, hres]

/-! ## The lines of a grid -/

theorem grid_lt (lw lh : ℕ) (hsum : lw + lh ≤ 31) : 2 ^ lw * 2 ^ lh < 2 ^ 32 := by
  rw [← pow_add]
  calc 2 ^ (lw + lh) ≤ 2 ^ 31 := Nat.pow_le_pow_right (by norm_num) hsum
    _ < 2 ^ 32 := by norm_num

theorem cell_lt (W H y x : ℕ) (hy : y < H) (hx : x < W) : W * y + x < W * H := by
  have : W * (y + 1) ≤ W * H := Nat.mul_le_mul_left W hy
  rw [Nat.mul_succ] at this
  omega

theorem width_eq (lw lh : ℕ) (hsum : lw + lh ≤ 31) : (1 <<< lw) % 2 ^ 32 = 2 ^ lw :=
  length_eq lw (by omega)

/-- The offset of position `t` of row `i`. -/
theorem row_index (lw lh : ℕ) (hsum : lw + lh ≤ 31) (pin pout : ptr_t) (L : ℕ)
    (inverse : Bool) (i t : ℕ) (hi : i < 2 ^ lh) (ht : t < 2 ^ lw) :
    slice_index (phase_items lw lh pin pout false L inverse i).params.slice_in t
      = 2 ^ lw * i + t := by
  show (if false = true then _ else to_index ((1 <<< lw) % 2 ^ 32) t i) = _
  rw [if_neg (by simp), width_eq lw lh hsum]
  unfold to_index
  exact Nat.mod_eq_of_lt (lt_trans (cell_lt _ _ _ _ hi ht) (grid_lt lw lh hsum))

/-- The offset of position `t` of column `i`. -/
theorem col_index (lw lh : ℕ) (hsum : lw + lh ≤ 31) (pin pout : ptr_t) (L : ℕ)
    (inverse : Bool) (i t : ℕ) (hi : i < 2 ^ lw) (ht : t < 2 ^ lh) :
    slice_index (phase_items lw lh pin pout true L inverse i).params.slice_in t
      = 2 ^ lw * t + i := by
  show (if true = true then to_index ((1 <<< lw) % 2 ^ 32) i t else _) = _
  rw [if_pos rfl, width_eq lw lh hsum]
  unfold to_index
  exact Nat.mod_eq_of_lt (lt_trans (cell_lt _ _ _ _ ht hi) (grid_lt lw lh hsum))

theorem row_ok (lw lh : ℕ) (hlw : 1 ≤ lw) (hsum : lw + lh ≤ 31) (pin pout : ptr_t)
    (hne : pin ≠ pout) (inverse : Bool) (i : ℕ) (hi : i < 2 ^ lh) :
    params_ok (phase_items lw lh pin pout false lw inverse i).params := by
  refine ⟨hlw, ?_, rfl, rfl, hne, ?_⟩
  · show lw ≤ 31
    omega
  · intro t t' ht ht' h
    rw [row_index lw lh hsum pin pout lw inverse i t hi ht,
      row_index lw lh hsum pin pout lw inverse i t' hi ht'] at h
    omega

theorem col_ok (lw lh : ℕ) (hlh : 1 ≤ lh) (hsum : lw + lh ≤ 31) (pin pout : ptr_t)
    (hne : pin ≠ pout) (inverse : Bool) (i : ℕ) (hi : i < 2 ^ lw) :
    params_ok (phase_items lw lh pin pout true lh inverse i).params := by
  refine ⟨hlh, ?_, rfl, rfl, hne, ?_⟩
  · show lh ≤ 31
    omega
  · intro t t' ht ht' h
    rw [col_index lw lh hsum pin pout lh inverse i t hi ht,
      col_index lw lh hsum pin pout lh inverse i t' hi ht'] at h
    have h2 : 2 ^ lw * t = 2 ^ lw * t' := by omega
    exact Nat.eq_of_mul_eq_mul_left (Nat.two_pow_pos lw) h2

theorem row_disjoint (W i i' t t' : ℕ) (hne : i ≠ i') (ht : t < W) (ht' : t' < W) :
    W * i + t ≠ W * i' + t' := by
  intro h
  have h1 := congrArg (fun z => z / W) h
  have hW : 0 < W := by omega
  simp only [Nat.mul_add_div hW, Nat.div_eq_of_lt ht, Nat.div_eq_of_lt ht'] at h1
  omega

theorem col_disjoint (W i i' t t' : ℕ) (hne : i ≠ i') (hi : i < W) (hi' : i' < W) :
    W * t + i ≠ W * t' + i' := by
  intro h
  have h1 := congrArg (fun z => z % W) h
  simp only [Nat.mul_add_mod, Nat.mod_eq_of_lt hi, Nat.mod_eq_of_lt hi'] at h1
  omega

/-- Every offset below `W * H` is a cell `W * y + x` of the grid. -/
theorem cell_of_lt (W H i : ℕ) (hi : i < W * H) :
    i / W < H ∧ i % W < W ∧ W * (i / W) + i % W = i := by
  have hW : 0 < W := by
    rcases Nat.eq_zero_or_pos W with h | h
    · subst h; simp at hi
    · exact h
  refine ⟨?_, Nat.mod_lt _ hW, Nat.div_add_mod i W⟩
  rw [Nat.div_lt_iff_lt_mul hW]
  rw [Nat.mul_comm] at hi
  exact hi

/-- The row phase: every row of the input buffer, transformed, in the result buffer. -/
theorem rows_phase (lw lh : ℕ) (hlw : 1 ≤ lw) (hsum : lw + lh ≤ 31) (pin pout : ptr_t)
    (hne : pin ≠ pout) (inverse : Bool) (st : state_t) :
    ((List.range (2 ^ lh)).foldl
        (fun s i => (phase_items lw lh pin pout false lw inverse i).fn
          (phase_items lw lh pin pout false lw inverse i).params s) st).out
      = some (if lw % 2 = 1 then pout else pin) ∧
    (∀ y x, y < 2 ^ lh → x < 2 ^ lw →
      ((List.range (2 ^ lh)).foldl
        (fun s i => (phase_items lw lh pin pout false lw inverse i).fn
          (phase_items lw lh pin pout false lw inverse i).params s) st).mem
          (if lw % 2 = 1 then pout else pin) (2 ^ lw * y + x)
        = final_seq lw inverse (fun t' => st.mem pin (2 ^ lw * y + t')) x) ∧
    (∀ p j, 2 ^ lw * 2 ^ lh ≤ j →
      ((List.range (2 ^ lh)).foldl
        (fun s i => (phase_items lw lh pin pout false lw inverse i).fn
          (phase_items lw lh pin pout false lw inverse i).params s) st).mem p j
        = st.mem p j) := by
  obtain ⟨hA, hB, hC⟩ := phase_run lw lh pin pout false lw inverse (2 ^ lh) st
    (fun i hi => row_ok lw lh hlw hsum pin pout hne inverse i hi)
    (fun i i' hi hi' hii t t' ht ht' => by
      rw [row_index lw lh hsum pin pout lw inverse i t hi ht,
        row_index lw lh hsum pin pout lw inverse i' t' hi' ht']
      exact row_disjoint _ _ _ _ _ hii ht ht')
    (2 ^ lh) le_rfl
  refine ⟨hC (Nat.two_pow_pos lh), ?_, ?_⟩
  · intro y x hy hx
    have := hA y x hy hx
    rw [row_index lw lh hsum pin pout lw inverse y x hy hx] at this
    rw [this]
    apply final_seq_congr lw hlw inverse _ _ _ x hx
    intro t ht
    rw [row_index lw lh hsum pin pout lw inverse y t hy ht]
  · intro p j hj
    apply hB
    intro i t hi ht
    rw [row_index lw lh hsum pin pout lw inverse i t hi ht]
    have := cell_lt _ _ _ _ hi ht
    omega

/-- The column phase: every column of the input buffer, transformed, in the result
buffer. -/
theorem cols_phase (lw lh : ℕ) (hlh : 1 ≤ lh) (hsum : lw + lh ≤ 31) (pin pout : ptr_t)
    (hne : pin ≠ pout) (inverse : Bool) (st : state_t) :
    ((List.range (2 ^ lw)).foldl
        (fun s i => (phase_items lw lh pin pout true lh inverse i).fn
          (phase_items lw lh pin pout true lh inverse i).params s) st).out
      = some (if lh % 2 = 1 then pout else pin) ∧
    (∀ y x, y < 2 ^ lh → x < 2 ^ lw →
      ((List.range (2 ^ lw)).foldl
        (fun s i => (phase_items lw lh pin pout true lh inverse i).fn
          (phase_items lw lh pin pout true lh inverse i).params s) st).mem
          (if lh % 2 = 1 then pout else pin) (2 ^ lw * y + x)
        = final_seq lh inverse (fun t => st.mem pin (2 ^ lw * t + x)) y) ∧
    (∀ p j, 2 ^ lw * 2 ^ lh ≤ j →
      ((List.range (2 ^ lw)).foldl
        (fun s i => (phase_items lw lh pin pout true lh inverse i).fn
          (phase_items lw lh pin pout true lh inverse i).params s) st).mem p j
        = st.mem p j) := by
  obtain ⟨hA, hB, hC⟩ := phase_run lw lh pin pout true lh inverse (2 ^ lw) st
    (fun i hi => col_ok lw lh hlh hsum pin pout hne inverse i hi)
    (fun i i' hi hi' hii t t' ht ht' => by
      rw [col_index lw lh hsum pin pout lh inverse i t hi ht,
        col_index lw lh hsum pin pout lh inverse i' t' hi' ht']
      exact col_disjoint _ _ _ _ _ hii hi hi')
    (2 ^ lw) le_rfl
  refine ⟨hC (Nat.two_pow_pos lw), ?_, ?_⟩
  · intro y x hy hx
    have := hA x y hx hy
    rw [col_index lw lh hsum pin pout lh inverse x y hx hy] at this
    rw [this]
    apply final_seq_congr lh hlh inverse _ _ _ y hy
    intro t ht
    rw [col_index lw lh hsum pin pout lh inverse x t hx ht]
  · intro p j hj
    apply hB
    intro i t hi ht
    rw [col_index lw lh hsum pin pout lh inverse i t hi ht]
    have := cell_lt _ _ _ _ ht hi
    omega

/-- On a valid grid with at least one worker and a successful allocation, `fft2d` returns
`Success` and leaves the rows-then-columns transform in the caller's grid. -/
theorem fft2d_eq (data : ℕ → cvec_t) (lw lh threads : ℕ) (inverse : Bool)
    (buff : ℕ → cvec_t) (hlw : 1 ≤ lw) (hlh : 1 ≤ lh) (hsum : lw + lh ≤ 31)
    (ht : 1 ≤ threads) :
    fft2d data lw lh threads inverse (some buff)
      = some (return_code_t.Success, row_column_grid lw lh inverse data) := by
  have hW := width_eq lw lh hsum
  have hH := width_eq lh lw (by omega)
  have hlen : (2 ^ lw * 2 ^ lh) % 2 ^ 32 = 2 ^ lw * 2 ^ lh :=
    Nat.mod_eq_of_lt (grid_lt lw lh hsum)
  have hWpos := Nat.two_pow_pos lw
  have hHpos := Nat.two_pow_pos lh
  unfold fft2d
  simp only [hW, hH, hlen]
  rw [if_neg (by omega), if_neg (by omega)]
  simp only [run_threads_eq threads ht]
  -- the row phase
  obtain ⟨ho1, hv1, hf1⟩ := rows_phase lw lh hlw hsum ptr_t.data ptr_t.buff (by decide) inverse
    { mem := heap_of data buff, out := none }
  generalize hS1 : (List.range (2 ^ lh)).foldl
      (fun s i => (phase_items lw lh ptr_t.data ptr_t.buff false lw inverse i).fn
        (phase_items lw lh ptr_t.data ptr_t.buff false lw inverse i).params s)
      { mem := heap_of data buff, out := none } = S1 at ho1 hv1 hf1 ⊢
  rw [ho1]
  simp only
  generalize hr1 : (if lw % 2 = 1 then ptr_t.buff else ptr_t.data) = r1 at ho1 hv1 hf1 ⊢
  -- the column phase
  have hne2 : r1 ≠ (if r1 = ptr_t.buff then ptr_t.data else ptr_t.buff) := by
    cases r1 <;> decide
  obtain ⟨ho2, hv2, hf2⟩ := cols_phase lw lh hlh hsum r1
    (if r1 = ptr_t.buff then ptr_t.data else ptr_t.buff) hne2 inverse S1
  generalize hS2 : (List.range (2 ^ lw)).foldl
      (fun s i => (phase_items lw lh r1 (if r1 = ptr_t.buff then ptr_t.data else ptr_t.buff)
          true lh inverse i).fn
        (phase_items lw lh r1 (if r1 = ptr_t.buff then ptr_t.data else ptr_t.buff)
          true lh inverse i).params s) S1 = S2 at ho2 hv2 hf2 ⊢
  rw [ho2]
  simp only
  generalize hr2 : (if lh % 2 = 1 then (if r1 = ptr_t.buff then ptr_t.data else ptr_t.buff)
    else r1) = r2 at ho2 hv2 hf2 ⊢
  -- the caller's grid on exit
  have hcell : ∀ i, i < 2 ^ lw * 2 ^ lh → S2.mem r2 i = row_column_grid lw lh inverse data i := by
    intro i hi
    obtain ⟨hy, hx, hyx⟩ := cell_of_lt _ _ i hi
    unfold row_column_grid
    rw [if_pos hi]
    conv_lhs => rw [← hyx]
    rw [hv2 _ _ hy hx]
    apply final_seq_congr lh hlh inverse _ _ _ _ hy
    intro t ht
    rw [hv1 t _ ht hx]
    rfl
  have hrest : ∀ i, ¬ i < 2 ^ lw * 2 ^ lh →
      S2.mem ptr_t.data i = row_column_grid lw lh inverse data i := by
    intro i hi
    unfold row_column_grid
    rw [if_neg hi, hf2 _ _ (by omega), hf1 _ _ (by omega)]
    rfl
  by_cases hd : r2 = ptr_t.data
  · rw [if_neg (by simpa using hd)]
    congr 2
    funext i
    by_cases hi : i < 2 ^ lw * 2 ^ lh
    · rw [← hd]; exact hcell i hi
    · exact hrest i hi
  · rw [if_pos hd]
    congr 2
    funext i
    unfold memcpy
    by_cases hi : i < 2 ^ lw * 2 ^ lh
    · rw [if_pos hi]; exact hcell i hi
    · rw [if_neg hi]; exact hrest i hi

/-! ## The discrete Fourier transform: orthogonality, inversion, energy -/

theorem dft_coeff_mul (N : ℕ) (hN : N ≠ 0) (m j n : ℕ) (hm : m ≤ N) :
    dft_coeff false N n m * dft_coeff true N j n
      = (Complex.exp (2 * Real.pi * Complex.I / N) ^ (j + (N - m))) ^ n := by
  unfold dft_coeff
  rw [← Complex.exp_add, ← Complex.exp_nat_mul, ← Complex.exp_nat_mul,
    Complex.exp_eq_exp_iff_exists_int]
  have hN' : (N : ℂ) ≠ 0 := by exact_mod_cast hN
  refine ⟨-(n : ℤ), ?_⟩
  push_cast [Nat.cast_sub hm]
  simp only [Bool.false_eq_true, if_false, if_true]
  field_simp
  ring

/-- Orthogonality of the DFT coefficients. -/
theorem dft_coeff_orthogonal (N : ℕ) (hN : N ≠ 0) (m j : ℕ) (hm : m < N) (hj : j < N) :
    ∑ n in range N, dft_coeff false N n m * dft_coeff true N j n
      = if m = j then (N : ℂ) else 0 := by
  have hprim := Complex.isPrimitiveRoot_exp N hN
  simp only [dft_coeff_mul N hN m j _ (le_of_lt hm)]
  by_cases h : m = j
  · subst h
    rw [if_pos rfl]
    have : m + (N - m) = N := by omega
    rw [this, hprim.pow_eq_one]
    simp
  · rw [if_neg h]
    have hne : Complex.exp (2 * Real.pi * Complex.I / N) ^ (j + (N - m)) ≠ 1 := by
      rw [Ne, hprim.pow_eq_one_iff_dvd]
      rintro ⟨c, hc⟩
      have hc1 : c = 1 := by
        have h1 : 0 < c := by
          rcases Nat.eq_zero_or_pos c with h0 | h0
          · subst h0; omega
          · exact h0
        have h2 : c < 2 := by
          by_contra hge
          have : N * 2 ≤ N * c := Nat.mul_le_mul_left N (by omega)
          omega
        omega
      subst hc1
      omega
    have hgeom := geom_sum_mul (Complex.exp (2 * Real.pi * Complex.I / N) ^ (j + (N - m))) N
    rw [← pow_mul, Nat.mul_comm, pow_mul, hprim.pow_eq_one, one_pow, sub_self] at hgeom
    rcases mul_eq_zero.1 hgeom with h0 | h0
    · exact h0
    · exact absurd (sub_eq_zero.1 h0) hne

theorem dft_coeff_symm (inverse : Bool) (N k n : ℕ) :
    dft_coeff inverse N k n = dft_coeff inverse N n k := by
  unfold dft_coeff
  congr 1
  ring

theorem dft_coeff_conj (N k n : ℕ) :
    (starRingEnd ℂ) (dft_coeff false N k n) = dft_coeff true N k n := by
  unfold dft_coeff
  rw [← Complex.exp_conj]
  congr 1
  simp only [Bool.false_eq_true, if_false, if_true, map_div₀, map_mul, map_neg, map_one,
    Complex.conj_I, Complex.conj_ofReal, map_natCast, map_ofNat]
  ring

/-- A sum over `[0, 2 ^ L)` may be read in the order `n ^ h` for any `h < 2 ^ L`. -/
theorem sum_range_xor {M : Type*} [AddCommMonoid M] (L h : ℕ) (hh : h < 2 ^ L) (f : ℕ → M) :
    ∑ n in range (2 ^ L), f (n ^^^ h) = ∑ n in range (2 ^ L), f n := by
  apply sum_nbij' (fun n => n ^^^ h) (fun n => n ^^^ h)
  · intro n hn
    exact mem_range.2 (Nat.xor_lt_two_pow (mem_range.1 hn) hh)
  · intro n hn
    exact mem_range.2 (Nat.xor_lt_two_pow (mem_range.1 hn) hh)
  · intro n _
    exact Nat.xor_cancel_right _ _
  · intro n _
    exact Nat.xor_cancel_right _ _
  · intro n _
    rfl

theorem half_lt (L : ℕ) (hL : 1 ≤ L) : 2 ^ (L - 1) < 2 ^ L :=
  Nat.pow_lt_pow_right (by norm_num) (by omega)

theorem xor_half_lt (L j : ℕ) (hL : 1 ≤ L) (hj : j < 2 ^ L) : j ^^^ 2 ^ (L - 1) < 2 ^ L :=
  Nat.xor_lt_two_pow hj (half_lt L hL)

/-- The centred DFT reads only the first `2 ^ L` samples. -/
theorem centred_dft_congr (L : ℕ) (hL : 1 ≤ L) (inverse : Bool) (x y : ℕ → ℂ)
    (h : ∀ n, n < 2 ^ L → x n = y n) (j : ℕ) :
    centred_dft L inverse x j = centred_dft L inverse y j := by
  unfold centred_dft
  congr 1
  apply sum_congr rfl
  intro n hn
  rw [h _ (xor_half_lt L n hL (mem_range.1 hn))]

/-- The inverse centred DFT undoes the forward one. -/
theorem centred_dft_inverse (L : ℕ) (hL : 1 ≤ L) (x : ℕ → ℂ) (j : ℕ) (hj : j < 2 ^ L) :
    centred_dft L true (centred_dft L false x) j = x j := by
  have hN : (2 ^ L : ℕ) ≠ 0 := by positivity
  have hNc : ((2 ^ L : ℕ) : ℂ) ≠ 0 := by exact_mod_cast hN
  have hj' := xor_half_lt L j hL hj
  unfold centred_dft
  simp only [Nat.xor_cancel_right]
  unfold dft_scale
  simp only [if_true, Bool.false_eq_true, if_false, one_mul]
  simp only [sum_mul]
  rw [sum_comm]
  have key : ∀ m ∈ range (2 ^ L),
      ∑ n in range (2 ^ L), x (m ^^^ 2 ^ (L - 1)) * dft_coeff false (2 ^ L) n m *
          dft_coeff true (2 ^ L) (j ^^^ 2 ^ (L - 1)) n
        = x (m ^^^ 2 ^ (L - 1)) * (if m = j ^^^ 2 ^ (L - 1) then ((2 ^ L : ℕ) : ℂ) else 0) := by
    intro m hm
    rw [← dft_coeff_orthogonal (2 ^ L) hN m _ (mem_range.1 hm) hj', mul_sum]
    apply sum_congr rfl
    intro n _
    ring
  rw [sum_congr rfl key]
  simp only [mul_ite, mul_zero]
  rw [sum_ite_eq' (range (2 ^ L)) (j ^^^ 2 ^ (L - 1)), if_pos (mem_range.2 hj'),
    Nat.xor_cancel_right]
  push_cast
  field_simp

/-- Transforming along one axis commutes with transforming along the other. -/
theorem centred_dft_comm (L1 L2 : ℕ) (i1 i2 : Bool) (B : ℕ → ℕ → ℂ) (u v : ℕ) :
    centred_dft L1 i1 (fun x => centred_dft L2 i2 (fun y => B y x) v) u
      = centred_dft L2 i2 (fun y => centred_dft L1 i1 (fun x => B y x) u) v := by
  unfold centred_dft
  simp only [mul_sum, sum_mul]
  rw [sum_comm]
  apply sum_congr rfl
  intro n _
  apply sum_congr rfl
  intro m _
  ring

/-- The centred DFT is linear. -/
theorem centred_dft_linear (L : ℕ) (inverse : Bool) (a b : ℂ) (x y : ℕ → ℂ) (j : ℕ) :
    centred_dft L inverse (fun n => a * x n + b * y n) j
      = a * centred_dft L inverse x j + b * centred_dft L inverse y j := by
  unfold centred_dft
  simp only [mul_sum, ← sum_add_distrib]
  apply sum_congr rfl
  intro n _
  ring

/-- The forward centred DFT multiplies the energy of a sequence by its length. -/
theorem centred_dft_energy (L : ℕ) (hL : 1 ≤ L) (x : ℕ → ℂ) :
    ∑ j in range (2 ^ L), Complex.normSq (centred_dft L false x j)
      = (2 ^ L : ℝ) * ∑ n in range (2 ^ L), Complex.normSq (x n) := by
  have hN : (2 ^ L : ℕ) ≠ 0 := by positivity
  have hh := half_lt L hL
  rw [← sum_range_xor L (2 ^ (L - 1)) hh (fun j => Complex.normSq (centred_dft L false x j)),
    ← sum_range_xor L (2 ^ (L - 1)) hh (fun n => Complex.normSq (x n))]
  apply Complex.ofReal_injective
  push_cast
  simp only [← Complex.mul_conj]
  unfold centred_dft dft_scale
  simp only [Bool.false_eq_true, if_false, one_mul, Nat.xor_cancel_right, map_sum, map_mul,
    dft_coeff_conj]
  simp only [sum_mul_sum]
  rw [sum_comm]
  rw [mul_sum]
  apply sum_congr rfl
  intro m hm
  have inner : ∀ k ∈ range (2 ^ L),
      ∑ m' in range (2 ^ L),
        x (m ^^^ 2 ^ (L - 1)) * dft_coeff false (2 ^ L) k m *
          ((starRingEnd ℂ) (x (m' ^^^ 2 ^ (L - 1))) * dft_coeff true (2 ^ L) k m')
      = ∑ m' in range (2 ^ L),
        x (m ^^^ 2 ^ (L - 1)) * (starRingEnd ℂ) (x (m' ^^^ 2 ^ (L - 1))) *
          (dft_coeff false (2 ^ L) k m * dft_coeff true (2 ^ L) m' k) := by
    intro k _
    apply sum_congr rfl
    intro m' _
    rw [dft_coeff_symm true (2 ^ L) k m']
    ring
  rw [sum_congr rfl inner, sum_comm]
  simp only [← mul_sum]
  have orth : ∀ m' ∈ range (2 ^ L),
      x (m ^^^ 2 ^ (L - 1)) * (starRingEnd ℂ) (x (m' ^^^ 2 ^ (L - 1))) *
        ∑ k in range (2 ^ L), dft_coeff false (2 ^ L) k m * dft_coeff true (2 ^ L) m' k
      = if m = m' then
          x (m ^^^ 2 ^ (L - 1)) * (starRingEnd ℂ) (x (m' ^^^ 2 ^ (L - 1))) * ((2 ^ L : ℕ) : ℂ)
        else 0 := by
    intro m' hm'
    rw [dft_coeff_orthogonal (2 ^ L) hN m m' (mem_range.1 hm) (mem_range.1 hm')]
    split <;> simp
  rw [sum_congr rfl orth, sum_ite_eq (range (2 ^ L)) m, if_pos hm]
  push_cast
  ring

/-- A sum over the cells of a grid, row by row. -/
theorem sum_range_grid {M : Type*} [AddCommMonoid M] (W H : ℕ) (f : ℕ → M) :
    ∑ i in range (W * H), f i = ∑ y in range H, ∑ x in range W, f (W * y + x) := by
  induction H with
  | zero => simp
  | succ H ih =>
    rw [Nat.mul_succ, sum_range_add, ih, sum_range_succ]

/-! ## The rows-then-columns grid, cell by cell -/

theorem row_column_grid_outside (lw lh : ℕ) (inverse : Bool) (data : ℕ → cvec_t) (i : ℕ)
    (hi : 2 ^ lw * 2 ^ lh ≤ i) : row_column_grid lw lh inverse data i = data i := by
  unfold row_column_grid
  rw [if_neg (by omega)]

theorem row_column_grid_cell (lw lh : ℕ) (inverse : Bool) (data : ℕ → cvec_t) (y x : ℕ)
    (hy : y < 2 ^ lh) (hx : x < 2 ^ lw) :
    row_column_grid lw lh inverse data (2 ^ lw * y + x)
      = final_seq lh inverse
          (fun t => final_seq lw inverse (fun t' => data (2 ^ lw * t + t')) x) y := by
  unfold row_column_grid
  rw [if_pos (cell_lt _ _ _ _ hy hx), Nat.mul_add_mod, Nat.mod_eq_of_lt hx,
    Nat.mul_add_div (Nat.two_pow_pos lw), Nat.div_eq_of_lt hx, Nat.add_zero]

/-- A cell of the rows-then-columns grid, as the centred DFT along both axes. -/
theorem row_column_grid_dft (lw lh : ℕ) (hlw : 1 ≤ lw) (hlh : 1 ≤ lh) (inverse : Bool)
    (data : ℕ → cvec_t) (y x : ℕ) (hy : y < 2 ^ lh) (hx : x < 2 ^ lw) (c : Fin 4) :
    row_column_grid lw lh inverse data (2 ^ lw * y + x) c
      = centred_dft lh inverse
          (fun t => centred_dft lw inverse (fun t' => data (2 ^ lw * t + t') c) x) y := by
  rw [row_column_grid_cell lw lh inverse data y x hy hx,
    final_seq_eq_centred_dft lh hlh inverse _ y hy c]
  congr 1
  funext t
  exact final_seq_eq_centred_dft lw hlw inverse _ x hx c

/-- The inverse rows-then-columns grid of the forward one is the grid itself. -/
theorem row_column_grid_inverse (lw lh : ℕ) (hlw : 1 ≤ lw) (hlh : 1 ≤ lh)
    (G : ℕ → cvec_t) :
    row_column_grid lw lh true (row_column_grid lw lh false G) = G := by
  funext i
  by_cases hi : i < 2 ^ lw * 2 ^ lh
  · obtain ⟨hy, hx, hyx⟩ := cell_of_lt _ _ i hi
    rw [← hyx]
    generalize i / 2 ^ lw = y at hy
    generalize i % 2 ^ lw = x at hx
    funext c
    rw [row_column_grid_dft lw lh hlw hlh true _ y x hy hx c]
    have h1 : ∀ t, t < 2 ^ lh →
        centred_dft lw true (fun t' => row_column_grid lw lh false G (2 ^ lw * t + t') c) x
          = centred_dft lh false (fun s => G (2 ^ lw * s + x) c) t := by
      intro t ht
      rw [centred_dft_congr lw hlw true _
        (fun t' => centred_dft lh false
          (fun s => centred_dft lw false (fun s' => G (2 ^ lw * s + s') c) t') t)
        (fun t' ht' => row_column_grid_dft lw lh hlw hlh false G t t' ht ht' c)]
      rw [centred_dft_comm lw lh true false
        (fun s t' => centred_dft lw false (fun s' => G (2 ^ lw * s + s') c) t') x t]
      congr 1
      funext s
      exact centred_dft_inverse lw hlw _ x hx
    rw [centred_dft_congr lh hlh true _ _ h1]
    exact centred_dft_inverse lh hlh _ y hy
  · rw [row_column_grid_outside _ _ _ _ _ (by omega),
      row_column_grid_outside _ _ _ _ _ (by omega)]

/-- The rows-then-columns grid is linear in the input grid. -/
theorem row_column_grid_linear (lw lh : ℕ) (hlw : 1 ≤ lw) (hlh : 1 ≤ lh) (inverse : Bool)
    (a b : ℂ) (X Y : ℕ → cvec_t) (i : ℕ) :
    row_column_grid lw lh inverse (fun j => a • X j + b • Y j) i
      = a • row_column_grid lw lh inverse X i + b • row_column_grid lw lh inverse Y i := by
  by_cases hi : i < 2 ^ lw * 2 ^ lh
  · obtain ⟨hy, hx, hyx⟩ := cell_of_lt _ _ i hi
    rw [← hyx]
    generalize i / 2 ^ lw = y at hy
    generalize i % 2 ^ lw = x at hx
    funext c
    simp only [Pi.add_apply, Pi.smul_apply, smul_eq_mul]
    rw [row_column_grid_dft lw lh hlw hlh inverse _ y x hy hx c,
      row_column_grid_dft lw lh hlw hlh inverse X y x hy hx c,
      row_column_grid_dft lw lh hlw hlh inverse Y y x hy hx c,
      ← centred_dft_linear]
    congr 1
    funext t
    simp only [Pi.add_apply, Pi.smul_apply, smul_eq_mul]
    rw [← centred_dft_linear]
  · rw [row_column_grid_outside _ _ _ _ _ (by omega),
      row_column_grid_outside _ _ _ _ _ (by omega),
      row_column_grid_outside _ _ _ _ _ (by omega)]

/-- The forward rows-then-columns grid multiplies the energy of every channel by the
number of cells. -/
theorem row_column_grid_energy (lw lh : ℕ) (hlw : 1 ≤ lw) (hlh : 1 ≤ lh) (G : ℕ → cvec_t)
    (c : Fin 4) :
    ∑ i in range (2 ^ lw * 2 ^ lh), Complex.normSq (row_column_grid lw lh false G i c)
      = ((2 ^ lw * 2 ^ lh : ℕ) : ℝ) * ∑ i in range (2 ^ lw * 2 ^ lh), Complex.normSq (G i c) := by
  rw [sum_range_grid, sum_range_grid]
  have h1 : ∀ y ∈ range (2 ^ lh), ∀ x ∈ range (2 ^ lw),
      Complex.normSq (row_column_grid lw lh false G (2 ^ lw * y + x) c)
        = Complex.normSq (centred_dft lh false
            (fun t => centred_dft lw false (fun t' => G (2 ^ lw * t + t') c) x) y) := by
    intro y hy x hx
    rw [row_column_grid_dft lw lh hlw hlh false G y x (mem_range.1 hy) (mem_range.1 hx) c]
  rw [sum_congr rfl (fun y hy => sum_congr rfl (h1 y hy)), sum_comm]
  simp only [centred_dft_energy lh hlh]
  rw [← mul_sum, sum_comm]
  simp only [centred_dft_energy lw hlw]
  rw [← mul_sum]
  push_cast
  ring

/-! ## The transform of a single line -/

/-- `fft1d` run on a single line leaves `final_seq` of that line. -/
theorem fft1d_line_eq (L : ℕ) (hL : 1 ≤ L) (hL' : L ≤ 31) (inverse : Bool) (x : ℕ → cvec_t)
    (j : ℕ) (hj : j < 2 ^ L) : fft1d_line L inverse x j = final_seq L inverse x j := by
  have ok := row_ok L 0 hL (by omega) ptr_t.data ptr_t.buff (by decide) inverse 0 (by simp)
  have hidx : ∀ t, t < 2 ^ L →
      slice_index (phase_items L 0 ptr_t.data ptr_t.buff false L inverse 0).params.slice_in t
        = t := by
    intro t ht
    rw [row_index L 0 (by omega) ptr_t.data ptr_t.buff L inverse 0 t (by simp) ht]
    simp
  have hout := fft1d_out _ { mem := heap_of x (fun _ => 0), out := none } ok
  have := fft1d_result _ { mem := heap_of x (fun _ => 0), out := none } ok j hj
  rw [hidx j hj] at this
  simp only [fft1d_line, hout]
  rw [this]
  apply final_seq_congr L hL inverse _ _ _ j hj
  intro t ht
  show heap_of x (fun _ => 0) ptr_t.data _ = x t
  rw [hidx t ht]
  rfl

/-! ## The smallest grid -/

theorem half_len_one : half_len 1 = 1 := rfl

/-- The transform of length two. -/
theorem final_seq_one (inverse : Bool) (x : ℕ → cvec_t) :
    final_seq 1 inverse x 0 = (x 1 - x 0) * epilogue_scale 1 inverse ∧
    final_seq 1 inverse x 1 = (x 1 + x 0) * epilogue_scale 1 inverse := by
  constructor
  · rw [final_seq_eq 1 le_rfl inverse x 0 (by norm_num), twiddle_root_one, half_len_one]
    simp [sum_range_succ]
    ring
  · rw [final_seq_eq 1 le_rfl inverse x 1 (by norm_num), twiddle_root_one, half_len_one]
    simp [sum_range_succ]

theorem epilogue_scale_forward (L : ℕ) : epilogue_scale L false = 1 := by
  unfold epilogue_scale
  simp

/-- The forward rows-then-columns grid of a `2 × 2` grid. -/
theorem row_column_grid_two_by_two (G : ℕ → cvec_t) :
    row_column_grid 1 1 false G 0 = (G 3 - G 2) - (G 1 - G 0) ∧
    row_column_grid 1 1 false G 1 = (G 3 + G 2) - (G 1 + G 0) ∧
    row_column_grid 1 1 false G 2 = (G 3 - G 2) + (G 1 - G 0) ∧
    row_column_grid 1 1 false G 3 = (G 3 + G 2) + (G 1 + G 0) := by
  have h0 := row_column_grid_cell 1 1 false G 0 0 (by norm_num) (by norm_num)
  have h1 := row_column_grid_cell 1 1 false G 0 1 (by norm_num) (by norm_num)
  have h2 := row_column_grid_cell 1 1 false G 1 0 (by norm_num) (by norm_num)
  have h3 := row_column_grid_cell 1 1 false G 1 1 (by norm_num) (by norm_num)
  simp only [pow_one, mul_zero, mul_one, zero_add, Nat.reduceAdd] at h0 h1 h2 h3
  rw [h0, h1, h2, h3]
  simp only [(final_seq_one false _).1, (final_seq_one false _).2, epilogue_scale_forward,
    mul_one, pow_one, mul_zero, zero_add, Nat.reduceAdd]
  exact ⟨trivial, trivial, trivial, trivial⟩

/-- The product of a coefficient along each axis is one exponential. -/
theorem dft_coeff_mul_two (W H a b c d : ℕ) :
    dft_coeff false W a b * dft_coeff false H c d
      = Complex.exp (-(2 * Real.pi * Complex.I) *
          (((a * b : ℕ) : ℂ) / ((W : ℕ) : ℂ) + ((c * d : ℕ) : ℂ) / ((H : ℕ) : ℂ))) := by
  unfold dft_coeff
  rw [← Complex.exp_add]
  congr 1
  simp only [Bool.false_eq_true, if_false]
  push_cast
  ring

/-- A cell of the forward rows-then-columns grid, as the double sum of the centred
two-dimensional DFT. -/
theorem row_column_grid_double_sum (lw lh : ℕ) (hlw : 1 ≤ lw) (hlh : 1 ≤ lh)
    (G : ℕ → cvec_t) (v u : ℕ) (hv : v < 2 ^ lh) (hu : u < 2 ^ lw) (c : Fin 4) :
    row_column_grid lw lh false G (2 ^ lw * v + u) c
      = ∑ y in range (2 ^ lh), ∑ x in range (2 ^ lw),
          G (2 ^ lw * y + x) c *
            Complex.exp (-(2 * Real.pi * Complex.I) *
              ((((u ^^^ 2 ^ (lw - 1)) * (x ^^^ 2 ^ (lw - 1)) : ℕ) : ℂ) / ((2 ^ lw : ℕ) : ℂ) +
                (((v ^^^ 2 ^ (lh - 1)) * (y ^^^ 2 ^ (lh - 1)) : ℕ) : ℂ) / ((2 ^ lh : ℕ) : ℂ))) := by
  rw [row_column_grid_dft lw lh hlw hlh false G v u hv hu c]
  rw [← sum_range_xor lh (2 ^ (lh - 1)) (half_lt lh hlh)
    (fun y => ∑ x in range (2 ^ lw),
          G (2 ^ lw * y + x) c *
            Complex.exp (-(2 * Real.pi * Complex.I) *
              ((((u ^^^ 2 ^ (lw - 1)) * (x ^^^ 2 ^ (lw - 1)) : ℕ) : ℂ) / ((2 ^ lw : ℕ) : ℂ) +
                (((v ^^^ 2 ^ (lh - 1)) * (y ^^^ 2 ^ (lh - 1)) : ℕ) : ℂ) / ((2 ^ lh : ℕ) : ℂ))))]
  unfold centred_dft dft_scale
  simp only [Bool.false_eq_true, if_false, one_mul, sum_mul]
  apply sum_congr rfl
  intro n _
  rw [← sum_range_xor lw (2 ^ (lw - 1)) (half_lt lw hlw)
    (fun x => G (2 ^ lw * (n ^^^ 2 ^ (lh - 1)) + x) c *
            Complex.exp (-(2 * Real.pi * Complex.I) *
              ((((u ^^^ 2 ^ (lw - 1)) * (x ^^^ 2 ^ (lw - 1)) : ℕ) : ℂ) / ((2 ^ lw : ℕ) : ℂ) +
                (((v ^^^ 2 ^ (lh - 1)) * (n ^^^ 2 ^ (lh - 1) ^^^ 2 ^ (lh - 1)) : ℕ) : ℂ) /
                  ((2 ^ lh : ℕ) : ℂ))))]
  apply sum_congr rfl
  intro m _
  simp only [Nat.xor_cancel_right]
  rw [mul_assoc, dft_coeff_mul_two]

/-! ## `out` after a phase -/

theorem fft1d_out_some (params : fft1d_params_t) (st : state_t) :
    ∃ r, (fft1d params st).out = some r := by
  rw [fft1d_unfold]
  exact ⟨_, rfl⟩

/-- A phase with at least one item leaves `out` set. -/
theorem phase_out_some (lw lh : ℕ) (pin pout : ptr_t) (vert : Bool) (L : ℕ) (inverse : Bool)
    (n : ℕ) (hn : 1 ≤ n) (st : state_t) :
    ∃ r, ((List.range n).foldl
        (fun s i => (phase_items lw lh pin pout vert L inverse i).fn
          (phase_items lw lh pin pout vert L inverse i).params s) st).out = some r := by
  obtain ⟨m, rfl⟩ : ∃ m, n = m + 1 := ⟨n - 1, by omega⟩
  rw [List.range_succ, List.foldl_append]
  simp only [List.foldl_cons, List.foldl_nil]
  exact fft1d_out_some _ _

/-- Past validation and allocation, `fft2d` returns `Success`, whatever the exponents. -/
theorem fft2d_success (data : ℕ → cvec_t) (lw lh threads : ℕ) (inverse : Bool)
    (buff : ℕ → cvec_t) (ht : threads ≠ 0) (hw : (1 <<< lw) % 2 ^ 32 ≠ 0)
    (hh : (1 <<< lh) % 2 ^ 32 ≠ 0) :
    ∃ g, fft2d data lw lh threads inverse (some buff) = some (return_code_t.Success, g) := by
  unfold fft2d
  simp only
  rw [if_neg ht, if_neg (by simp only [not_or]; exact ⟨hw, hh⟩)]
  simp only [run_threads_eq threads (by omega)]
  obtain ⟨r1, h1⟩ := phase_out_some lw lh ptr_t.data ptr_t.buff false lw inverse
    ((1 <<< lh) % 2 ^ 32) (by omega) { mem := heap_of data buff, out := none }
  rw [h1]
  simp only
  obtain ⟨r2, h2⟩ := phase_out_some lw lh r1
    (if r1 = ptr_t.buff then ptr_t.data else ptr_t.buff) true lh inverse
    ((1 <<< lw) % 2 ^ 32) (by omega)
    ((List.range ((1 <<< lh) % 2 ^ 32)).foldl
      (fun s i => (phase_items lw lh ptr_t.data ptr_t.buff false lw inverse i).fn
        (phase_items lw lh ptr_t.data ptr_t.buff false lw inverse i).params s)
      { mem := heap_of data buff, out := none })
  rw [h2]
  simp only
  split
  · exact ⟨_, rfl⟩
  · exact ⟨_, rfl⟩

/-! ## Which buffer each stage of `fft1d` uses -/

theorem butterfly_pass_ptrs (n : ℕ) (inverse : Bool) (l : fft1d_locals_t) (k : ℕ) :
    (butterfly_pass n inverse l k).buff_in = l.buff_out ∧
    (butterfly_pass n inverse l k).buff_out = l.buff_in ∧
    (butterfly_pass n inverse l k).slice_in.data = l.buff_out ∧
    (butterfly_pass n inverse l k).slice_out.data = l.buff_in :=
  ⟨rfl, rfl, rfl, rfl⟩

/-- On entry to turn `k` the input buffer is `buff_out` for even `k` and `buff_in` for odd
`k`, the output buffer the other one, and the slices point at them. -/
theorem locals_at_ptrs (params : fft1d_params_t) (st : state_t) (k : ℕ) :
    (locals_at params st k).buff_in
        = (if k % 2 = 0 then params.buff_out else params.buff_in) ∧
    (locals_at params st k).buff_out
        = (if k % 2 = 0 then params.buff_in else params.buff_out) ∧
    (locals_at params st k).slice_in.data = (locals_at params st k).buff_in ∧
    (locals_at params st k).slice_out.data = (locals_at params st k).buff_out := by
  induction k with
  | zero => exact ⟨rfl, rfl, rfl, rfl⟩
  | succ k ih =>
    obtain ⟨h1, h2, _, _⟩ := ih
    have e : locals_at params st (k + 1)
        = butterfly_pass ((1 <<< params.log_len) % 2 ^ 32) params.inverse
            (locals_at params st k) k := by
      unfold locals_at
      rw [List.range_succ, List.foldl_append]
      rfl
    rw [e]
    obtain ⟨b1, b2, b3, b4⟩ := butterfly_pass_ptrs ((1 <<< params.log_len) % 2 ^ 32)
      params.inverse (locals_at params st k) k
    rw [b1, b2, b3, b4, h1, h2]
    rcases Nat.mod_two_eq_zero_or_one k with h | h
    · have : (k + 1) % 2 = 1 := by omega
      simp [h, this]
    · have : (k + 1) % 2 = 0 := by omega
      simp [h, this]

theorem fft1d_out_locals (params : fft1d_params_t) (st : state_t) :
    (fft1d params st).out = some (locals_at params st params.log_len).buff_out := rfl

/-! ## The buffer `fft1d` does not report -/

/-- The last butterfly output depends on the first `2 ^ L` input samples only. -/
theorem stage_seq_last_congr (L : ℕ) (inverse : Bool) (x y : ℕ → cvec_t)
    (hL : 1 ≤ L) (h : ∀ t, t < 2 ^ L → x t = y t) (i : ℕ) (hi : i < 2 ^ L) :
    stage_seq L inverse x L i = stage_seq L inverse y L i := by
  have hx := stage_seq_eq L inverse x L le_rfl 0 i (by simp) hi
  have hy := stage_seq_eq L inverse y L le_rfl 0 i (by simp) hi
  simp only [zero_mul, zero_add] at hx hy
  rw [hx, hy]
  apply sum_congr rfl
  intro j hj
  simp only [Nat.sub_self, pow_zero, mul_one, bit_reverse_zero, add_zero]
  rw [h _ (xor_half_len_lt L j hL (mem_range.1 hj))]

/-- On the item's line, the buffer `fft1d` does not report holds the last butterfly
output. -/
theorem fft1d_other (params : fft1d_params_t) (st : state_t) (ok : params_ok params)
    (p : ptr_t) (hp : p ≠ result_ptr params) (j : ℕ) (hj : j < 2 ^ params.log_len) :
    (fft1d params st).mem p (slice_index params.slice_in j)
      = stage_seq params.log_len params.inverse (input_seq params st) params.log_len j := by
  have inv := stage_inv_loop params st ok params.log_len le_rfl
  have hbne := stage_inv_buff_ne params st ok _ _ inv
  have hres := result_ptr_eq params st ok
  rw [fft1d_unfold, length_eq params.log_len ok.le]
  simp only
  rw [fft_epilogue_eq]
  generalize (List.range params.log_len).foldl
      (butterfly_pass (2 ^ params.log_len) params.inverse) (after_prologue params st) = l
    at inv hbne hres
  have hdst : l.slice_out.data = l.buff_out := by rw [inv.slice_out_eq]
  have hpin : p = l.buff_in := by
    rw [← hres] at hp
    revert hp hbne
    cases p <;> cases l.buff_in <;> cases l.buff_out <;> simp
  rw [foldl_stage_other _ _ _ _ _ _ p (by rw [hdst, hpin]; exact hbne), hpin]
  exact inv.vals j hj

/-! ## The claims -/

/-- C1 (round trip). For a grid `G` of `2 ^ log_width` by `2 ^ log_height` samples with both
exponents at least 1 and their sum at most 31, at least one worker, and both scratch
allocations succeeding (whatever the fresh blocks hold): forward `fft2d` returns `Success`
and leaves some grid `F`, and inverse `fft2d` on `F` returns `Success` and leaves exactly `G`,
in every cell and every channel. -/
theorem fft2d_round_trip (G buff1 buff2 : ℕ → cvec_t) (log_width log_height threads : ℕ)
    (hw : 1 ≤ log_width) (hh : 1 ≤ log_height) (hsum : log_width + log_height ≤ 31)
    (ht : 1 ≤ threads) :
    ∃ F, fft2d G log_width log_height threads false (some buff1)
          = some (return_code_t.Success, F) ∧
      fft2d F log_width log_height threads true (some buff2)
          = some (return_code_t.Success, G) := by
  refine ⟨row_column_grid log_width log_height false G,
    fft2d_eq G log_width log_height threads false buff1 hw hh hsum ht, ?_⟩
  rw [fft2d_eq _ log_width log_height threads true buff2 hw hh hsum ht,
    row_column_grid_inverse log_width log_height hw hh G]

/-- C1 at a concrete input: the `2 × 2` delta grid, one worker, zeroed scratch blocks. -/
theorem fft2d_round_trip_witness :
    (1 ≤ 1 ∧ 1 ≤ 1 ∧ 1 + 1 ≤ 31 ∧ 1 ≤ 1) ∧
    ∃ F, fft2d delta_grid 1 1 1 false (some zero_buff) = some (return_code_t.Success, F) ∧
      fft2d F 1 1 1 true (some zero_buff) = some (return_code_t.Success, delta_grid) :=
  ⟨by decide,
    fft2d_round_trip delta_grid zero_buff zero_buff 1 1 1 (by decide) (by decide) (by decide)
      (by decide)⟩

/-- C2 as stated fails: on the `2 × 2` grid of ones (one worker, zeroed scratch) `fft2d`
returns `Success` and leaves `0` at cell `(0,0)`, channel 0, where the plain (un-centred) DFT
sum `Σ_{y<2} Σ_{x<2} in[y*2 + x] * exp(-2πi (u*x/2 + v*y/2))` at `u = v = 0` is `4`. -/
theorem fft2d_plain_dft_counterexample :
    ∃ F, fft2d ones_grid 1 1 1 false (some zero_buff) = some (return_code_t.Success, F) ∧
      F (0 * 2 ^ 1 + 0) 0 = 0 ∧
      ∑ y in range (2 ^ 1), ∑ x in range (2 ^ 1),
          ones_grid (y * 2 ^ 1 + x) 0 *
            Complex.exp (-(2 * Real.pi * Complex.I) *
              (((0 * x : ℕ) : ℂ) / ((2 ^ 1 : ℕ) : ℂ) + ((0 * y : ℕ) : ℂ) / ((2 ^ 1 : ℕ) : ℂ)))
        = 4 ∧
      F (0 * 2 ^ 1 + 0) 0 ≠
        ∑ y in range (2 ^ 1), ∑ x in range (2 ^ 1),
          ones_grid (y * 2 ^ 1 + x) 0 *
            Complex.exp (-(2 * Real.pi * Complex.I) *
              (((0 * x : ℕ) : ℂ) / ((2 ^ 1 : ℕ) : ℂ) +
                ((0 * y : ℕ) : ℂ) / ((2 ^ 1 : ℕ) : ℂ))) := by
  have hsum : ∑ y in range (2 ^ 1), ∑ x in range (2 ^ 1),
          ones_grid (y * 2 ^ 1 + x) 0 *
            Complex.exp (-(2 * Real.pi * Complex.I) *
              (((0 * x : ℕ) : ℂ) / ((2 ^ 1 : ℕ) : ℂ) + ((0 * y : ℕ) : ℂ) / ((2 ^ 1 : ℕ) : ℂ)))
        = 4 := by
    simp [ones_grid, sum_range_succ]
    norm_num
  have hF : row_column_grid 1 1 false ones_grid (0 * 2 ^ 1 + 0) 0 = 0 := by
    rw [show 0 * 2 ^ 1 + 0 = 0 by norm_num, (row_column_grid_two_by_two ones_grid).1]
    simp [ones_grid]
  refine ⟨_, fft2d_eq ones_grid 1 1 1 false zero_buff (by decide) (by decide) (by decide)
    (by decide), hF, hsum, ?_⟩
  rw [hF, hsum]
  norm_num

/-- C2, amended. Forward `fft2d` computes the centred two-dimensional DFT: on a grid with
both exponents at least 1 and their sum at most 31, with at least one worker and a
successful allocation, it returns `Success` and for every channel `c` and `u < W`, `v < H`
leaves `data[v*W + u].c = Σ_{y<H} Σ_{x<W} in[y*W + x].c *
exp(-2πi ((u ^ W/2)(x ^ W/2)/W + (v ^ H/2)(y ^ H/2)/H))`, where `^` is XOR: input and
output positions are both shifted by half the length along each axis. -/
theorem fft2d_forward_centred_dft (data buff : ℕ → cvec_t) (log_width log_height threads : ℕ)
    (hw : 1 ≤ log_width) (hh : 1 ≤ log_height) (hsum : log_width + log_height ≤ 31)
    (ht : 1 ≤ threads) :
    ∃ F, fft2d data log_width log_height threads false (some buff)
          = some (return_code_t.Success, F) ∧
      ∀ (c : Fin 4) (u v : ℕ), u < 2 ^ log_width → v < 2 ^ log_height →
        F (v * 2 ^ log_width + u) c
          = ∑ y in range (2 ^ log_height), ∑ x in range (2 ^ log_width),
              data (y * 2 ^ log_width + x) c *
                Complex.exp (-(2 * Real.pi * Complex.I) *
                  ((((u ^^^ 2 ^ (log_width - 1)) * (x ^^^ 2 ^ (log_width - 1)) : ℕ) : ℂ)
                      / ((2 ^ log_width : ℕ) : ℂ) +
                    (((v ^^^ 2 ^ (log_height - 1)) * (y ^^^ 2 ^ (log_height - 1)) : ℕ) : ℂ)
                      / ((2 ^ log_height : ℕ) : ℂ))) := by
  refine ⟨_, fft2d_eq data log_width log_height threads false buff hw hh hsum ht, ?_⟩
  intro c u v hu hv
  rw [Nat.mul_comm v, row_column_grid_double_sum log_width log_height hw hh data v u hv hu c]
  apply sum_congr rfl
  intro y _
  apply sum_congr rfl
  intro x _
  rw [Nat.mul_comm y]

/-- C2 (amended) at a concrete input: the `2 × 2` grid of ones. -/
theorem fft2d_forward_centred_dft_witness :
    (1 ≤ 1 ∧ 1 ≤ 1 ∧ 1 + 1 ≤ 31 ∧ 1 ≤ 1) ∧
    ∃ F, fft2d ones_grid 1 1 1 false (some zero_buff) = some (return_code_t.Success, F) ∧
      ∀ (c : Fin 4) (u v : ℕ), u < 2 ^ 1 → v < 2 ^ 1 →
        F (v * 2 ^ 1 + u) c
          = ∑ y in range (2 ^ 1), ∑ x in range (2 ^ 1),
              ones_grid (y * 2 ^ 1 + x) c *
                Complex.exp (-(2 * Real.pi * Complex.I) *
                  ((((u ^^^ 2 ^ (1 - 1)) * (x ^^^ 2 ^ (1 - 1)) : ℕ) : ℂ)
                      / ((2 ^ 1 : ℕ) : ℂ) +
                    (((v ^^^ 2 ^ (1 - 1)) * (y ^^^ 2 ^ (1 - 1)) : ℕ) : ℂ)
                      / ((2 ^ 1 : ℕ) : ℂ))) :=
  ⟨by decide,
    fft2d_forward_centred_dft ones_grid zero_buff 1 1 1 (by decide) (by decide) (by decide)
      (by decide)⟩

/-- C3 as stated fails: the forward transform of the `2 × 2` delta at cell `(0,0)` (one
worker, zeroed scratch) returns `Success` but does not leave four equal Lane Samples: cell
`(0,0)` holds `1` and cell `(0,1)` holds `-1`. -/
theorem delta_response_counterexample :
    ∃ F, fft2d delta_grid 1 1 1 false (some zero_buff) = some (return_code_t.Success, F) ∧
      F 0 = 1 ∧ F 1 = -1 ∧ F 0 ≠ F 1 := by
  obtain ⟨h0, h1, _, _⟩ := row_column_grid_two_by_two delta_grid
  have e0 : row_column_grid 1 1 false delta_grid 0 = 1 := by
    rw [h0]; simp [delta_grid]
  have e1 : row_column_grid 1 1 false delta_grid 1 = -1 := by
    rw [h1]; simp [delta_grid]
  refine ⟨_, fft2d_eq delta_grid 1 1 1 false zero_buff (by decide) (by decide) (by decide)
    (by decide), e0, e1, ?_⟩
  rw [e0, e1]
  intro h
  have := congrFun h 0
  norm_num at this

/-- C3, amended. For the `2 × 2` grid whose cell `(0,0)` is `1+0i` in all four channels and
whose other cells are zero, forward `fft2d` with any number of workers `≥ 1` returns
`Success` and leaves four Lane Samples that are equal up to sign: `1` at cells `(0,0)` and
`(1,1)`, `-1` at cells `(0,1)` and `(1,0)`, in every channel. -/
theorem delta_response (threads : ℕ) (buff : ℕ → cvec_t) (ht : 1 ≤ threads) :
    ∃ F, fft2d delta_grid 1 1 threads false (some buff) = some (return_code_t.Success, F) ∧
      F 0 = 1 ∧ F 1 = -1 ∧ F 2 = -1 ∧ F 3 = 1 := by
  refine ⟨_, fft2d_eq delta_grid 1 1 threads false buff (by decide) (by decide) (by decide)
    ht, ?_⟩
  obtain ⟨h0, h1, h2, h3⟩ := row_column_grid_two_by_two delta_grid
  rw [h0, h1, h2, h3]
  simp [delta_grid]

/-- C3 (amended) at a concrete input: eight workers, a zeroed scratch block. -/
theorem delta_response_witness :
    1 ≤ 8 ∧
    ∃ F, fft2d delta_grid 1 1 8 false (some zero_buff) = some (return_code_t.Success, F) ∧
      F 0 = 1 ∧ F 1 = -1 ∧ F 2 = -1 ∧ F 3 = 1 :=
  ⟨by decide, delta_response 8 zero_buff (by decide)⟩

/-- C4 (linearity). For grids `X`, `Y` of the same shape (both exponents at least 1, their
sum at most 31), complex scalars `a`, `b`, at least one worker and successful allocations,
`fft2d` of the cell-wise combination `a*X + b*Y` leaves `a*fft2d(X) + b*fft2d(Y)` in every
cell and channel; this holds for the forward and for the inverse direction. -/
theorem fft2d_linear (X Y bx by_ bz : ℕ → cvec_t) (a b : ℂ)
    (log_width log_height threads : ℕ) (inverse : Bool)
    (hw : 1 ≤ log_width) (hh : 1 ≤ log_height) (hsum : log_width + log_height ≤ 31)
    (ht : 1 ≤ threads) :
    ∃ FX FY F,
      fft2d X log_width log_height threads inverse (some bx)
          = some (return_code_t.Success, FX) ∧
      fft2d Y log_width log_height threads inverse (some by_)
          = some (return_code_t.Success, FY) ∧
      fft2d (fun i => a • X i + b • Y i) log_width log_height threads inverse (some bz)
          = some (return_code_t.Success, F) ∧
      ∀ i, F i = a • FX i + b • FY i :=
  ⟨_, _, _, fft2d_eq X log_width log_height threads inverse bx hw hh hsum ht,
    fft2d_eq Y log_width log_height threads inverse by_ hw hh hsum ht,
    fft2d_eq _ log_width log_height threads inverse bz hw hh hsum ht,
    row_column_grid_linear log_width log_height hw hh inverse a b X Y⟩

/-- C4 at a concrete input: the inverse direction on `2 × 2` grids, scalars `2` and `i`. -/
theorem fft2d_linear_witness :
    (1 ≤ 1 ∧ 1 ≤ 1 ∧ 1 + 1 ≤ 31 ∧ 1 ≤ 1) ∧
    ∃ FX FY F,
      fft2d delta_grid 1 1 1 true (some zero_buff) = some (return_code_t.Success, FX) ∧
      fft2d ones_grid 1 1 1 true (some zero_buff) = some (return_code_t.Success, FY) ∧
      fft2d (fun i => (2 : ℂ) • delta_grid i + Complex.I • ones_grid i) 1 1 1 true
          (some zero_buff) = some (return_code_t.Success, F) ∧
      ∀ i, F i = (2 : ℂ) • FX i + Complex.I • FY i :=
  ⟨by decide,
    fft2d_linear delta_grid ones_grid zero_buff zero_buff zero_buff 2 Complex.I 1 1 1 true
      (by decide) (by decide) (by decide) (by decide)⟩

/-- C5 (scale law). For a grid `G` with both exponents at least 1 and their sum at most 31,
at least one worker and a successful allocation, forward `fft2d` returns `Success` and
leaves a grid `F` with, in every channel, `Σ |F|² = c * Σ |G|²` over all cells, where the
constant `c = width * height` depends on nothing but the number of cells. -/
theorem fft2d_energy (G buff : ℕ → cvec_t) (log_width log_height threads : ℕ)
    (hw : 1 ≤ log_width) (hh : 1 ≤ log_height) (hsum : log_width + log_height ≤ 31)
    (ht : 1 ≤ threads) :
    ∃ F, fft2d G log_width log_height threads false (some buff)
          = some (return_code_t.Success, F) ∧
      ∀ c : Fin 4,
        ∑ i in range (2 ^ log_width * 2 ^ log_height), Complex.normSq (F i c)
          = ((2 ^ log_width * 2 ^ log_height : ℕ) : ℝ) *
              ∑ i in range (2 ^ log_width * 2 ^ log_height), Complex.normSq (G i c) :=
  ⟨_, fft2d_eq G log_width log_height threads false buff hw hh hsum ht,
    row_column_grid_energy log_width log_height hw hh G⟩

/-- C5 at a concrete input: the `2 × 2` delta grid, where the factor is `4`. -/
theorem fft2d_energy_witness :
    (1 ≤ 1 ∧ 1 ≤ 1 ∧ 1 + 1 ≤ 31 ∧ 1 ≤ 1) ∧
    ∃ F, fft2d delta_grid 1 1 1 false (some zero_buff) = some (return_code_t.Success, F) ∧
      ∀ c : Fin 4,
        ∑ i in range (2 ^ 1 * 2 ^ 1), Complex.normSq (F i c)
          = ((2 ^ 1 * 2 ^ 1 : ℕ) : ℝ) *
              ∑ i in range (2 ^ 1 * 2 ^ 1), Complex.normSq (delta_grid i c) :=
  ⟨by decide,
    fft2d_energy delta_grid zero_buff 1 1 1 (by decide) (by decide) (by decide) (by decide)⟩

/-- C7 (atomicity on failure). Whenever `fft2d` returns a code other than `Success`, the
caller's grid on exit is, in every cell, what it was on entry. -/
theorem fft2d_failure_leaves_grid (data : ℕ → cvec_t) (log_width log_height threads : ℕ)
    (inverse : Bool) (malloc : Option (ℕ → cvec_t)) (code : return_code_t)
    (g : ℕ → cvec_t)
    (h : fft2d data log_width log_height threads inverse malloc = some (code, g))
    (hc : code ≠ return_code_t.Success) : g = data := by
  by_cases ht : threads = 0
  · unfold fft2d at h
    simp only at h
    rw [if_pos ht] at h
    simp only [Option.some.injEq, Prod.mk.injEq] at h
    exact h.2.symm
  · by_cases hd : (1 <<< log_width) % 2 ^ 32 = 0 ∨ (1 <<< log_height) % 2 ^ 32 = 0
    · unfold fft2d at h
      simp only at h
      rw [if_neg ht, if_pos hd] at h
      simp only [Option.some.injEq, Prod.mk.injEq] at h
      exact h.2.symm
    · cases malloc with
      | none =>
        unfold fft2d at h
        simp only at h
        rw [if_neg ht, if_neg hd] at h
        simp only [Option.some.injEq, Prod.mk.injEq] at h
        exact h.2.symm
      | some buff =>
        rw [not_or] at hd
        obtain ⟨g', hg⟩ := fft2d_success data log_width log_height threads inverse buff ht
          hd.1 hd.2
        rw [hg] at h
        simp only [Option.some.injEq, Prod.mk.injEq] at h
        exact absurd h.1.symm hc

/-- C7 at concrete inputs: on the `2 × 2` delta grid, the call with `threads = 0` fails with
`Thread` and the call whose allocation fails fails with `Mem`; both leave the grid as it
was. -/
theorem fft2d_failure_leaves_grid_witness :
    (fft2d delta_grid 1 1 0 false (some zero_buff) = some (return_code_t.Thread, delta_grid) ∧
      return_code_t.Thread ≠ return_code_t.Success ∧ delta_grid = delta_grid) ∧
    (fft2d delta_grid 1 1 1 false none = some (return_code_t.Mem, delta_grid) ∧
      return_code_t.Mem ≠ return_code_t.Success ∧ delta_grid = delta_grid) :=
  ⟨⟨by simp [fft2d], by decide,
      fft2d_failure_leaves_grid delta_grid 1 1 0 false (some zero_buff) return_code_t.Thread
        delta_grid (by simp [fft2d]) (by decide)⟩,
    ⟨by simp [fft2d], by decide,
      fft2d_failure_leaves_grid delta_grid 1 1 1 false none return_code_t.Mem
        delta_grid (by simp [fft2d]) (by decide)⟩⟩

/-- C8 (row-column composition). For both exponents at least 1 with sum at most 31, at
least one worker, either direction and a successful allocation, `fft2d` returns `Success`
and the caller's grid then holds, at every cell `(y, x)`, the one-dimensional transform of
length `2 ^ log_height` of column `x` of the grid whose rows are the one-dimensional
transforms of length `2 ^ log_width` of the rows of the input; offsets past the grid are
untouched. This holds for every parity of the two exponents, that is, whichever buffer
each phase ends in. -/
theorem fft2d_row_column (data buff : ℕ → cvec_t) (log_width log_height threads : ℕ)
    (inverse : Bool) (hw : 1 ≤ log_width) (hh : 1 ≤ log_height)
    (hsum : log_width + log_height ≤ 31) (ht : 1 ≤ threads) :
    ∃ g, fft2d data log_width log_height threads inverse (some buff)
          = some (return_code_t.Success, g) ∧
      (∀ y x, y < 2 ^ log_height → x < 2 ^ log_width →
        g (2 ^ log_width * y + x)
          = fft1d_line log_height inverse
              (fun t => fft1d_line log_width inverse
                (fun t' => data (2 ^ log_width * t + t')) x) y) ∧
      (∀ i, 2 ^ log_width * 2 ^ log_height ≤ i → g i = data i) := by
  refine ⟨_, fft2d_eq data log_width log_height threads inverse buff hw hh hsum ht, ?_, ?_⟩
  · intro y x hy hx
    have hrow : (fun t => fft1d_line log_width inverse
          (fun t' => data (2 ^ log_width * t + t')) x)
        = fun t => final_seq log_width inverse (fun t' => data (2 ^ log_width * t + t')) x :=
      funext (fun t => fft1d_line_eq log_width hw (by omega) inverse _ x hx)
    rw [row_column_grid_cell log_width log_height inverse data y x hy hx,
      fft1d_line_eq log_height hh (by omega) inverse _ y hy, hrow]
  · intro i hi
    exact row_column_grid_outside log_width log_height inverse data i hi

/-- C8 at concrete inputs of both parities: `log_width = 1` (odd), `log_height = 2`
(even), the inverse direction. -/
theorem fft2d_row_column_witness :
    (1 ≤ 1 ∧ 1 ≤ 2 ∧ 1 + 2 ≤ 31 ∧ 1 ≤ 3) ∧
    ∃ g, fft2d delta_grid 1 2 3 true (some zero_buff) = some (return_code_t.Success, g) ∧
      (∀ y x, y < 2 ^ 2 → x < 2 ^ 1 →
        g (2 ^ 1 * y + x)
          = fft1d_line 2 true
              (fun t => fft1d_line 1 true (fun t' => delta_grid (2 ^ 1 * t + t')) x) y) ∧
      (∀ i, 2 ^ 1 * 2 ^ 2 ≤ i → g i = delta_grid i) :=
  ⟨by decide,
    fft2d_row_column delta_grid zero_buff 1 2 3 true (by decide) (by decide) (by decide)
      (by decide)⟩

/-- C9 (result-buffer parity). For a work item whose slices point at its two buffers,
`fft1d` runs `log_len + 2` stages; stage number `k` (from 0) reads `buff_in` and writes
`buff_out` when `k` is even and reads `buff_out` and writes `buff_in` when `k` is odd, so the
first stage writes `buff_out` and every later stage writes the buffer the stage before it
read. The buffer recorded in `out` is the one the last stage wrote: `buff_out` when
`log_len + 2` is odd and `buff_in` when it is even; and for a well-formed item that buffer
holds, on the item's line, the final sequence. -/
theorem fft1d_result_buffer_parity (params : fft1d_params_t) (st : state_t)
    (hin : params.slice_in.data = params.buff_in)
    (hout : params.slice_out.data = params.buff_out) :
    (stage_buffers params st).length = params.log_len + 2 ∧
    (∀ k, k < params.log_len + 2 →
      (stage_buffers params st)[k]?
        = some (if k % 2 = 0 then (params.buff_in, params.buff_out)
            else (params.buff_out, params.buff_in))) ∧
    (fft1d params st).out
        = some (if (params.log_len + 2) % 2 = 1 then params.buff_out else params.buff_in) ∧
    (params_ok params → ∀ j, j < 2 ^ params.log_len →
      (fft1d params st).mem
          (if (params.log_len + 2) % 2 = 1 then params.buff_out else params.buff_in)
          (slice_index params.slice_in j)
        = final_seq params.log_len params.inverse (input_seq params st) j) := by
  have hres : (if (params.log_len + 2) % 2 = 1 then params.buff_out else params.buff_in)
      = result_ptr params := by
    unfold result_ptr
    rcases Nat.mod_two_eq_zero_or_one params.log_len with h | h
    · have : (params.log_len + 2) % 2 = 0 := by omega
      simp [h, this]
    · have : (params.log_len + 2) % 2 = 1 := by omega
      simp [h, this]
  refine ⟨?_, ?_, ?_, ?_⟩
  · unfold stage_buffers
    simp
  · intro k hk
    unfold stage_buffers
    cases k with
    | zero => simp [hin, hout]
    | succ k =>
      rw [List.getElem?_cons_succ]
      obtain ⟨h1, h2, h3, h4⟩ := locals_at_ptrs params st k
      have hpar : (if (k + 1) % 2 = 0 then (params.buff_in, params.buff_out)
            else (params.buff_out, params.buff_in))
          = ((locals_at params st k).slice_in.data, (locals_at params st k).slice_out.data) := by
        rw [h3, h4, h1, h2]
        rcases Nat.mod_two_eq_zero_or_one k with h | h
        · have : (k + 1) % 2 = 1 := by omega
          simp [h, this]
        · have : (k + 1) % 2 = 0 := by omega
          simp [h, this]
      rw [hpar]
      by_cases hkl : k < params.log_len
      · rw [List.getElem?_append_left (by simpa using hkl)]
        simp [hkl]
      · have hkeq : k = params.log_len := by omega
        subst hkeq
        rw [List.getElem?_append_right (by simp)]
        simp
  · rw [fft1d_out_locals, (locals_at_ptrs params st params.log_len).2.1]
    rcases Nat.mod_two_eq_zero_or_one params.log_len with h | h
    · have : (params.log_len + 2) % 2 = 0 := by omega
      simp [h, this]
    · have : (params.log_len + 2) % 2 = 1 := by omega
      simp [h, this]
  · intro ok j hj
    rw [hres]
    exact fft1d_result params st ok j hj

/-- C9 at a concrete input: row 0 of a `2 × 2` grid (`log_len = 1`), where the three stages
end in `buff_out`. -/
theorem fft1d_result_buffer_parity_witness :
    ((phase_items 1 1 ptr_t.data ptr_t.buff false 1 false 0).params.slice_in.data
        = (phase_items 1 1 ptr_t.data ptr_t.buff false 1 false 0).params.buff_in ∧
      (phase_items 1 1 ptr_t.data ptr_t.buff false 1 false 0).params.slice_out.data
        = (phase_items 1 1 ptr_t.data ptr_t.buff false 1 false 0).params.buff_out) ∧
    (fft1d (phase_items 1 1 ptr_t.data ptr_t.buff false 1 false 0).params
        { mem := heap_of delta_grid zero_buff, out := none }).out = some ptr_t.buff :=
  ⟨⟨rfl, rfl⟩,
    (fft1d_result_buffer_parity
      (phase_items 1 1 ptr_t.data ptr_t.buff false 1 false 0).params
      { mem := heap_of delta_grid zero_buff, out := none } rfl rfl).2.2.1⟩

/-- On its line, what `fft1d` leaves in both buffers is a function of the input line. -/
theorem fft1d_reads_line (params : fft1d_params_t) (ok : params_ok params)
    (st st' : state_t)
    (h : ∀ t, t < 2 ^ params.log_len →
      sample st'.mem params.slice_in t = sample st.mem params.slice_in t)
    (p : ptr_t) (t : ℕ) (ht : t < 2 ^ params.log_len) :
    (fft1d params st').mem p (slice_index params.slice_in t)
      = (fft1d params st).mem p (slice_index params.slice_in t) := by
  by_cases hp : p = result_ptr params
  · rw [hp, fft1d_result params st' ok t ht, fft1d_result params st ok t ht]
    exact final_seq_congr params.log_len ok.one_le params.inverse _ _ h t ht
  · rw [fft1d_other params st' ok p hp t ht, fft1d_other params st ok p hp t ht]
    exact stage_seq_last_congr params.log_len params.inverse _ _ ok.one_le h t ht

/-- C10 (work items of one phase are data-disjoint). On a grid with both exponents at
least 1 and their sum at most 31, for the work item of row `r` (and likewise of column
`c`), with its input and output buffers distinct: `sample` and `write` address offset
`width*r + t` (resp. `width*t + c`) for local position `t`; every offset of either buffer
that is not `width*r + t` with `t < width` (resp. `width*t + c` with `t < height`) is left
unchanged by `fft1d`; what `fft1d` leaves on the line, in both buffers, is determined by the
line of the input buffer alone; and the lines of two different rows (resp. columns) share
no offset. -/
theorem work_items_data_disjoint (log_width log_height : ℕ) (pin pout : ptr_t)
    (inverse : Bool) (hw : 1 ≤ log_width) (hh : 1 ≤ log_height)
    (hsum : log_width + log_height ≤ 31) (hne : pin ≠ pout) :
    (∀ r, r < 2 ^ log_height → ∀ st : state_t,
      (∀ t, t < 2 ^ log_width →
        slice_index (phase_items log_width log_height pin pout false log_width inverse r).params.slice_in t
            = 2 ^ log_width * r + t ∧
        slice_index (phase_items log_width log_height pin pout false log_width inverse r).params.slice_out t
            = 2 ^ log_width * r + t) ∧
      (∀ p j, (∀ t, t < 2 ^ log_width → j ≠ 2 ^ log_width * r + t) →
        (fft1d (phase_items log_width log_height pin pout false log_width inverse r).params
          st).mem p j = st.mem p j) ∧
      (∀ st' : state_t,
        (∀ t, t < 2 ^ log_width →
          st'.mem pin (2 ^ log_width * r + t) = st.mem pin (2 ^ log_width * r + t)) →
        ∀ p t, t < 2 ^ log_width →
          (fft1d (phase_items log_width log_height pin pout false log_width inverse r).params
              st').mem p (2 ^ log_width * r + t)
            = (fft1d (phase_items log_width log_height pin pout false log_width inverse
                r).params st).mem p (2 ^ log_width * r + t))) ∧
    (∀ c, c < 2 ^ log_width → ∀ st : state_t,
      (∀ t, t < 2 ^ log_height →
        slice_index (phase_items log_width log_height pin pout true log_height inverse c).params.slice_in t
            = 2 ^ log_width * t + c ∧
        slice_index (phase_items log_width log_height pin pout true log_height inverse c).params.slice_out t
            = 2 ^ log_width * t + c) ∧
      (∀ p j, (∀ t, t < 2 ^ log_height → j ≠ 2 ^ log_width * t + c) →
        (fft1d (phase_items log_width log_height pin pout true log_height inverse c).params
          st).mem p j = st.mem p j) ∧
      (∀ st' : state_t,
        (∀ t, t < 2 ^ log_height →
          st'.mem pin (2 ^ log_width * t + c) = st.mem pin (2 ^ log_width * t + c)) →
        ∀ p t, t < 2 ^ log_height →
          (fft1d (phase_items log_width log_height pin pout true log_height inverse c).params
              st').mem p (2 ^ log_width * t + c)
            = (fft1d (phase_items log_width log_height pin pout true log_height inverse
                c).params st).mem p (2 ^ log_width * t + c))) ∧
    (∀ r r' t t', r ≠ r' → t < 2 ^ log_width → t' < 2 ^ log_width →
      2 ^ log_width * r + t ≠ 2 ^ log_width * r' + t') ∧
    (∀ c c' t t', c ≠ c' → c < 2 ^ log_width → c' < 2 ^ log_width →
      2 ^ log_width * t + c ≠ 2 ^ log_width * t' + c') := by
  refine ⟨?_, ?_, ?_, ?_⟩
  · intro r hr st
    have ok := row_ok log_width log_height hw hsum pin pout hne inverse r hr
    have hidx := fun t ht =>
      row_index log_width log_height hsum pin pout log_width inverse r t hr ht
    refine ⟨fun t ht => ⟨hidx t ht, hidx t ht⟩, ?_, ?_⟩
    · intro p j hj
      apply fft1d_frame _ st ok
      intro t ht
      rw [hidx t ht]
      exact fun h => hj t ht h.symm
    · intro st' hst p t ht
      have := fft1d_reads_line _ ok st st' (fun t' ht' => by
        show st'.mem pin _ = st.mem pin _
        rw [hidx t' ht']
        exact hst t' ht') p t ht
      rw [hidx t ht] at this
      exact this
  · intro c hc st
    have ok := col_ok log_width log_height hh hsum pin pout hne inverse c hc
    have hidx := fun t ht =>
      col_index log_width log_height hsum pin pout log_height inverse c t hc ht
    refine ⟨fun t ht => ⟨hidx t ht, hidx t ht⟩, ?_, ?_⟩
    · intro p j hj
      apply fft1d_frame _ st ok
      intro t ht
      rw [hidx t ht]
      exact fun h => hj t ht h.symm
    · intro st' hst p t ht
      have := fft1d_reads_line _ ok st st' (fun t' ht' => by
        show st'.mem pin _ = st.mem pin _
        rw [hidx t' ht']
        exact hst t' ht') p t ht
      rw [hidx t ht] at this
      exact this
  · intro r r' t t' hrr ht ht'
    exact row_disjoint _ _ _ _ _ hrr ht ht'
  · intro c c' t t' hcc hc hc'
    exact col_disjoint _ _ _ _ _ hcc hc hc'

/-- C10 at a concrete input: on a `2 × 4` grid (`log_width = 1`, `log_height = 2`) the
lines of rows 0 and 3 share no offset. -/
theorem work_items_data_disjoint_witness :
    (1 ≤ 1 ∧ 1 ≤ 2 ∧ 1 + 2 ≤ 31 ∧ ptr_t.data ≠ ptr_t.buff) ∧
    (∀ r r' t t', r ≠ r' → t < 2 ^ 1 → t' < 2 ^ 1 → 2 ^ 1 * r + t ≠ 2 ^ 1 * r' + t') :=
  ⟨by decide,
    (work_items_data_disjoint 1 2 ptr_t.data ptr_t.buff false (by decide) (by decide)
      (by decide) (by decide)).2.2.1⟩

/-! ## `bit_reverse`, bit by bit -/

theorem bit_reverse_testBit (d n : ℕ) :
    ∀ j, j < n → (bit_reverse d n).testBit j = d.testBit (n - 1 - j) := by
  induction n with
  | zero => intro j hj; omega
  | succ n ih =>
    intro j hj
    rw [bit_reverse_succ]
    cases j with
    | zero =>
      rw [Nat.testBit_zero]
      simp only [Nat.add_sub_cancel, Nat.sub_zero]
      by_cases h : d.testBit n = true
      · rw [if_pos h, h]
        have : (2 * bit_reverse d n + 1) % 2 = 1 := by omega
        simp [this]
      · rw [if_neg h]
        have hf : d.testBit n = false := by simpa using h
        rw [hf]
        have : (2 * bit_reverse d n + 0) % 2 = 0 := by omega
        simp [this]
    | succ j =>
      rw [Nat.testBit_succ]
      have e : (2 * bit_reverse d n + if d.testBit n = true then 1 else 0) / 2
          = bit_reverse d n := by
        split <;> omega
      rw [e, ih j (by omega)]
      congr 1
      omega

/-- Reversing twice gives the value back. -/
theorem bit_reverse_involutive (n i : ℕ) (hi : i < 2 ^ n) :
    bit_reverse (bit_reverse i n) n = i := by
  apply Nat.eq_of_testBit_eq
  intro j
  by_cases hj : j < n
  · rw [bit_reverse_testBit _ n j hj, bit_reverse_testBit _ n (n - 1 - j) (by omega)]
    congr 1
    omega
  · have hle : 2 ^ n ≤ 2 ^ j := Nat.pow_le_pow_right (by norm_num) (by omega)
    rw [Nat.testBit_lt_two_pow (lt_of_lt_of_le (bit_reverse_lt _ n) hle),
      Nat.testBit_lt_two_pow (lt_of_lt_of_le hi hle)]

theorem two_pow_div_two (L : ℕ) (hL : 1 ≤ L) : 2 ^ L / 2 = 2 ^ (L - 1) := by
  obtain ⟨m, rfl⟩ : ∃ m, L = m + 1 := ⟨L - 1, by omega⟩
  rw [pow_succ, Nat.add_sub_cancel]
  omega

theorem half_len_eq_div (L : ℕ) (hL : 1 ≤ L) : half_len L = 2 ^ L / 2 := by
  rw [half_len_eq L hL, two_pow_div_two L hL]

/-- C13 (`bit_reverse` reverses the low bits). For `bitWidth` from 0 to 30 and
`0 ≤ value < 2 ^ bitWidth`, the result `r = bit_reverse(value, bitWidth)` satisfies
`r < 2 ^ bitWidth`, and for every `j < bitWidth` bit `j` of `r` is bit
`bitWidth - 1 - j` of `value`. -/
theorem bit_reverse_reverses (value bitWidth : ℕ) (hb : bitWidth ≤ 30)
    (hv : value < 2 ^ bitWidth) :
    bit_reverse value bitWidth < 2 ^ bitWidth ∧
    ∀ j, j < bitWidth →
      (bit_reverse value bitWidth).testBit j = value.testBit (bitWidth - 1 - j) :=
  ⟨bit_reverse_lt value bitWidth, bit_reverse_testBit value bitWidth⟩

/-- C13 at a concrete input: the three low bits of `6 = 110b` reversed are `3 = 011b`. -/
theorem bit_reverse_reverses_witness :
    (3 ≤ 30 ∧ 6 < 2 ^ 3) ∧ bit_reverse 6 3 = 3 ∧
    (bit_reverse 6 3 < 2 ^ 3 ∧
      ∀ j, j < 3 → (bit_reverse 6 3).testBit j = Nat.testBit 6 (3 - 1 - j)) :=
  ⟨by decide, by decide, bit_reverse_reverses 6 3 (by decide) (by decide)⟩

/-! ## The three stages, as the loops of `fft1d` run them -/

/-- The permutation of the prologue maps `[0, 2 ^ L)` onto itself, one to one. -/
theorem prologue_index_bijective (L : ℕ) (hL : 1 ≤ L) :
    (∀ i, i < 2 ^ L → bit_reverse i L ^^^ 2 ^ L / 2 < 2 ^ L) ∧
    (∀ i i', i < 2 ^ L → i' < 2 ^ L →
      bit_reverse i L ^^^ 2 ^ L / 2 = bit_reverse i' L ^^^ 2 ^ L / 2 → i = i') ∧
    (∀ j, j < 2 ^ L → ∃ i, i < 2 ^ L ∧ bit_reverse i L ^^^ 2 ^ L / 2 = j) := by
  have hh : 2 ^ L / 2 < 2 ^ L := by rw [two_pow_div_two L hL]; exact half_lt L hL
  refine ⟨fun i _ => Nat.xor_lt_two_pow (bit_reverse_lt i L) hh, ?_, ?_⟩
  · intro i i' hi hi' h
    have h1 := congrArg (fun z => z ^^^ 2 ^ L / 2) h
    simp only [Nat.xor_cancel_right] at h1
    have h2 := congrArg (fun z => bit_reverse z L) h1
    simp only [bit_reverse_involutive L i hi, bit_reverse_involutive L i' hi'] at h2
    exact h2
  · intro j hj
    have hj' : j ^^^ 2 ^ L / 2 < 2 ^ L := Nat.xor_lt_two_pow hj hh
    refine ⟨bit_reverse (j ^^^ 2 ^ L / 2) L, bit_reverse_lt _ L, ?_⟩
    rw [bit_reverse_involutive L _ hj', Nat.xor_cancel_right]

/-- C17 (permutation stage). For `logLen ≥ 1` and `N = 2 ^ logLen`, with the source and
destination slices in different buffers and the destination offsets of the `N` positions
distinct: after the loop over `fft_prologue` every position `i < N` of the destination
holds `input[bit_reverse(i, logLen) XOR N/2]`, and `i ↦ bit_reverse(i, logLen) XOR N/2`
maps `[0, N)` into itself, one to one and onto, so the stage output is a rearrangement of
the input slice. -/
theorem fft_prologue_stage (src dst : slice_t) (log_len : ℕ) (mem : heap_t)
    (hL : 1 ≤ log_len) (hL' : log_len ≤ 31) (hne : src.data ≠ dst.data)
    (hinj : ∀ t t', t < 2 ^ log_len → t' < 2 ^ log_len →
      slice_index dst t = slice_index dst t' → t = t') :
    (∀ i, i < 2 ^ log_len →
      sample ((List.range ((1 <<< log_len) % 2 ^ 32)).foldl
          (fun mem i => fft_prologue i src dst log_len mem) mem) dst i
        = sample mem src (bit_reverse i log_len ^^^ 2 ^ log_len / 2)) ∧
    (∀ i, i < 2 ^ log_len → bit_reverse i log_len ^^^ 2 ^ log_len / 2 < 2 ^ log_len) ∧
    (∀ i i', i < 2 ^ log_len → i' < 2 ^ log_len →
      bit_reverse i log_len ^^^ 2 ^ log_len / 2 = bit_reverse i' log_len ^^^ 2 ^ log_len / 2 →
        i = i') ∧
    (∀ j, j < 2 ^ log_len →
      ∃ i, i < 2 ^ log_len ∧ bit_reverse i log_len ^^^ 2 ^ log_len / 2 = j) := by
  refine ⟨?_, prologue_index_bijective log_len hL⟩
  intro i hi
  rw [fft_prologue_eq, length_eq log_len hL']
  refine (foldl_stage_at (2 ^ log_len) src dst (fun i => i) (prologue_val log_len) mem hne
    i hi (fun i' hi' h => hinj i' i hi' hi h)).trans ?_
  unfold prologue_val
  rw [half_len_eq_div log_len hL]

/-- C17 at a concrete input: row 0 of the `2 × 2` delta grid, from `data` into `buff`. -/
theorem fft_prologue_stage_witness :
    (1 ≤ 1 ∧ 1 ≤ 31 ∧ ptr_t.data ≠ ptr_t.buff) ∧
    ∀ i, i < 2 ^ 1 →
      sample ((List.range ((1 <<< 1) % 2 ^ 32)).foldl
          (fun mem i => fft_prologue i
            (phase_items 1 1 ptr_t.data ptr_t.buff false 1 false 0).params.slice_in
            (phase_items 1 1 ptr_t.data ptr_t.buff false 1 false 0).params.slice_out 1 mem)
          (heap_of delta_grid zero_buff))
          (phase_items 1 1 ptr_t.data ptr_t.buff false 1 false 0).params.slice_out i
        = sample (heap_of delta_grid zero_buff)
            (phase_items 1 1 ptr_t.data ptr_t.buff false 1 false 0).params.slice_in
            (bit_reverse i 1 ^^^ 2 ^ 1 / 2) :=
  ⟨by decide,
    (fft_prologue_stage
      (phase_items 1 1 ptr_t.data ptr_t.buff false 1 false 0).params.slice_in
      (phase_items 1 1 ptr_t.data ptr_t.buff false 1 false 0).params.slice_out 1
      (heap_of delta_grid zero_buff) (by decide) (by decide) (by decide)
      (row_ok 1 1 (by decide) (by decide) ptr_t.data ptr_t.buff (by decide) false 0
        (by decide)).inj).1⟩

/-- C16 (finalization stage). For `logLen ≥ 1` and `N = 2 ^ logLen`, with the source and
destination slices in different buffers and the destination offsets of the `N` positions
distinct: the loop over `fft_epilogue` writes every position `j < N` of the destination
exactly once (from the one `index < N` with `index XOR N/2 = j`), and afterwards position
`j` holds `input[N - 1 - (j XOR N/2)]`, in every channel multiplied by `1/N` when the
direction is inverse and unscaled when it is forward. -/
theorem fft_epilogue_stage (src dst : slice_t) (log_len : ℕ) (inverse : Bool) (mem : heap_t)
    (hL : 1 ≤ log_len) (hL' : log_len ≤ 31) (hne : src.data ≠ dst.data)
    (hinj : ∀ t t', t < 2 ^ log_len → t' < 2 ^ log_len →
      slice_index dst t = slice_index dst t' → t = t') :
    ∀ j, j < 2 ^ log_len →
      (∃ index, (index < 2 ^ log_len ∧ index ^^^ 2 ^ log_len / 2 = j) ∧
        ∀ index', index' < 2 ^ log_len ∧ index' ^^^ 2 ^ log_len / 2 = j → index' = index) ∧
      ∀ c : Fin 4,
        sample ((List.range ((1 <<< log_len) % 2 ^ 32)).foldl
            (fun mem i => fft_epilogue i src dst log_len inverse mem) mem) dst j c
          = if inverse = true then
              sample mem src (2 ^ log_len - 1 - (j ^^^ 2 ^ log_len / 2)) c
                * (1 / (2 ^ log_len : ℂ))
            else sample mem src (2 ^ log_len - 1 - (j ^^^ 2 ^ log_len / 2)) c := by
  intro j hj
  have hdiv := half_len_eq_div log_len hL
  have hi : j ^^^ 2 ^ log_len / 2 < 2 ^ log_len := by
    rw [← hdiv]; exact xor_half_len_lt log_len j hL hj
  refine ⟨⟨j ^^^ 2 ^ log_len / 2, ⟨hi, Nat.xor_cancel_right _ _⟩, ?_⟩, ?_⟩
  · rintro i' ⟨_, h⟩
    rw [← h, Nat.xor_cancel_right]
  · intro c
    rw [fft_epilogue_eq, length_eq log_len hL']
    have key := foldl_stage_at (2 ^ log_len) src dst (fun i => i ^^^ half_len log_len)
      (epilogue_val log_len inverse) mem hne (j ^^^ half_len log_len)
      (xor_half_len_lt log_len j hL hj)
      (fun i' hi' h => by
        have := hinj _ _ (xor_half_len_lt log_len i' hL hi')
          (xor_half_len_lt log_len _ hL (xor_half_len_lt log_len j hL hj)) h
        have h2 := congrArg (fun z => z ^^^ half_len log_len) this
        simpa [Nat.xor_cancel_right] using h2)
    simp only [Nat.xor_cancel_right] at key
    have e : 2 ^ log_len - (j ^^^ 2 ^ log_len / 2) - 1
        = 2 ^ log_len - 1 - (j ^^^ 2 ^ log_len / 2) := by omega
    refine (congrFun key c).trans ?_
    rw [epilogue_val_eq, hdiv, Pi.mul_apply, epilogue_scale_apply, e]
    unfold dft_scale
    cases inverse
    · simp
    · simp

/-- C16 at a concrete input: row 0 of the `2 × 2` delta grid, inverse direction. -/
theorem fft_epilogue_stage_witness :
    (1 ≤ 1 ∧ 1 ≤ 31 ∧ ptr_t.data ≠ ptr_t.buff) ∧
    ∀ c : Fin 4,
      sample ((List.range ((1 <<< 1) % 2 ^ 32)).foldl
          (fun mem i => fft_epilogue i
            (phase_items 1 1 ptr_t.data ptr_t.buff false 1 true 0).params.slice_in
            (phase_items 1 1 ptr_t.data ptr_t.buff false 1 true 0).params.slice_out 1 true
            mem)
          (heap_of delta_grid zero_buff))
          (phase_items 1 1 ptr_t.data ptr_t.buff false 1 true 0).params.slice_out 0 c
        = if true = true then
            sample (heap_of delta_grid zero_buff)
              (phase_items 1 1 ptr_t.data ptr_t.buff false 1 true 0).params.slice_in
              (2 ^ 1 - 1 - (0 ^^^ 2 ^ 1 / 2)) c * (1 / (2 ^ 1 : ℂ))
          else sample (heap_of delta_grid zero_buff)
              (phase_items 1 1 ptr_t.data ptr_t.buff false 1 true 0).params.slice_in
              (2 ^ 1 - 1 - (0 ^^^ 2 ^ 1 / 2)) c :=
  ⟨by decide,
    (fft_epilogue_stage
      (phase_items 1 1 ptr_t.data ptr_t.buff false 1 true 0).params.slice_in
      (phase_items 1 1 ptr_t.data ptr_t.buff false 1 true 0).params.slice_out 1 true
      (heap_of delta_grid zero_buff) (by decide) (by decide) (by decide)
      (row_ok 1 1 (by decide) (by decide) ptr_t.data ptr_t.buff (by decide) true 0
        (by decide)).inj 0 (by decide)).2⟩

theorem get_w_cos_sin (angle : ℝ) (c : Fin 4) :
    get_w angle c = (Real.cos angle : ℂ) + (Real.sin angle : ℂ) * Complex.I := by
  unfold get_w
  fin_cases c <;> rfl

/-- The value `fft_iteration` writes, channel by channel. -/
theorem iteration_val_apply (k : ℕ) (inverse : Bool) (x : ℕ → cvec_t) (i : ℕ) (c : Fin 4) :
    iteration_val k inverse x i c =
      if i.testBit k = true then
        x (i ^^^ 2 ^ k) c - x i c *
          ((Real.cos ((((i &&& (2 ^ k - 1)) + 1 : ℕ) : ℝ) *
              (if inverse = true then -((2 * Real.pi) / (2 ^ (k + 1) : ℝ))
                else (2 * Real.pi) / (2 ^ (k + 1) : ℝ))) : ℂ) +
            (Real.sin ((((i &&& (2 ^ k - 1)) + 1 : ℕ) : ℝ) *
              (if inverse = true then -((2 * Real.pi) / (2 ^ (k + 1) : ℝ))
                else (2 * Real.pi) / (2 ^ (k + 1) : ℝ))) : ℂ) * Complex.I)
      else
        x (i ^^^ 2 ^ k) c *
          ((Real.cos ((((i &&& (2 ^ k - 1)) + 1 : ℕ) : ℝ) *
              (if inverse = true then -((2 * Real.pi) / (2 ^ (k + 1) : ℝ))
                else (2 * Real.pi) / (2 ^ (k + 1) : ℝ))) : ℂ) +
            (Real.sin ((((i &&& (2 ^ k - 1)) + 1 : ℕ) : ℝ) *
              (if inverse = true then -((2 * Real.pi) / (2 ^ (k + 1) : ℝ))
                else (2 * Real.pi) / (2 ^ (k + 1) : ℝ))) : ℂ) * Complex.I) + x i c := by
  unfold iteration_val
  simp only [add_eq, sub_eq, mul_eq, Nat.one_shiftLeft, Nat.cast_pow, Nat.cast_ofNat]
  by_cases h : i.testBit k = true
  · have h2 := (and_two_pow_ne_zero_iff i k).2 h
    simp only [h2, h, ne_eq, not_false_eq_true, if_true, decide_True, decide_not,
      Pi.sub_apply, Pi.mul_apply, get_w_cos_sin]
  · have h2 : ¬ (i &&& 2 ^ k ≠ 0) := fun hc => h ((and_two_pow_ne_zero_iff i k).1 hc)
    have h3 : i &&& 2 ^ k = 0 := by simpa using h2
    simp only [h3, h, ne_eq, not_true_eq_false, if_false, decide_False]
    simp only [Bool.false_eq_true, if_false, Pi.add_apply, Pi.mul_apply, get_w_cos_sin]

/-- What the loop of one butterfly stage leaves at position `i` of the destination. -/
theorem iteration_stage_value (src dst : slice_t) (log_len k : ℕ) (inverse : Bool)
    (mem : heap_t) (hL' : log_len ≤ 31) (hne : src.data ≠ dst.data)
    (hinj : ∀ t t', t < 2 ^ log_len → t' < 2 ^ log_len →
      slice_index dst t = slice_index dst t' → t = t') (i : ℕ) (hi : i < 2 ^ log_len) :
    sample ((List.range ((1 <<< log_len) % 2 ^ 32)).foldl
        (fun mem i => fft_iteration i src dst k inverse mem) mem) dst i
      = iteration_val k inverse (sample mem src) i := by
  rw [fft_iteration_eq, length_eq log_len hL']
  exact foldl_stage_at (2 ^ log_len) src dst (fun i => i)
    (iteration_val k inverse) mem hne i hi (fun i' hi' h => hinj i' i hi' hi h)

/-- C15, amended (butterfly stage). For `0 ≤ k < logLen ≤ 31` and `N = 2 ^ logLen`, with the
source and destination slices in different buffers and the destination offsets of the `N`
positions distinct: after the loop over `fft_iteration` of stage `k`, for every position
`i < N`, with `p = i AND (2^k - 1)`, `theta = +2π/2^(k+1)` for forward and `-2π/2^(k+1)` for
inverse, and `w = cos((p+1)*theta) + i*sin((p+1)*theta)`: if bit `k` of `i` is set the output
at `i` is `input[i XOR 2^k]` minus (`input[i]` multiplied by `w`); if bit `k` of `i` is clear
it is (`input[i XOR 2^k]` multiplied by `w`) plus `input[i]`; in every channel. -/
theorem fft_iteration_stage (src dst : slice_t) (log_len k : ℕ) (inverse : Bool)
    (mem : heap_t) (hk : k < log_len) (hL' : log_len ≤ 31) (hne : src.data ≠ dst.data)
    (hinj : ∀ t t', t < 2 ^ log_len → t' < 2 ^ log_len →
      slice_index dst t = slice_index dst t' → t = t') :
    ∀ i, i < 2 ^ log_len → ∀ c : Fin 4,
      sample ((List.range ((1 <<< log_len) % 2 ^ 32)).foldl
          (fun mem i => fft_iteration i src dst k inverse mem) mem) dst i c
        = if i.testBit k = true then
            sample mem src (i ^^^ 2 ^ k) c - sample mem src i c *
              ((Real.cos ((((i &&& (2 ^ k - 1)) + 1 : ℕ) : ℝ) *
                  (if inverse = true then -((2 * Real.pi) / (2 ^ (k + 1) : ℝ))
                    else (2 * Real.pi) / (2 ^ (k + 1) : ℝ))) : ℂ) +
                (Real.sin ((((i &&& (2 ^ k - 1)) + 1 : ℕ) : ℝ) *
                  (if inverse = true then -((2 * Real.pi) / (2 ^ (k + 1) : ℝ))
                    else (2 * Real.pi) / (2 ^ (k + 1) : ℝ))) : ℂ) * Complex.I)
          else
            sample mem src (i ^^^ 2 ^ k) c *
              ((Real.cos ((((i &&& (2 ^ k - 1)) + 1 : ℕ) : ℝ) *
                  (if inverse = true then -((2 * Real.pi) / (2 ^ (k + 1) : ℝ))
                    else (2 * Real.pi) / (2 ^ (k + 1) : ℝ))) : ℂ) +
                (Real.sin ((((i &&& (2 ^ k - 1)) + 1 : ℕ) : ℝ) *
                  (if inverse = true then -((2 * Real.pi) / (2 ^ (k + 1) : ℝ))
                    else (2 * Real.pi) / (2 ^ (k + 1) : ℝ))) : ℂ) * Complex.I)
              + sample mem src i c := by
  intro i hi c
  rw [iteration_stage_value src dst log_len k inverse mem hL' hne hinj i hi]
  exact iteration_val_apply k inverse (sample mem src) i c

/-- C15 (amended) at a concrete input: stage 0 on row 0 of the `2 × 2` delta grid, from
`data` into `buff`, forward; position 1 has bit 0 set. -/
theorem fft_iteration_stage_witness :
    (0 < 1 ∧ 1 ≤ 31 ∧ ptr_t.data ≠ ptr_t.buff ∧ 1 < 2 ^ 1) ∧
    sample ((List.range ((1 <<< 1) % 2 ^ 32)).foldl
        (fun mem i => fft_iteration i
          (phase_items 1 1 ptr_t.data ptr_t.buff false 1 false 0).params.slice_in
          (phase_items 1 1 ptr_t.data ptr_t.buff false 1 false 0).params.slice_out 0 false
          mem)
        (heap_of delta_grid zero_buff))
        (phase_items 1 1 ptr_t.data ptr_t.buff false 1 false 0).params.slice_out 1 0
      = if Nat.testBit 1 0 = true then
          sample (heap_of delta_grid zero_buff)
              (phase_items 1 1 ptr_t.data ptr_t.buff false 1 false 0).params.slice_in
              (1 ^^^ 2 ^ 0) 0
            - sample (heap_of delta_grid zero_buff)
                (phase_items 1 1 ptr_t.data ptr_t.buff false 1 false 0).params.slice_in 1 0 *
              ((Real.cos ((((1 &&& (2 ^ 0 - 1)) + 1 : ℕ) : ℝ) *
                  (if false = true then -((2 * Real.pi) / (2 ^ (0 + 1) : ℝ))
                    else (2 * Real.pi) / (2 ^ (0 + 1) : ℝ))) : ℂ) +
                (Real.sin ((((1 &&& (2 ^ 0 - 1)) + 1 : ℕ) : ℝ) *
                  (if false = true then -((2 * Real.pi) / (2 ^ (0 + 1) : ℝ))
                    else (2 * Real.pi) / (2 ^ (0 + 1) : ℝ))) : ℂ) * Complex.I)
        else
          sample (heap_of delta_grid zero_buff)
              (phase_items 1 1 ptr_t.data ptr_t.buff false 1 false 0).params.slice_in
              (1 ^^^ 2 ^ 0) 0 *
              ((Real.cos ((((1 &&& (2 ^ 0 - 1)) + 1 : ℕ) : ℝ) *
                  (if false = true then -((2 * Real.pi) / (2 ^ (0 + 1) : ℝ))
                    else (2 * Real.pi) / (2 ^ (0 + 1) : ℝ))) : ℂ) +
                (Real.sin ((((1 &&& (2 ^ 0 - 1)) + 1 : ℕ) : ℝ) *
                  (if false = true then -((2 * Real.pi) / (2 ^ (0 + 1) : ℝ))
                    else (2 * Real.pi) / (2 ^ (0 + 1) : ℝ))) : ℂ) * Complex.I)
            + sample (heap_of delta_grid zero_buff)
                (phase_items 1 1 ptr_t.data ptr_t.buff false 1 false 0).params.slice_in 1 0 :=
  ⟨by decide,
    fft_iteration_stage
      (phase_items 1 1 ptr_t.data ptr_t.buff false 1 false 0).params.slice_in
      (phase_items 1 1 ptr_t.data ptr_t.buff false 1 false 0).params.slice_out 1 0 false
      (heap_of delta_grid zero_buff) (by decide) (by decide) (by decide)
      (row_ok 1 1 (by decide) (by decide) ptr_t.data ptr_t.buff (by decide) false 0
        (by decide)).inj 1 (by decide) 0⟩

/-- The samples of row 0 of the `2 × 2` delta grid. -/
theorem delta_row_samples :
    sample (heap_of delta_grid zero_buff)
        (phase_items 1 1 ptr_t.data ptr_t.buff false 1 false 0).params.slice_in 0 = 1 ∧
    sample (heap_of delta_grid zero_buff)
        (phase_items 1 1 ptr_t.data ptr_t.buff false 1 false 0).params.slice_in 1 = 0 := by
  have h0 := row_index 1 1 (by decide) ptr_t.data ptr_t.buff 1 false 0 0 (by decide)
    (by decide)
  have h1 := row_index 1 1 (by decide) ptr_t.data ptr_t.buff 1 false 0 1 (by decide)
    (by decide)
  unfold sample
  rw [h0, h1]
  constructor
  · show delta_grid (2 ^ 1 * 0 + 0) = 1
    simp [delta_grid]
  · show delta_grid (2 ^ 1 * 0 + 1) = 0
    simp [delta_grid]

/-- C15 as stated fails: in stage 0 on row 0 of the `2 × 2` delta grid (`input[0] = 1`,
`input[1] = 0`, forward), position 1 has bit 0 set and the code leaves
`input[0] - input[1]*w = 1` there, where the claim's `input[1]*w - input[0]` is `-1`. -/
theorem fft_iteration_stage_counterexample :
    Nat.testBit 1 0 = true ∧
    sample ((List.range ((1 <<< 1) % 2 ^ 32)).foldl
        (fun mem i => fft_iteration i
          (phase_items 1 1 ptr_t.data ptr_t.buff false 1 false 0).params.slice_in
          (phase_items 1 1 ptr_t.data ptr_t.buff false 1 false 0).params.slice_out 0 false
          mem)
        (heap_of delta_grid zero_buff))
        (phase_items 1 1 ptr_t.data ptr_t.buff false 1 false 0).params.slice_out 1 0 = 1 ∧
    sample (heap_of delta_grid zero_buff)
        (phase_items 1 1 ptr_t.data ptr_t.buff false 1 false 0).params.slice_in 1 0 *
        ((Real.cos ((((1 &&& (2 ^ 0 - 1)) + 1 : ℕ) : ℝ) *
            ((2 * Real.pi) / (2 ^ (0 + 1) : ℝ))) : ℂ) +
          (Real.sin ((((1 &&& (2 ^ 0 - 1)) + 1 : ℕ) : ℝ) *
            ((2 * Real.pi) / (2 ^ (0 + 1) : ℝ))) : ℂ) * Complex.I)
      - sample (heap_of delta_grid zero_buff)
          (phase_items 1 1 ptr_t.data ptr_t.buff false 1 false 0).params.slice_in
          (1 ^^^ 2 ^ 0) 0 = -1 := by
  obtain ⟨s0, s1⟩ := delta_row_samples
  refine ⟨by decide, ?_, ?_⟩
  · rw [iteration_stage_value
        (phase_items 1 1 ptr_t.data ptr_t.buff false 1 false 0).params.slice_in
        (phase_items 1 1 ptr_t.data ptr_t.buff false 1 false 0).params.slice_out
        1 0 false (heap_of delta_grid zero_buff) (by decide) (by decide)
        (row_ok 1 1 (by decide) (by decide) ptr_t.data ptr_t.buff (by decide) false 0
          (by decide)).inj 1 (by decide),
      iteration_val_apply]
    rw [if_pos (by decide), show 1 ^^^ 2 ^ 0 = 0 by decide, s0, s1]
    simp
  · rw [show 1 ^^^ 2 ^ 0 = 0 by decide, s0, s1]
    simp

/-- C19 (the 1D transform is the centred DFT). For a well-formed work item with
`1 ≤ logLen ≤ 30` and `N = 2 ^ logLen`, with `x[n]` what `sample(slice_in, n)` returns before
`fft1d` runs and `y[j]` position `j` of the same line in the buffer `fft1d` records in `out`:
for every channel and every `k < N`, the forward transform gives
`y[k XOR N/2] = Σ_{n<N} x[n XOR N/2] * exp(-2πi·k·n/N)` and the inverse transform gives
`y[k XOR N/2] = (1/N) * Σ_{n<N} x[n XOR N/2] * exp(+2πi·k·n/N)`. -/
theorem fft1d_centred_dft (params : fft1d_params_t) (st : state_t) (ok : params_ok params)
    (h30 : params.log_len ≤ 30) :
    ∃ r, (fft1d params st).out = some r ∧
      ∀ (c : Fin 4) (k : ℕ), k < 2 ^ params.log_len →
        (params.inverse = false →
          (fft1d params st).mem r
              (slice_index params.slice_in (k ^^^ 2 ^ params.log_len / 2)) c
            = ∑ n in range (2 ^ params.log_len),
                sample st.mem params.slice_in (n ^^^ 2 ^ params.log_len / 2) c *
                  Complex.exp (-(2 * Real.pi * Complex.I) * k * n / (2 ^ params.log_len : ℂ))) ∧
        (params.inverse = true →
          (fft1d params st).mem r
              (slice_index params.slice_in (k ^^^ 2 ^ params.log_len / 2)) c
            = (1 / (2 ^ params.log_len : ℂ)) *
              ∑ n in range (2 ^ params.log_len),
                sample st.mem params.slice_in (n ^^^ 2 ^ params.log_len / 2) c *
                  Complex.exp ((2 * Real.pi * Complex.I) * k * n / (2 ^ params.log_len : ℂ))) := by
  refine ⟨result_ptr params, fft1d_out params st ok, ?_⟩
  intro c k hk
  have hL := ok.one_le
  have hdiv := two_pow_div_two params.log_len hL
  have hk' : k ^^^ 2 ^ params.log_len / 2 < 2 ^ params.log_len := by
    rw [hdiv]; exact xor_half_lt params.log_len k hL hk
  have key := fft1d_result params st ok _ hk'
  rw [key, final_seq_eq_centred_dft params.log_len hL params.inverse _ _ hk' c]
  unfold centred_dft dft_scale dft_coeff input_seq
  rw [hdiv, Nat.xor_cancel_right]
  constructor
  · intro hinv
    rw [hinv]
    simp only [Bool.false_eq_true, if_false, one_mul]
    apply sum_congr rfl
    intro n _
    congr 2
    push_cast
    ring
  · intro hinv
    rw [hinv]
    simp only [if_true]
    congr 1
    · push_cast; rfl
    · apply sum_congr rfl
      intro n _
      congr 2
      push_cast
      ring

/-- C19 at a concrete input: row 0 of the `2 × 2` delta grid, forward. -/
theorem fft1d_centred_dft_witness :
    (params_ok (phase_items 1 1 ptr_t.data ptr_t.buff false 1 false 0).params ∧
      (phase_items 1 1 ptr_t.data ptr_t.buff false 1 false 0).params.log_len ≤ 30) ∧
    ∃ r, (fft1d (phase_items 1 1 ptr_t.data ptr_t.buff false 1 false 0).params
          { mem := heap_of delta_grid zero_buff, out := none }).out = some r ∧
      ∀ (c : Fin 4) (k : ℕ), k < 2 ^ 1 →
        (false = false →
          (fft1d (phase_items 1 1 ptr_t.data ptr_t.buff false 1 false 0).params
              { mem := heap_of delta_grid zero_buff, out := none }).mem r
              (slice_index
                (phase_items 1 1 ptr_t.data ptr_t.buff false 1 false 0).params.slice_in
                (k ^^^ 2 ^ 1 / 2)) c
            = ∑ n in range (2 ^ 1),
                sample (heap_of delta_grid zero_buff)
                  (phase_items 1 1 ptr_t.data ptr_t.buff false 1 false 0).params.slice_in
                  (n ^^^ 2 ^ 1 / 2) c *
                  Complex.exp (-(2 * Real.pi * Complex.I) * k * n / (2 ^ 1 : ℂ))) ∧
        (false = true →
          (fft1d (phase_items 1 1 ptr_t.data ptr_t.buff false 1 false 0).params
              { mem := heap_of delta_grid zero_buff, out := none }).mem r
              (slice_index
                (phase_items 1 1 ptr_t.data ptr_t.buff false 1 false 0).params.slice_in
                (k ^^^ 2 ^ 1 / 2)) c
            = (1 / (2 ^ 1 : ℂ)) *
              ∑ n in range (2 ^ 1),
                sample (heap_of delta_grid zero_buff)
                  (phase_items 1 1 ptr_t.data ptr_t.buff false 1 false 0).params.slice_in
                  (n ^^^ 2 ^ 1 / 2) c *
                  Complex.exp ((2 * Real.pi * Complex.I) * k * n / (2 ^ 1 : ℂ))) :=
  ⟨⟨row_ok 1 1 (by decide) (by decide) ptr_t.data ptr_t.buff (by decide) false 0 (by decide),
      by decide⟩,
    fft1d_centred_dft (phase_items 1 1 ptr_t.data ptr_t.buff false 1 false 0).params
      { mem := heap_of delta_grid zero_buff, out := none }
      (row_ok 1 1 (by decide) (by decide) ptr_t.data ptr_t.buff (by decide) false 0
        (by decide))
      (by decide)⟩

/-! ## Channels -/

/-- Every channel of the rows-then-columns grid is the same scalar transform of that
channel of the input. -/
theorem row_column_grid_channel (lw lh : ℕ) (hlw : 1 ≤ lw) (hlh : 1 ≤ lh) (inverse : Bool)
    (G : ℕ → cvec_t) (c : Fin 4) (i : ℕ) :
    row_column_grid lw lh inverse G i c = centred_dft2 lw lh inverse (fun j => G j c) i := by
  unfold centred_dft2
  by_cases hi : i < 2 ^ lw * 2 ^ lh
  · rw [if_pos hi]
    obtain ⟨hy, hx, hyx⟩ := cell_of_lt _ _ i hi
    conv_lhs => rw [← hyx]
    exact row_column_grid_dft lw lh hlw hlh inverse G _ _ hy hx c
  · rw [if_neg hi, row_column_grid_outside _ _ _ _ _ (by omega)]

/-- C12 (channel independence). On a grid with both exponents at least 1 and their sum at
most 31, with at least one worker and a successful allocation, in either direction:
one scalar transform `T` gives every channel of the output of `fft2d` from the same
channel of the input (`F[i].c = T(G[·].c)[i]` for all four `c`), so two input grids that
agree on channel `c` in every cell have transforms that agree on channel `c` in every
cell; the same holds for `fft1d` on a line of any length `2 ^ L`, `1 ≤ L ≤ 30`; and the
twiddle `get_w(angle)` and the scale `from_floating(f)` are the same in all channels. -/
theorem channel_independence (log_width log_height threads : ℕ) (inverse : Bool)
    (hw : 1 ≤ log_width) (hh : 1 ≤ log_height) (hsum : log_width + log_height ≤ 31)
    (ht : 1 ≤ threads) :
    (∃ T : (ℕ → ℂ) → ℕ → ℂ, ∀ G buff : ℕ → cvec_t,
      ∃ F, fft2d G log_width log_height threads inverse (some buff)
            = some (return_code_t.Success, F) ∧
        ∀ (c : Fin 4) (i : ℕ), F i c = T (fun j => G j c) i) ∧
    (∀ (X Y bx by_ : ℕ → cvec_t) (c : Fin 4), (∀ i, X i c = Y i c) →
      ∃ FX FY,
        fft2d X log_width log_height threads inverse (some bx)
            = some (return_code_t.Success, FX) ∧
        fft2d Y log_width log_height threads inverse (some by_)
            = some (return_code_t.Success, FY) ∧
        ∀ i, FX i c = FY i c) ∧
    (∀ L, 1 ≤ L → L ≤ 30 →
      (∃ T : (ℕ → ℂ) → ℕ → ℂ, ∀ (x : ℕ → cvec_t) (c : Fin 4) (j : ℕ), j < 2 ^ L →
        fft1d_line L inverse x j c = T (fun n => x n c) j) ∧
      (∀ (x y : ℕ → cvec_t) (c : Fin 4), (∀ n, x n c = y n c) → ∀ j, j < 2 ^ L →
        fft1d_line L inverse x j c = fft1d_line L inverse y j c)) ∧
    (∀ (angle : ℝ) (c c' : Fin 4), get_w angle c = get_w angle c') ∧
    (∀ (f : ℝ) (c c' : Fin 4), from_floating f c = from_floating f c') := by
  refine ⟨⟨centred_dft2 log_width log_height inverse, fun G buff =>
      ⟨_, fft2d_eq G log_width log_height threads inverse buff hw hh hsum ht,
        fun c i => row_column_grid_channel log_width log_height hw hh inverse G c i⟩⟩,
    ?_, ?_, ?_, ?_⟩
  · intro X Y bx by_ c hXY
    refine ⟨_, _, fft2d_eq X log_width log_height threads inverse bx hw hh hsum ht,
      fft2d_eq Y log_width log_height threads inverse by_ hw hh hsum ht, ?_⟩
    intro i
    rw [row_column_grid_channel log_width log_height hw hh inverse X c i,
      row_column_grid_channel log_width log_height hw hh inverse Y c i]
    congr 1
    funext j
    exact hXY j
  · intro L hL hL'
    have hline : ∀ (x : ℕ → cvec_t) (c : Fin 4) (j : ℕ), j < 2 ^ L →
        fft1d_line L inverse x j c = centred_dft L inverse (fun n => x n c) j := by
      intro x c j hj
      rw [fft1d_line_eq L hL (by omega) inverse x j hj,
        final_seq_eq_centred_dft L hL inverse x j hj c]
    refine ⟨⟨centred_dft L inverse, hline⟩, ?_⟩
    intro x y c hxy j hj
    rw [hline x c j hj, hline y c j hj]
    congr 1
    funext n
    exact hxy n
  · intro angle c c'
    rw [get_w_apply, get_w_apply]
  · intro f c c'
    rw [from_floating_apply, from_floating_apply]

/-- C12 at a concrete input: the `2 × 2` delta grid and a grid that agrees with it on
channel 2 only (every other channel holds `7` everywhere). -/
theorem channel_independence_witness :
    ((1 ≤ 1 ∧ 1 ≤ 1 ∧ 1 + 1 ≤ 31 ∧ 1 ≤ 1) ∧
      ∀ i, delta_grid i 2 = (fun (j : ℕ) (c : Fin 4) => if c = 2 then delta_grid j c else 7) i 2) ∧
    ∃ FX FY,
      fft2d delta_grid 1 1 1 false (some zero_buff) = some (return_code_t.Success, FX) ∧
      fft2d (fun (j : ℕ) (c : Fin 4) => if c = 2 then delta_grid j c else 7) 1 1 1 false
          (some ones_grid) = some (return_code_t.Success, FY) ∧
      ∀ i, FX i 2 = FY i 2 :=
  ⟨⟨by decide, fun _ => by simp⟩,
    (channel_independence 1 1 1 false (by decide) (by decide) (by decide) (by decide)).2.1
      delta_grid (fun (j : ℕ) (c : Fin 4) => if c = 2 then delta_grid j c else 7)
      zero_buff ones_grid 2 (fun _ => by simp)⟩

/-! ## Sizes and the length-1 boundary -/

/-- On a valid grid `data_len` is the number of cells. -/
theorem fft2d_data_len_eq (lw lh : ℕ) (hsum : lw + lh ≤ 31) :
    fft2d_data_len lw lh = 2 ^ lw * 2 ^ lh := by
  unfold fft2d_data_len
  rw [width_eq lw lh hsum, width_eq lh lw (by omega)]
  exact Nat.mod_eq_of_lt (grid_lt lw lh hsum)

/-- C14, the code at the failing input `fft2d(grid, 0, 0, 1, false)`: both 32-bit sizes are
`1`, so validation passes and the call does not return `Dim` (it runs to `Success`); the one
row item has `log_len = 0` and its loops run for index `0`, so `fft_prologue` and
`fft_epilogue` are called with `log_len = 0`, where the shift amount of `1<<(log_len - 1)`
is `-1`, which is negative. -/
theorem fft2d_length_one :
    (1 <<< 0) % 2 ^ 32 = 1 ∧
    (∃ g, fft2d delta_grid 0 0 1 false (some zero_buff) = some (return_code_t.Success, g)) ∧
    (phase_items 0 0 ptr_t.data ptr_t.buff false 0 false 0).params.log_len = 0 ∧
    List.range ((1 <<< 0) % 2 ^ 32) = [0] ∧
    half_len_shift 0 = -1 ∧ half_len_shift 0 < 0 := by
  refine ⟨by decide, ?_, rfl, by decide, by decide, by decide⟩
  exact fft2d_success delta_grid 0 0 1 false zero_buff (by decide) (by decide) (by decide)

/-- C18, the code at the failing input `log_width = log_height = 16`: both 32-bit sizes are
`65536`, so validation passes and the call goes on to `Success`, but the 32-bit product
`data_len` is `0` while the grid has `2 ^ 16 * 2 ^ 16 = 4294967296` cells. -/
theorem fft2d_data_len_wraps :
    (1 <<< 16) % 2 ^ 32 = 65536 ∧
    fft2d_data_len 16 16 = 0 ∧
    2 ^ 16 * 2 ^ 16 = 4294967296 ∧
    fft2d_data_len 16 16 ≠ 2 ^ 16 * 2 ^ 16 ∧
    (∃ g, fft2d delta_grid 16 16 1 false (some zero_buff)
      = some (return_code_t.Success, g)) := by
  refine ⟨by norm_num [Nat.shiftLeft_eq], by norm_num [fft2d_data_len, Nat.shiftLeft_eq],
    by norm_num, by norm_num [fft2d_data_len, Nat.shiftLeft_eq], ?_⟩
  exact fft2d_success delta_grid 16 16 1 false zero_buff (by decide)
    (by norm_num [Nat.shiftLeft_eq]) (by norm_num [Nat.shiftLeft_eq])

/-! ## A phase run in any order -/

/-- What a phase leaves after running the items listed in `order` (no index twice, each
below `n`), in that order: the transformed lines of the listed items in the result buffer,
every offset off those lines as before, and `out` set once an item has run. -/
theorem phase_run_order (lw lh : ℕ) (pin pout : ptr_t) (vert : Bool) (L : ℕ) (inverse : Bool)
    (n : ℕ) (st : state_t)
    (hok : ∀ i, i < n → params_ok (phase_items lw lh pin pout vert L inverse i).params)
    (hdisj : ∀ i i', i < n → i' < n → i ≠ i' → ∀ t t', t < 2 ^ L → t' < 2 ^ L →
      slice_index (phase_items lw lh pin pout vert L inverse i).params.slice_in t ≠
        slice_index (phase_items lw lh pin pout vert L inverse i').params.slice_in t')
    (order : List ℕ) (hnd : order.Nodup) (hlt : ∀ i ∈ order, i < n) :
    (∀ i t, i ∈ order → t < 2 ^ L →
      (order.foldl
        (fun s i => (phase_items lw lh pin pout vert L inverse i).fn
          (phase_items lw lh pin pout vert L inverse i).params s) st).mem
          (if L % 2 = 1 then pout else pin)
          (slice_index (phase_items lw lh pin pout vert L inverse i).params.slice_in t)
        = final_seq L inverse
            (fun t' => st.mem pin
              (slice_index (phase_items lw lh pin pout vert L inverse i).params.slice_in t'))
            t) ∧
    (∀ p j, (∀ i t, i ∈ order → t < 2 ^ L →
        slice_index (phase_items lw lh pin pout vert L inverse i).params.slice_in t ≠ j) →
      (order.foldl
        (fun s i => (phase_items lw lh pin pout vert L inverse i).fn
          (phase_items lw lh pin pout vert L inverse i).params s) st).mem p j = st.mem p j) ∧
    (order ≠ [] →
      (order.foldl
        (fun s i => (phase_items lw lh pin pout vert L inverse i).fn
          (phase_items lw lh pin pout vert L inverse i).params s) st).out
        = some (if L % 2 = 1 then pout else pin)) := by
  induction order using List.reverseRecOn with
  | nil =>
    refine ⟨fun i t hi _ => by simp at hi, fun p j _ => rfl, fun h => absurd rfl h⟩
  | append_singleton l m ih =>
    have hnd' : l.Nodup := (List.nodup_append.1 hnd).1
    have hml : m ∉ l := by
      intro hm
      exact (List.nodup_append.1 hnd).2.2 hm (List.mem_singleton.2 rfl) 
    obtain ⟨ihA, ihB, _⟩ := ih hnd' (fun i hi => hlt i (List.mem_append_left _ hi))
    have hmn : m < n := hlt m (List.mem_append_right _ (List.mem_singleton.2 rfl))
    have okm := hok m hmn
    have hL : 1 ≤ L := okm.one_le
    rw [List.foldl_append]
    simp only [List.foldl_cons, List.foldl_nil]
    generalize l.foldl
        (fun s i => (phase_items lw lh pin pout vert L inverse i).fn
          (phase_items lw lh pin pout vert L inverse i).params s) st = S at ihA ihB
    have hfn : (phase_items lw lh pin pout vert L inverse m).fn = fft1d := rfl
    have hres : result_ptr (phase_items lw lh pin pout vert L inverse m).params
        = (if L % 2 = 1 then pout else pin) := rfl
    rw [hfn]
    refine ⟨?_, ?_, ?_⟩
    · intro i t hi ht
      by_cases him : i = m
      · subst him
        rw [← hres, fft1d_result _ S okm t ht]
        apply final_seq_congr L hL inverse _ _ _ t ht
        intro t' ht'
        show S.mem pin _ = _
        exact ihB pin _ (fun i' t'' hi' ht'' =>
          hdisj i' i (hlt i' (List.mem_append_left _ hi')) hmn
            (fun h => hml (h ▸ hi')) t'' t' ht'' ht')
      · have hil : i ∈ l := by
          rcases List.mem_append.1 hi with h | h
          · exact h
          · exact absurd (List.mem_singleton.1 h) him
        rw [fft1d_frame _ S okm _ _ (fun t' ht' =>
          hdisj m i hmn (hlt i hi) (fun h => him h.symm) t' t ht' ht)]
        exact ihA i t hil ht
    · intro p j hj
      rw [fft1d_frame _ S okm _ _ (fun t' ht' =>
        hj m t' (List.mem_append_right _ (List.mem_singleton.2 rfl)) ht')]
      exact ihB p j (fun i t hi ht => hj i t (List.mem_append_left _ hi) ht)
    · intro _
      rw [fft1d_out _ S okm, hres]

theorem perm_range_facts (order : List ℕ) (n : ℕ) (hn : 1 ≤ n)
    (hp : order.Perm (List.range n)) :
    order.Nodup ∧ (∀ i, i ∈ order ↔ i < n) ∧ order ≠ [] := by
  refine ⟨hp.nodup_iff.2 (List.nodup_range n), fun i => ?_, ?_⟩
  · rw [hp.mem_iff, List.mem_range]
  · intro h
    have := hp.length_eq
    rw [h, List.length_range] at this
    simp at this
    omega

/-- The row phase, its items run in any order. -/
theorem rows_phase_order (lw lh : ℕ) (hlw : 1 ≤ lw) (hsum : lw + lh ≤ 31) (pin pout : ptr_t)
    (hne : pin ≠ pout) (inverse : Bool) (st : state_t) (order : List ℕ)
    (hp : order.Perm (List.range (2 ^ lh))) :
    (order.foldl
        (fun s i => (phase_items lw lh pin pout false lw inverse i).fn
          (phase_items lw lh pin pout false lw inverse i).params s) st).out
      = some (if lw % 2 = 1 then pout else pin) ∧
    (∀ y x, y < 2 ^ lh → x < 2 ^ lw →
      (order.foldl
        (fun s i => (phase_items lw lh pin pout false lw inverse i).fn
          (phase_items lw lh pin pout false lw inverse i).params s) st).mem
          (if lw % 2 = 1 then pout else pin) (2 ^ lw * y + x)
        = final_seq lw inverse (fun t' => st.mem pin (2 ^ lw * y + t')) x) ∧
    (∀ p j, 2 ^ lw * 2 ^ lh ≤ j →
      (order.foldl
        (fun s i => (phase_items lw lh pin pout false lw inverse i).fn
          (phase_items lw lh pin pout false lw inverse i).params s) st).mem p j
        = st.mem p j) := by
  obtain ⟨hnd, hmem, hnil⟩ := perm_range_facts order (2 ^ lh) (Nat.two_pow_pos lh) hp
  obtain ⟨hA, hB, hC⟩ := phase_run_order lw lh pin pout false lw inverse (2 ^ lh) st
    (fun i hi => row_ok lw lh hlw hsum pin pout hne inverse i hi)
    (fun i i' hi hi' hii t t' ht ht' => by
      rw [row_index lw lh hsum pin pout lw inverse i t hi ht,
        row_index lw lh hsum pin pout lw inverse i' t' hi' ht']
      exact row_disjoint _ _ _ _ _ hii ht ht')
    order hnd (fun i hi => (hmem i).1 hi)
  refine ⟨hC hnil, ?_, ?_⟩
  · intro y x hy hx
    have := hA y x ((hmem y).2 hy) hx
    rw [row_index lw lh hsum pin pout lw inverse y x hy hx] at this
    rw [this]
    apply final_seq_congr lw hlw inverse _ _ _ x hx
    intro t ht
    rw [row_index lw lh hsum pin pout lw inverse y t hy ht]
  · intro p j hj
    apply hB
    intro i t hi ht
    have hi' := (hmem i).1 hi
    rw [row_index lw lh hsum pin pout lw inverse i t hi' ht]
    have := cell_lt _ _ _ _ hi' ht
    omega

/-- The column phase, its items run in any order. -/
theorem cols_phase_order (lw lh : ℕ) (hlh : 1 ≤ lh) (hsum : lw + lh ≤ 31) (pin pout : ptr_t)
    (hne : pin ≠ pout) (inverse : Bool) (st : state_t) (order : List ℕ)
    (hp : order.Perm (List.range (2 ^ lw))) :
    (order.foldl
        (fun s i => (phase_items lw lh pin pout true lh inverse i).fn
          (phase_items lw lh pin pout true lh inverse i).params s) st).out
      = some (if lh % 2 = 1 then pout else pin) ∧
    (∀ y x, y < 2 ^ lh → x < 2 ^ lw →
      (order.foldl
        (fun s i => (phase_items lw lh pin pout true lh inverse i).fn
          (phase_items lw lh pin pout true lh inverse i).params s) st).mem
          (if lh % 2 = 1 then pout else pin) (2 ^ lw * y + x)
        = final_seq lh inverse (fun t => st.mem pin (2 ^ lw * t + x)) y) ∧
    (∀ p j, 2 ^ lw * 2 ^ lh ≤ j →
      (order.foldl
        (fun s i => (phase_items lw lh pin pout true lh inverse i).fn
          (phase_items lw lh pin pout true lh inverse i).params s) st).mem p j
        = st.mem p j) := by
  obtain ⟨hnd, hmem, hnil⟩ := perm_range_facts order (2 ^ lw) (Nat.two_pow_pos lw) hp
  obtain ⟨hA, hB, hC⟩ := phase_run_order lw lh pin pout true lh inverse (2 ^ lw) st
    (fun i hi => col_ok lw lh hlh hsum pin pout hne inverse i hi)
    (fun i i' hi hi' hii t t' ht ht' => by
      rw [col_index lw lh hsum pin pout lh inverse i t hi ht,
        col_index lw lh hsum pin pout lh inverse i' t' hi' ht']
      exact col_disjoint _ _ _ _ _ hii hi hi')
    order hnd (fun i hi => (hmem i).1 hi)
  refine ⟨hC hnil, ?_, ?_⟩
  · intro y x hy hx
    have := hA x y ((hmem x).2 hx) hy
    rw [col_index lw lh hsum pin pout lh inverse x y hx hy] at this
    rw [this]
    apply final_seq_congr lh hlh inverse _ _ _ y hy
    intro t ht
    rw [col_index lw lh hsum pin pout lh inverse x t hx ht]
  · intro p j hj
    apply hB
    intro i t hi ht
    have hi' := (hmem i).1 hi
    rw [col_index lw lh hsum pin pout lh inverse i t hi' ht]
    have := cell_lt _ _ _ _ ht hi'
    omega

/-- With the items of each phase run in any order, `fft2d` leaves the same grid. -/
theorem fft2d_scheduled_eq (data : ℕ → cvec_t) (lw lh threads : ℕ) (inverse : Bool)
    (buff : ℕ → cvec_t) (hlw : 1 ≤ lw) (hlh : 1 ≤ lh) (hsum : lw + lh ≤ 31)
    (ht : 1 ≤ threads) (order1 order2 : List ℕ)
    (hp1 : order1.Perm (List.range (2 ^ lh))) (hp2 : order2.Perm (List.range (2 ^ lw))) :
    fft2d_scheduled data lw lh threads inverse (some buff) order1 order2
      = some (return_code_t.Success, row_column_grid lw lh inverse data) := by
  have hW := width_eq lw lh hsum
  have hH := width_eq lh lw (by omega)
  have hlen : (2 ^ lw * 2 ^ lh) % 2 ^ 32 = 2 ^ lw * 2 ^ lh :=
    Nat.mod_eq_of_lt (grid_lt lw lh hsum)
  have hWpos := Nat.two_pow_pos lw
  have hHpos := Nat.two_pow_pos lh
  unfold fft2d_scheduled
  simp only [hW, hH, hlen]
  rw [if_neg (by omega), if_neg (by omega)]
  simp only [run_in_order]
  obtain ⟨ho1, hv1, hf1⟩ := rows_phase_order lw lh hlw hsum ptr_t.data ptr_t.buff
    (by decide) inverse { mem := heap_of data buff, out := none } order1 hp1
  generalize hS1 : order1.foldl
      (fun s i => (phase_items lw lh ptr_t.data ptr_t.buff false lw inverse i).fn
        (phase_items lw lh ptr_t.data ptr_t.buff false lw inverse i).params s)
      { mem := heap_of data buff, out := none } = S1 at ho1 hv1 hf1 ⊢
  rw [ho1]
  simp only
  generalize hr1 : (if lw % 2 = 1 then ptr_t.buff else ptr_t.data) = r1 at ho1 hv1 hf1 ⊢
  have hne2 : r1 ≠ (if r1 = ptr_t.buff then ptr_t.data else ptr_t.buff) := by
    cases r1 <;> decide
  obtain ⟨ho2, hv2, hf2⟩ := cols_phase_order lw lh hlh hsum r1
    (if r1 = ptr_t.buff then ptr_t.data else ptr_t.buff) hne2 inverse S1 order2 hp2
  generalize hS2 : order2.foldl
      (fun s i => (phase_items lw lh r1 (if r1 = ptr_t.buff then ptr_t.data else ptr_t.buff)
          true lh inverse i).fn
        (phase_items lw lh r1 (if r1 = ptr_t.buff then ptr_t.data else ptr_t.buff)
          true lh inverse i).params s) S1 = S2 at ho2 hv2 hf2 ⊢
  rw [ho2]
  simp only
  generalize hr2 : (if lh % 2 = 1 then (if r1 = ptr_t.buff then ptr_t.data else ptr_t.buff)
    else r1) = r2 at ho2 hv2 hf2 ⊢
  have hcell : ∀ i, i < 2 ^ lw * 2 ^ lh → S2.mem r2 i = row_column_grid lw lh inverse data i := by
    intro i hi
    obtain ⟨hy, hx, hyx⟩ := cell_of_lt _ _ i hi
    unfold row_column_grid
    rw [if_pos hi]
    conv_lhs => rw [← hyx]
    rw [hv2 _ _ hy hx]
    apply final_seq_congr lh hlh inverse _ _ _ _ hy
    intro t ht
    rw [hv1 t _ ht hx]
    rfl
  have hrest : ∀ i, ¬ i < 2 ^ lw * 2 ^ lh →
      S2.mem ptr_t.data i = row_column_grid lw lh inverse data i := by
    intro i hi
    unfold row_column_grid
    rw [if_neg hi, hf2 _ _ (by omega), hf1 _ _ (by omega)]
    rfl
  by_cases hd : r2 = ptr_t.data
  · rw [if_neg (by simpa using hd)]
    congr 2
    funext i
    by_cases hi : i < 2 ^ lw * 2 ^ lh
    · rw [← hd]; exact hcell i hi
    · exact hrest i hi
  · rw [if_pos hd]
    congr 2
    funext i
    unfold memcpy
    by_cases hi : i < 2 ^ lw * 2 ^ lh
    · rw [if_pos hi]; exact hcell i hi
    · rw [if_neg hi]; exact hrest i hi

/-- C11 (determinism under scheduling). For a fixed input grid, exponents (both at least 1,
sum at most 31) and direction there is one grid `F` such that `fft2d` returns `Success`
and leaves `F` for every number of workers `threads ≥ 1` (and whatever the fresh scratch
block holds), and such that `fft2d` with the work items of the row phase and of the column
phase each run to completion in an arbitrary order (any permutation of the phase's items)
also returns `Success` and leaves `F`. -/
theorem fft2d_deterministic (data : ℕ → cvec_t) (log_width log_height : ℕ) (inverse : Bool)
    (hw : 1 ≤ log_width) (hh : 1 ≤ log_height) (hsum : log_width + log_height ≤ 31) :
    ∃ F,
      (∀ (threads : ℕ) (buff : ℕ → cvec_t), 1 ≤ threads →
        fft2d data log_width log_height threads inverse (some buff)
          = some (return_code_t.Success, F)) ∧
      (∀ (threads : ℕ) (buff : ℕ → cvec_t) (order1 order2 : List ℕ), 1 ≤ threads →
        order1.Perm (List.range (2 ^ log_height)) →
        order2.Perm (List.range (2 ^ log_width)) →
        fft2d_scheduled data log_width log_height threads inverse (some buff) order1 order2
          = some (return_code_t.Success, F)) :=
  ⟨row_column_grid log_width log_height inverse data,
    fun threads buff ht =>
      fft2d_eq data log_width log_height threads inverse buff hw hh hsum ht,
    fun threads buff order1 order2 ht hp1 hp2 =>
      fft2d_scheduled_eq data log_width log_height threads inverse buff hw hh hsum ht
        order1 order2 hp1 hp2⟩

/-- C11 at a concrete input: the `2 × 2` delta grid with one worker, with eight workers, and
with both phases run in the order `1, 0`. -/
theorem fft2d_deterministic_witness :
    (1 ≤ 1 ∧ 1 ≤ 1 ∧ 1 + 1 ≤ 31) ∧
    ∃ F,
      fft2d delta_grid 1 1 1 false (some zero_buff) = some (return_code_t.Success, F) ∧
      fft2d delta_grid 1 1 8 false (some zero_buff) = some (return_code_t.Success, F) ∧
      fft2d_scheduled delta_grid 1 1 8 false (some zero_buff) [1, 0] [1, 0]
        = some (return_code_t.Success, F) := by
  obtain ⟨F, h1, h2⟩ :=
    fft2d_deterministic delta_grid 1 1 false (by decide) (by decide) (by decide)
  exact ⟨by decide, F, h1 1 zero_buff (by decide), h1 8 zero_buff (by decide),
    h2 8 zero_buff [1, 0] [1, 0] (by decide) (by decide) (by decide)⟩

/-! ## Checked accesses -/

/-- A checked fold whose every step succeeds is the unchecked fold. -/
theorem foldlM_eq_foldl {α β : Type} (g : α → β → Option α) (f : α → β → α) (P : α → Prop)
    (l : List β) (h : ∀ i ∈ l, ∀ s, P s → g s i = some (f s i) ∧ P (f s i)) :
    ∀ s, P s → l.foldlM g s = some (l.foldl f s) ∧ P (l.foldl f s) := by
  induction l with
  | nil => intro s hs; exact ⟨rfl, hs⟩
  | cons a l ih =>
    intro s hs
    obtain ⟨h1, h2⟩ := h a (List.mem_cons_self a l) s hs
    rw [List.foldlM_cons, h1]
    exact ih (fun i hi => h i (List.mem_cons_of_mem a hi)) _ h2

theorem sample_checked_eq (len : ℕ) (mem : heap_t) (s : slice_t) (t : ℕ)
    (h : slice_index s t < len) : sample_checked len mem s t = some (sample mem s t) := by
  unfold sample_checked sample
  rw [if_pos h]

theorem write_checked_eq (len : ℕ) (mem : heap_t) (s : slice_t) (t : ℕ) (v : cvec_t)
    (h : slice_index s t < len) : write_checked len mem s t v = some (write mem s t v) := by
  unfold write_checked write
  rw [if_pos h]

theorem xor_shift_lt (L k i : ℕ) (hk : k < L) (hi : i < 2 ^ L) : i ^^^ (1 <<< k) < 2 ^ L := by
  apply Nat.xor_lt_two_pow hi
  rw [Nat.one_shiftLeft]
  exact Nat.pow_lt_pow_right (by norm_num) hk

theorem mirror_lt (L i : ℕ) : (1 <<< L) - i - 1 < 2 ^ L := by
  rw [Nat.one_shiftLeft]
  have := Nat.two_pow_pos L
  omega

theorem fft_prologue_checked_eq (len index : ℕ) (src dst : slice_t) (L : ℕ) (mem : heap_t)
    (hL : 1 ≤ L) (hi : index < 2 ^ L)
    (hs : ∀ t, t < 2 ^ L → slice_index src t < len)
    (hd : ∀ t, t < 2 ^ L → slice_index dst t < len) :
    fft_prologue_checked len index src dst L mem = some (fft_prologue index src dst L mem) := by
  unfold fft_prologue_checked fft_prologue
  simp only
  rw [sample_checked_eq _ _ _ _ (hs _ (xor_half_len_lt L _ hL (bit_reverse_lt _ _)))]
  exact write_checked_eq _ _ _ _ _ (hd _ hi)

theorem fft_iteration_checked_eq (len index : ℕ) (src dst : slice_t) (L k : ℕ)
    (inverse : Bool) (mem : heap_t) (hk : k < L) (hi : index < 2 ^ L)
    (hs : ∀ t, t < 2 ^ L → slice_index src t < len)
    (hd : ∀ t, t < 2 ^ L → slice_index dst t < len) :
    fft_iteration_checked len index src dst k inverse mem
      = some (fft_iteration index src dst k inverse mem) := by
  unfold fft_iteration_checked fft_iteration
  simp only
  rw [sample_checked_eq _ _ _ _ (hs _ (xor_shift_lt L k index hk hi)),
    sample_checked_eq _ _ _ _ (hs _ hi)]
  by_cases h : index &&& (1 <<< k) ≠ 0
  · rw [decide_eq_true h]
    simp only [Option.some_bind, if_true]
    exact write_checked_eq _ _ _ _ _ (hd _ hi)
  · rw [decide_eq_false h]
    simp only [Option.some_bind, Bool.false_eq_true, if_false]
    exact write_checked_eq _ _ _ _ _ (hd _ hi)

theorem fft_epilogue_checked_eq (len index : ℕ) (src dst : slice_t) (L : ℕ)
    (inverse : Bool) (mem : heap_t) (hL : 1 ≤ L) (hi : index < 2 ^ L)
    (hs : ∀ t, t < 2 ^ L → slice_index src t < len)
    (hd : ∀ t, t < 2 ^ L → slice_index dst t < len) :
    fft_epilogue_checked len index src dst L inverse mem
      = some (fft_epilogue index src dst L inverse mem) := by
  unfold fft_epilogue_checked fft_epilogue
  simp only
  rw [sample_checked_eq _ _ _ _ (hs _ (mirror_lt L index))]
  exact write_checked_eq _ _ _ _ _ (hd _ (xor_half_len_lt L _ hL hi))

/-- One turn of the butterfly loop: no access fails, and the next turn's slices are in
range again. -/
theorem butterfly_pass_checked_eq (len L : ℕ) (inverse : Bool) (l : fft1d_locals_t)
    (k : ℕ) (hk : k < L)
    (hs : ∀ t, t < 2 ^ L → slice_index l.slice_in t < len)
    (hd : ∀ t, t < 2 ^ L → slice_index l.slice_out t < len) :
    butterfly_pass_checked len (2 ^ L) inverse l k = some (butterfly_pass (2 ^ L) inverse l k) ∧
    (∀ t, t < 2 ^ L → slice_index (butterfly_pass (2 ^ L) inverse l k).slice_in t < len) ∧
    (∀ t, t < 2 ^ L → slice_index (butterfly_pass (2 ^ L) inverse l k).slice_out t < len) := by
  refine ⟨?_, fun t ht => hs t ht, fun t ht => hd t ht⟩
  unfold butterfly_pass_checked butterfly_pass
  rw [(foldlM_eq_foldl
    (fun mem i => fft_iteration_checked len i l.slice_in l.slice_out k inverse mem)
    (fun mem i => fft_iteration i l.slice_in l.slice_out k inverse mem) (fun _ => True)
    (List.range (2 ^ L))
    (fun i hi s _ => ⟨fft_iteration_checked_eq len i l.slice_in l.slice_out L k inverse s hk
      (List.mem_range.1 hi) hs hd, trivial⟩) l.mem trivial).1]
  rfl

/-- No buffer access of `fft1d` fails when the offsets of its two slices are in range. -/
theorem fft1d_checked_eq (len : ℕ) (params : fft1d_params_t) (st : state_t)
    (hL : 1 ≤ params.log_len) (hL31 : params.log_len ≤ 31)
    (hs : ∀ t, t < 2 ^ params.log_len → slice_index params.slice_in t < len)
    (hd : ∀ t, t < 2 ^ params.log_len → slice_index params.slice_out t < len) :
    fft1d_checked len params st = some (fft1d params st) := by
  have hlen := length_eq params.log_len hL31
  have hpro := (foldlM_eq_foldl
    (fun mem i => fft_prologue_checked len i params.slice_in params.slice_out
      params.log_len mem)
    (fun mem i => fft_prologue i params.slice_in params.slice_out params.log_len mem)
    (fun _ => True) (List.range (2 ^ params.log_len))
    (fun i hi s _ => ⟨fft_prologue_checked_eq len i params.slice_in params.slice_out
      params.log_len s hL (List.mem_range.1 hi) hs hd, trivial⟩) st.mem trivial).1
  have hbut := foldlM_eq_foldl
    (butterfly_pass_checked len (2 ^ params.log_len) params.inverse)
    (butterfly_pass (2 ^ params.log_len) params.inverse)
    (fun l => (∀ t, t < 2 ^ params.log_len → slice_index l.slice_in t < len) ∧
      (∀ t, t < 2 ^ params.log_len → slice_index l.slice_out t < len))
    (List.range params.log_len)
    (fun k hk l hl => butterfly_pass_checked_eq len params.log_len params.inverse l k
      (List.mem_range.1 hk) hl.1 hl.2)
    (after_prologue params st) ⟨fun t ht => hs t ht, fun t ht => hd t ht⟩
  obtain ⟨hbut1, hbs, hbd⟩ := hbut
  have hepi := (foldlM_eq_foldl
    (fun mem i => fft_epilogue_checked len i
      ((List.range params.log_len).foldl (butterfly_pass (2 ^ params.log_len) params.inverse)
        (after_prologue params st)).slice_in
      ((List.range params.log_len).foldl (butterfly_pass (2 ^ params.log_len) params.inverse)
        (after_prologue params st)).slice_out params.log_len params.inverse mem)
    (fun mem i => fft_epilogue i
      ((List.range params.log_len).foldl (butterfly_pass (2 ^ params.log_len) params.inverse)
        (after_prologue params st)).slice_in
      ((List.range params.log_len).foldl (butterfly_pass (2 ^ params.log_len) params.inverse)
        (after_prologue params st)).slice_out params.log_len params.inverse mem)
    (fun _ => True) (List.range (2 ^ params.log_len))
    (fun i hi s _ => ⟨fft_epilogue_checked_eq len i _ _ params.log_len params.inverse s hL
      (List.mem_range.1 hi) hbs hbd, trivial⟩)
    ((List.range params.log_len).foldl (butterfly_pass (2 ^ params.log_len) params.inverse)
        (after_prologue params st)).mem trivial).1
  rw [fft1d_unfold]
  unfold fft1d_checked
  simp only [hlen]
  rw [hpro]
  simp only [Option.some_bind]
  unfold after_prologue at hbut1 hepi ⊢
  rw [hlen] at hbut1 hepi ⊢
  rw [hbut1]
  simp only [Option.some_bind]
  rw [hepi]
  rfl

/-- A worker over checked accesses: no access fails when none of its items' does. -/
theorem thread_fn_checked_eq (len : ℕ) (n : ℕ) : ∀ (p : work_queue_t) (st : state_t),
    p.work_item_count - p.work_index = n →
    (∀ i, i < p.work_item_count → (p.work_items i).fn = fft1d ∧
      ∀ s, fft1d_checked len (p.work_items i).params s
        = some (fft1d (p.work_items i).params s)) →
    thread_fn_checked len p st = some (thread_fn p st) := by
  induction n with
  | zero =>
    intro p st h _
    rw [thread_fn_checked, thread_fn]
    have hge : p.work_index ≥ p.work_item_count := by omega
    simp only [hge, if_true]
  | succ n ih =>
    intro p st h hitems
    rw [thread_fn_checked, thread_fn]
    have hlt : ¬ p.work_index ≥ p.work_item_count := by omega
    simp only [hlt, if_false]
    obtain ⟨hfn, hchk⟩ := hitems p.work_index (by omega)
    rw [hchk, hfn]
    exact ih _ _ (by simp only; omega) hitems

/-- The workers of one phase over checked accesses. -/
theorem run_threads_checked_eq (len threads : ℕ) (queue : work_queue_t) (st : state_t)
    (hitems : ∀ i, i < queue.work_item_count → (queue.work_items i).fn = fft1d ∧
      ∀ s, fft1d_checked len (queue.work_items i).params s
        = some (fft1d (queue.work_items i).params s)) :
    run_threads_checked len threads queue st = some (run_threads threads queue st) := by
  unfold run_threads_checked run_threads
  exact (foldlM_eq_foldl (fun qs _ => thread_fn_checked len qs.1 qs.2)
    (fun qs _ => thread_fn qs.1 qs.2)
    (fun qs => qs.1.work_item_count = queue.work_item_count ∧
      qs.1.work_items = queue.work_items)
    (List.range threads)
    (fun i _ qs hqs =>
      ⟨thread_fn_checked_eq len _ qs.1 qs.2 rfl (by rw [hqs.1, hqs.2]; exact hitems),
        by
          show (thread_fn qs.1 qs.2).1.work_item_count = _ ∧
            (thread_fn qs.1 qs.2).1.work_items = _
          rw [thread_fn_eq _ qs.1 qs.2 rfl]
          exact hqs⟩)
    (queue, st) ⟨rfl, rfl⟩).1

/-- The offsets of a row item are inside the grid. -/
theorem row_offset_lt (lw lh : ℕ) (hsum : lw + lh ≤ 31) (buf : ptr_t) (r t : ℕ)
    (hr : r < 2 ^ lh) (ht : t < 2 ^ lw) :
    slice_index
      { slice := r, log_width := lw, log_height := lh, data := buf, vertical := false } t
        < 2 ^ lw * 2 ^ lh := by
  have h := row_index lw lh hsum buf buf lw false r t hr ht
  have h2 := cell_lt (2 ^ lw) (2 ^ lh) r t hr ht
  exact lt_of_eq_of_lt h h2

/-- The offsets of a column item are inside the grid. -/
theorem col_offset_lt (lw lh : ℕ) (hsum : lw + lh ≤ 31) (buf : ptr_t) (c t : ℕ)
    (hc : c < 2 ^ lw) (ht : t < 2 ^ lh) :
    slice_index
      { slice := c, log_width := lw, log_height := lh, data := buf, vertical := true } t
        < 2 ^ lw * 2 ^ lh := by
  have h := col_index lw lh hsum buf buf lh false c t hc ht
  have h2 := cell_lt (2 ^ lw) (2 ^ lh) t c ht hc
  exact lt_of_eq_of_lt h h2

theorem row_item_checked (lw lh : ℕ) (hlw : 1 ≤ lw) (hsum : lw + lh ≤ 31) (pin pout : ptr_t)
    (inverse : Bool) (r : ℕ) (hr : r < 2 ^ lh) (st : state_t) :
    fft1d_checked (2 ^ lw * 2 ^ lh) (phase_items lw lh pin pout false lw inverse r).params st
      = some (fft1d (phase_items lw lh pin pout false lw inverse r).params st) :=
  fft1d_checked_eq _ _ st hlw (by show lw ≤ 31; omega)
    (fun t ht => row_offset_lt lw lh hsum pin r t hr ht)
    (fun t ht => row_offset_lt lw lh hsum pout r t hr ht)

theorem col_item_checked (lw lh : ℕ) (hlh : 1 ≤ lh) (hsum : lw + lh ≤ 31) (pin pout : ptr_t)
    (inverse : Bool) (c : ℕ) (hc : c < 2 ^ lw) (st : state_t) :
    fft1d_checked (2 ^ lw * 2 ^ lh) (phase_items lw lh pin pout true lh inverse c).params st
      = some (fft1d (phase_items lw lh pin pout true lh inverse c).params st) :=
  fft1d_checked_eq _ _ st hlh (by show lh ≤ 31; omega)
    (fun t ht => col_offset_lt lw lh hsum pin c t hc ht)
    (fun t ht => col_offset_lt lw lh hsum pout c t hc ht)

/-- No buffer access of `fft2d` fails: over checked accesses it computes what `fft2d`
computes. -/
theorem fft2d_checked_eq (data : ℕ → cvec_t) (lw lh threads : ℕ) (inverse : Bool)
    (malloc : Option (ℕ → cvec_t)) (hlw : 1 ≤ lw) (hlh : 1 ≤ lh) (hsum : lw + lh ≤ 31) :
    fft2d_checked data lw lh threads inverse malloc
      = fft2d data lw lh threads inverse malloc := by
  have hW := width_eq lw lh hsum
  have hH := width_eq lh lw (by omega)
  have hlen : (2 ^ lw * 2 ^ lh) % 2 ^ 32 = 2 ^ lw * 2 ^ lh :=
    Nat.mod_eq_of_lt (grid_lt lw lh hsum)
  have hrow : ∀ st, run_threads_checked (2 ^ lw * 2 ^ lh) threads
      { work_index := 0, work_item_count := 2 ^ lh,
        work_items := phase_items lw lh ptr_t.data ptr_t.buff false lw inverse } st
      = some (run_threads threads
        { work_index := 0, work_item_count := 2 ^ lh,
          work_items := phase_items lw lh ptr_t.data ptr_t.buff false lw inverse } st) :=
    fun st => run_threads_checked_eq (2 ^ lw * 2 ^ lh) threads
      { work_index := 0, work_item_count := 2 ^ lh,
        work_items := phase_items lw lh ptr_t.data ptr_t.buff false lw inverse } st
      (fun i hi => ⟨rfl, fun s =>
        row_item_checked lw lh hlw hsum ptr_t.data ptr_t.buff inverse i hi s⟩)
  have hcol : ∀ pin pout st, run_threads_checked (2 ^ lw * 2 ^ lh) threads
      { work_index := 0, work_item_count := 2 ^ lw,
        work_items := phase_items lw lh pin pout true lh inverse } st
      = some (run_threads threads
        { work_index := 0, work_item_count := 2 ^ lw,
          work_items := phase_items lw lh pin pout true lh inverse } st) :=
    fun pin pout st => run_threads_checked_eq (2 ^ lw * 2 ^ lh) threads
      { work_index := 0, work_item_count := 2 ^ lw,
        work_items := phase_items lw lh pin pout true lh inverse } st
      (fun i hi => ⟨rfl, fun s => col_item_checked lw lh hlh hsum pin pout inverse i hi s⟩)
  unfold fft2d_checked fft2d
  simp only [hW, hH, hlen]
  by_cases ht : threads = 0
  · rw [if_pos ht, if_pos ht]
  rw [if_neg ht, if_neg ht]
  by_cases hdim : 2 ^ lw = 0 ∨ 2 ^ lh = 0
  · rw [if_pos hdim, if_pos hdim]
  rw [if_neg hdim, if_neg hdim]
  cases malloc with
  | none => rfl
  | some buff =>
    simp only
    rw [hrow]
    simp only [Option.some_bind]
    generalize (run_threads threads
      { work_index := 0, work_item_count := 2 ^ lh,
        work_items := phase_items lw lh ptr_t.data ptr_t.buff false lw inverse }
      { mem := heap_of data buff, out := none }).2 = st1
    cases hout : st1.out with
    | none => rfl
    | some out =>
      simp only
      rw [hcol]
      rfl

/-- The positions the three stage functions pass to `sample` and `write` are inside the
line. -/
theorem stage_positions_lt (L : ℕ) (hL : 1 ≤ L) (index : ℕ) (hi : index < 2 ^ L) :
    (∀ p ∈ fft_prologue_positions index L, p < 2 ^ L) ∧
    (∀ k, k < L → ∀ p ∈ fft_iteration_positions index k, p < 2 ^ L) ∧
    (∀ p ∈ fft_epilogue_positions index L, p < 2 ^ L) := by
  refine ⟨?_, ?_, ?_⟩
  · intro p hp
    simp only [fft_prologue_positions, List.mem_cons, List.mem_singleton, List.mem_nil_iff,
      or_false] at hp
    rcases hp with rfl | rfl
    · exact xor_half_len_lt L _ hL (bit_reverse_lt _ _)
    · exact hi
  · intro k hk p hp
    simp only [fft_iteration_positions, List.mem_cons, List.mem_singleton, List.mem_nil_iff,
      or_false] at hp
    rcases hp with rfl | rfl | rfl
    · exact xor_shift_lt L k _ hk hi
    · exact hi
    · exact hi
  · intro p hp
    simp only [fft_epilogue_positions, List.mem_cons, List.mem_singleton, List.mem_nil_iff,
      or_false] at hp
    rcases hp with rfl | rfl
    · exact mirror_lt L _
    · exact xor_half_len_lt L _ hL hi

theorem fft2d_is_some (data : ℕ → cvec_t) (lw lh threads : ℕ) (inverse : Bool)
    (malloc : Option (ℕ → cvec_t)) (hlw : 1 ≤ lw) (hlh : 1 ≤ lh) (hsum : lw + lh ≤ 31) :
    (fft2d data lw lh threads inverse malloc).isSome = true := by
  by_cases ht : threads = 0
  · unfold fft2d
    simp only
    rw [if_pos ht]
    rfl
  cases malloc with
  | none =>
    unfold fft2d
    simp only
    rw [if_neg ht]
    split <;> rfl
  | some buff =>
    rw [fft2d_eq data lw lh threads inverse buff hlw hlh hsum (by omega)]
    rfl

/-- C20 (index safety). For `log_width, log_height ≥ 1` with `log_width + log_height ≤ 31`:
every local position that `fft_prologue`, `fft_iteration` (every butterfly stage) and
`fft_epilogue` pass to `sample`/`write` for an index of the line lies below `2 ^ log_len`
(for the row length and for the column length); `data_len` is `width * height`, and every
grid offset `to_index` computes for position `t` of a row `r < height` or of a column
`c < width` lies below it; so with every buffer access checked against `data_len`, `fft1d`
on every row item and every column item, in both directions and from every state, fails
nowhere and computes what `fft1d` computes, and `fft2d` fails nowhere, computes what
`fft2d` computes and returns a result. -/
theorem index_safety (log_width log_height : ℕ) (hw : 1 ≤ log_width) (hh : 1 ≤ log_height)
    (hsum : log_width + log_height ≤ 31) :
    (∀ log_len, (log_len = log_width ∨ log_len = log_height) →
      ∀ index, index < 2 ^ log_len →
        (∀ p ∈ fft_prologue_positions index log_len, p < 2 ^ log_len) ∧
        (∀ iteration, iteration < log_len →
          ∀ p ∈ fft_iteration_positions index iteration, p < 2 ^ log_len) ∧
        (∀ p ∈ fft_epilogue_positions index log_len, p < 2 ^ log_len)) ∧
    fft2d_data_len log_width log_height = 2 ^ log_width * 2 ^ log_height ∧
    (∀ (buf : ptr_t) (r t : ℕ), r < 2 ^ log_height → t < 2 ^ log_width →
      slice_index
      { slice := r, log_width := log_width, log_height := log_height, data := buf,
        vertical := false } t
        < fft2d_data_len log_width log_height) ∧
    (∀ (buf : ptr_t) (c t : ℕ), c < 2 ^ log_width → t < 2 ^ log_height →
      slice_index
      { slice := c, log_width := log_width, log_height := log_height, data := buf,
        vertical := true } t
        < fft2d_data_len log_width log_height) ∧
    (∀ (pin pout : ptr_t) (inverse : Bool) (r : ℕ) (st : state_t), r < 2 ^ log_height →
      fft1d_checked (fft2d_data_len log_width log_height)
          (phase_items log_width log_height pin pout false log_width inverse r).params st
        = some (fft1d
          (phase_items log_width log_height pin pout false log_width inverse r).params st)) ∧
    (∀ (pin pout : ptr_t) (inverse : Bool) (c : ℕ) (st : state_t), c < 2 ^ log_width →
      fft1d_checked (fft2d_data_len log_width log_height)
          (phase_items log_width log_height pin pout true log_height inverse c).params st
        = some (fft1d
          (phase_items log_width log_height pin pout true log_height inverse c).params st)) ∧
    (∀ (data : ℕ → cvec_t) (threads : ℕ) (inverse : Bool)
        (malloc : Option (ℕ → cvec_t)),
      fft2d_checked data log_width log_height threads inverse malloc
        = fft2d data log_width log_height threads inverse malloc ∧
      (fft2d_checked data log_width log_height threads inverse malloc).isSome = true) := by
  have hlen := fft2d_data_len_eq log_width log_height hsum
  rw [hlen]
  refine ⟨?_, rfl, ?_, ?_, ?_, ?_, ?_⟩
  · intro L hL index hi
    exact stage_positions_lt L (by rcases hL with rfl | rfl <;> assumption) index hi
  · intro buf r t hr ht
    exact row_offset_lt log_width log_height hsum buf r t hr ht
  · intro buf c t hc ht
    exact col_offset_lt log_width log_height hsum buf c t hc ht
  · intro pin pout inverse r st hr
    exact row_item_checked log_width log_height hw hsum pin pout inverse r hr st
  · intro pin pout inverse c st hc
    exact col_item_checked log_width log_height hh hsum pin pout inverse c hc st
  · intro data threads inverse malloc
    have h := fft2d_checked_eq data log_width log_height threads inverse malloc hw hh hsum
    refine ⟨h, ?_⟩
    rw [h]
    exact fft2d_is_some data log_width log_height threads inverse malloc hw hh hsum

/-- C20 at a concrete input: the `2 × 2` grid; the last position of the last row and of the
last column, and the forward transform of the delta grid with two workers. -/
theorem index_safety_witness :
    (1 ≤ 1 ∧ 1 ≤ 1 ∧ 1 + 1 ≤ 31) ∧
    (∀ p ∈ fft_prologue_positions 1 1, p < 2 ^ 1) ∧
    fft2d_data_len 1 1 = 2 ^ 1 * 2 ^ 1 ∧
    slice_index
      { slice := 1, log_width := 1, log_height := 1, data := ptr_t.buff, vertical := false } 1
        < fft2d_data_len 1 1 ∧
    slice_index
      { slice := 1, log_width := 1, log_height := 1, data := ptr_t.data, vertical := true } 1
        < fft2d_data_len 1 1 ∧
    fft2d_checked delta_grid 1 1 2 false (some zero_buff)
      = fft2d delta_grid 1 1 2 false (some zero_buff) ∧
    (fft2d_checked delta_grid 1 1 2 false (some zero_buff)).isSome = true := by
  obtain ⟨h1, h2, h3, h4, _, _, h7⟩ :=
    index_safety 1 1 (by decide) (by decide) (by decide)
  exact ⟨by decide, (h1 1 (Or.inl rfl) 1 (by decide)).1, h2,
    h3 ptr_t.buff 1 1 (by decide) (by decide), h4 ptr_t.data 1 1 (by decide) (by decide),
    (h7 delta_grid 2 false (some zero_buff)).1, (h7 delta_grid 2 false (some zero_buff)).2⟩

end Unblur
